import Mathlib

/-!
Verification of the lexer in `main.go` (package main) of the tokenizer
repository.  The lexer is shallowly embedded: the Go `Lexer` struct becomes a
Lean structure, every method becomes a pure function from lexer state to lexer
state, and every `for` loop becomes a fueled structural recursion.  Each loop
is invoked with fuel `src.length + 2`; every loop body either consumes at
least one code point or stops, so this fuel is always sufficient and the
fueled function agrees with the Go loop (the adequacy arguments appear as
comments at the loop definitions, and the progress lemmas below).

Unicode abstraction: Go's `unicode.IsLetter`, `unicode.IsDigit` and
`strings.ToLower` consult the full Unicode tables.  The embedding models them
on the ASCII range (where they agree with Go); all keyword and type-name
spellings, all digits accepted by the numeric grammar, and every concrete
input used below are ASCII, and every theorem is stated relative to these
model classifiers.
-/

namespace GoLexer

/-- The rune value 0, which the Go code uses both as the end-of-input
sentinel returned by `peek`/`advance` and (unavoidably) as the value of an
actual NUL code point in the input. -/
def sentinel : Char := Char.ofNat 0

/-- The single-quote code point. -/
def squote : Char := Char.ofNat 39

/-- The double-quote code point. -/
def dquote : Char := Char.ofNat 34

/-- The backslash code point. -/
def bslash : Char := Char.ofNat 92

/-- The backquote code point (raw-string delimiter). -/
def backquote : Char := Char.ofNat 96

/-- `TokenType` from main.go: one tag per keyword, literal kind, name kind and
fixed symbol. -/
inductive TokenType where
  | KW_PKG | KW_IMP | KW_DEF | KW_VAR | KW_CONS | KW_TYPE
  | KW_STRUCT | KW_INTERFACE | KW_MAPPING | KW_CHANNEL
  | KW_J | KW_SELECT | KW_LATER | KW_RET | KW_IF | KW_ELSE
  | KW_SWITCH | KW_CASE | KW_FALL | KW_FR | KW_RANGE
  | KW_BREAK | KW_CONTINUE | KW_JOTO | KW_DFT | KW_PANIC | KW_RECOVER
  | IDENT | INT_LIT | FLOAT_LIT | STRING_LIT | CHAR_LIT | TYPE_NAME
  | LPAREN | RPAREN | LBRACE | RBRACE | LBRACK | RBRACK
  | COMMA | SEMI | COLON | DOT
  | ASSIGN | DECL | PLUS | MINUS | STAR | SLASH | PERCENT
  | LT | GT | LE | GE | EQ | NE | ANDAND | OROR
  | BAND | BOR | BXOR | SHL | SHR
  | ADDEQ | SUBEQ | MULEQ | DIVEQ | MODEQ | ANDEQ | OREQ | XOREQ
  | SHLEQ | SHREQ | CH_SEND | BANG
  deriving DecidableEq, Repr

/-- The `keywords` map of main.go as an association list from the lowercase
spelling to the keyword tag (a Go map with distinct keys; insertion order is
irrelevant to lookup). -/
def keywords : List (List Char × TokenType) :=
  [("pkg".toList, .KW_PKG), ("imp".toList, .KW_IMP), ("def".toList, .KW_DEF),
   ("var".toList, .KW_VAR), ("cons".toList, .KW_CONS), ("type".toList, .KW_TYPE),
   ("struct".toList, .KW_STRUCT), ("interface".toList, .KW_INTERFACE),
   ("mapping".toList, .KW_MAPPING), ("channel".toList, .KW_CHANNEL),
   ("j".toList, .KW_J), ("select".toList, .KW_SELECT), ("later".toList, .KW_LATER),
   ("ret".toList, .KW_RET), ("if".toList, .KW_IF), ("else".toList, .KW_ELSE),
   ("switch".toList, .KW_SWITCH), ("case".toList, .KW_CASE), ("fall".toList, .KW_FALL),
   ("fr".toList, .KW_FR), ("range".toList, .KW_RANGE), ("break".toList, .KW_BREAK),
   ("continue".toList, .KW_CONTINUE), ("joto".toList, .KW_JOTO), ("dft".toList, .KW_DFT),
   ("panic".toList, .KW_PANIC), ("recover".toList, .KW_RECOVER),
   ("recovery".toList, .KW_RECOVER)]

/-- Go map indexing `keywords[low]` with its ok flag, as an Option. -/
def keywordLookup (s : List Char) : Option TokenType :=
  keywords.lookup s

/-- The `typeNames` set of main.go (case-sensitive spellings). -/
def typeNames : List (List Char) :=
  ["i8".toList, "i16".toList, "i32".toList, "i64".toList,
   "u8".toList, "u16".toList, "u32".toList, "u64".toList,
   "f32".toList, "f64".toList, "bool".toList, "string".toList]

/-- `Token` from main.go.  The Go struct also carries `IntVal *int64` and
`FloatVal *float64`; every call to `add` in the lexer passes nil for both, so
no scanning path ever populates them and they are omitted here. -/
structure Token where
  type : TokenType
  lexeme : List Char
  line : Nat
  col : Nat
  deriving DecidableEq, Repr

/-- One lexical error.  Go stores the already-formatted string
`fmt.Sprintf("lexical error at %d:%d: %s", l, c, msg)`; the embedding keeps
the three fields, and `renderErr` below produces the formatted string. -/
structure LexErr where
  line : Nat
  col : Nat
  msg : String
  deriving DecidableEq, Repr

/-- `renderErr` turns a structured error into exactly the string the Go code
appends to `lx.errors`. -/
def renderErr (e : LexErr) : String :=
  "lexical error at " ++ toString e.line ++ ":" ++ toString e.col ++ ": " ++ e.msg

/-- The `Lexer` struct of main.go.  Go additionally caches `length = len(src)`;
the embedding uses `src.length` directly. -/
structure Lexer where
  src : List Char
  i : Nat
  line : Nat
  col : Nat
  tokens : List Token
  errors : List LexErr
  deriving DecidableEq, Repr

/-- `NewLexer`: cursor at 0, position 1:1, empty token and error lists. -/
def NewLexer (input : List Char) : Lexer :=
  ⟨input, 0, 1, 1, [], []⟩

/-- `peek(n)` from main.go, faithfully including its missing lower-bound
check: `j := lx.i + n; if j >= lx.length { return 0 }; return lx.src[j]`.
When `j` is negative the Go expression `lx.src[j]` is an out-of-range index
and panics at run time; the panic is modeled as `none`. -/
def peek (lx : Lexer) (n : Int) : Option Char :=
  let j : Int := (lx.i : Int) + n
  if (lx.src.length : Int) ≤ j then some sentinel
  else if 0 ≤ j then some (lx.src.getD j.toNat sentinel)
  else none

/-- `peek` at a nonnegative offset (every call site in the lexer except the
look-behind in `scanString` uses offsets 0, 1 or 2).  Total; agrees with
`peek` on nonnegative offsets (`peek_nonneg` below). -/
def peekT (lx : Lexer) (n : Nat) : Char :=
  if lx.src.length ≤ lx.i + n then sentinel
  else lx.src.getD (lx.i + n) sentinel

/-- The look-behind `peek(-1)` as used in `scanString`, where the cursor has
just advanced (so `lx.i ≥ 1` and the Go index `lx.i - 1` is in range);
`peek_neg_one` below relates it to `peek`. -/
def peekBack (lx : Lexer) : Char :=
  if lx.src.length ≤ lx.i - 1 then sentinel
  else lx.src.getD (lx.i - 1) sentinel

/-- `advance()`: returns the code point at the cursor and moves the cursor
forward, updating line/column (a consumed newline increments `line` and
resets `col` to 1, any other consumed code point increments `col`); at end of
input it returns the sentinel without moving. -/
def advance (lx : Lexer) : Char × Lexer :=
  if lx.src.length ≤ lx.i then (sentinel, lx)
  else
    let ch := lx.src.getD lx.i sentinel
    (ch, { lx with
            i := lx.i + 1,
            line := if ch = '\n' then lx.line + 1 else lx.line,
            col := if ch = '\n' then 1 else lx.col + 1 })

/-- `add`: append one token (IntVal/FloatVal are always nil, see `Token`). -/
def addTok (lx : Lexer) (tt : TokenType) (lex : List Char) (l c : Nat) : Lexer :=
  { lx with tokens := lx.tokens ++ [⟨tt, lex, l, c⟩] }

/-- `errorAt`: append one error. -/
def errorAt (lx : Lexer) (l c : Nat) (msg : String) : Lexer :=
  { lx with errors := lx.errors ++ [⟨l, c, msg⟩] }

/-- Models `unicode.IsLetter` on the ASCII range (see the header comment). -/
def isLetter (c : Char) : Bool :=
  ('a' ≤ c && c ≤ 'z') || ('A' ≤ c && c ≤ 'Z')

/-- Models `unicode.IsDigit` on the ASCII range. -/
def isDigitU (c : Char) : Bool :=
  '0' ≤ c && c ≤ '9'

/-- `isIdentStart`: underscore or letter. -/
def isIdentStart (c : Char) : Bool :=
  c = '_' || isLetter c

/-- `isIdentPart`: underscore, letter or digit. -/
def isIdentPart (c : Char) : Bool :=
  c = '_' || isLetter c || isDigitU c

/-- Models `strings.ToLower` per code point on the ASCII range. -/
def lowerChar (c : Char) : Char :=
  if 'A' ≤ c && c ≤ 'Z' then Char.ofNat (c.toNat + 32) else c

/-- The slice `src[a:b]` of the rune buffer (used by `scanNumber`, and below
to name the span of code points a scan consumed). -/
def seg (src : List Char) (a b : Nat) : List Char :=
  (src.drop a).take (b - a)

/-- The line-comment loop of `skipWSAndComments`:
`for ch != '\n' && ch != 0 { ch = lx.advance() }`, entered with
`ch = lx.peek(0)`.  Fueled; each iteration either advances the cursor or sets
`ch` to the sentinel (at end of input) after which the next check exits, so
fuel `src.length + 2` always suffices. -/
def lineCommentLoop : Nat → Lexer → Char → Lexer
  | 0, lx, _ => lx
  | f + 1, lx, ch =>
    if ch ≠ '\n' ∧ ch ≠ sentinel then
      let (c, lx') := advance lx
      lineCommentLoop f lx' c
    else lx

/-- The nested block-comment loop of `skipWSAndComments` (`for depth > 0`).
The returned Bool is true when the loop finished normally (depth returned to
zero; the outer skipping loop continues) and false when it hit the sentinel
(the "unterminated block comment" error was recorded at the opening position
and `skipWSAndComments` returns at once).  Every iteration consumes at least
one code point, so fuel `src.length + 2` always suffices. -/
def blockCommentLoop : Nat → Lexer → Nat → Nat → Nat → Lexer × Bool
  | 0, lx, _, _, _ => (lx, false)
  | f + 1, lx, depth, sl, sc =>
    if 0 < depth then
      let c := peekT lx 0
      if c = sentinel then
        (errorAt lx sl sc "unterminated block comment", false)
      else if c = '/' ∧ peekT lx 1 = '*' then
        blockCommentLoop f (advance (advance lx).2).2 (depth + 1) sl sc
      else if c = '*' ∧ peekT lx 1 = '/' then
        blockCommentLoop f (advance (advance lx).2).2 (depth - 1) sl sc
      else
        blockCommentLoop f (advance lx).2 depth sl sc
    else (lx, true)

/-- The outer loop of `skipWSAndComments`: consume whitespace, line comments
and nested block comments until real content, end of input, or an
unterminated block comment.  Every iteration that loops again consumes at
least one code point, so fuel `src.length + 2` always suffices. -/
def skipLoop : Nat → Lexer → Lexer
  | 0, lx => lx
  | f + 1, lx =>
    let ch := peekT lx 0
    if ch = ' ' ∨ ch = '\t' ∨ ch = '\r' ∨ ch = '\n' then
      skipLoop f (advance lx).2
    else if ch = '/' ∧ peekT lx 1 = '/' then
      skipLoop f (lineCommentLoop (lx.src.length + 2) lx ch)
    else if ch = '/' ∧ peekT lx 1 = '*' then
      let sl := lx.line
      let sc := lx.col
      let lx1 := (advance (advance lx).2).2
      let r := blockCommentLoop (lx.src.length + 2) lx1 1 sl sc
      if r.2 then skipLoop f r.1 else r.1
    else lx

/-- `skipWSAndComments` from main.go. -/
def skipWSAndComments (lx : Lexer) : Lexer :=
  skipLoop (lx.src.length + 2) lx

/-- The identifier loop of `scanIdentOrKeyword`:
`for lx.isIdentPart(lx.peek(0)) { b.WriteRune(lx.advance()) }`, with `b` the
accumulated lexeme.  `isIdentPart` rejects the sentinel, so the loop stops at
end of input; fuel `src.length + 2` always suffices. -/
def identLoop : Nat → Lexer → List Char → List Char × Lexer
  | 0, lx, b => (b, lx)
  | f + 1, lx, b =>
    if isIdentPart (peekT lx 0) then
      let (c, lx') := advance lx
      identLoop f lx' (b ++ [c])
    else (b, lx)

/-- `scanIdentOrKeyword` from main.go: consume a maximal identifier run,
probe the keyword table with the lowercased lexeme, then the type-name table
with the original lexeme, else emit IDENT; the lexeme always keeps the
original casing. -/
def scanIdentOrKeyword (lx : Lexer) : Lexer :=
  let l := lx.line
  let c := lx.col
  let r := identLoop (lx.src.length + 2) lx []
  let lex := r.1
  let lx1 := r.2
  let low := lex.map lowerChar
  match keywordLookup low with
  | some t => addTok lx1 t lex l c
  | none =>
    if typeNames.contains lex then addTok lx1 .TYPE_NAME lex l c
    else addTok lx1 .IDENT lex l c

/-- Whether the adjacent pair `a, b` occurs in `s`; models
`strings.Contains(s, p)` for the two-character patterns of
`validUnderscores` (all pattern characters are ASCII, so byte containment
coincides with code-point containment). -/
def containsPair : List Char → Char → Char → Bool
  | [], _, _ => false
  | [_], _, _ => false
  | x :: y :: rest, a, b => (x = a && y = b) || containsPair (y :: rest) a b

/-- The `bad` pattern list of `validUnderscores`: `_` adjacent, in either
order, to one of `. e E x X b B o O`. -/
def badPairs : List (Char × Char) :=
  [('_', '.'), ('.', '_'), ('e', '_'), ('_', 'e'), ('E', '_'), ('_', 'E'),
   ('x', '_'), ('_', 'x'), ('X', '_'), ('_', 'X'), ('b', '_'), ('_', 'b'),
   ('B', '_'), ('_', 'B'), ('o', '_'), ('_', 'o'), ('O', '_'), ('_', 'O')]

/-- `validUnderscores` from main.go: reject the empty string, a leading or
trailing underscore, a doubled underscore, or an underscore adjacent to any
of the `badPairs` characters. -/
def validUnderscores (s : List Char) : Bool :=
  if s = [] then false
  else if s.headD sentinel = '_' || s.getLastD sentinel = '_' then false
  else if containsPair s '_' '_' then false
  else if badPairs.any (fun p => containsPair s p.1 p.2) then false
  else true

/-- The digit-run condition of the base-prefixed loop in `scanNumber`,
with Go's operator precedence:
`ch == '_' || unicode.IsDigit(ch) || (base hex) && (hex letter) ||
 (base bin) && (0/1) || (base oct) && (0..7)`. -/
def isBaseDigit (base ch : Char) : Bool :=
  ch = '_' || isDigitU ch ||
  ((base = 'x' || base = 'X') && (('a' ≤ ch && ch ≤ 'f') || ('A' ≤ ch && ch ≤ 'F'))) ||
  ((base = 'b' || base = 'B') && (ch = '0' || ch = '1')) ||
  ((base = 'o' || base = 'O') && ('0' ≤ ch && ch ≤ '7'))

/-- The counting digit loop of the base-prefixed branch of `scanNumber`.
Fuel `src.length + 2` always suffices (`isBaseDigit` rejects the sentinel). -/
def baseDigitsLoop : Nat → Lexer → Char → Nat → Lexer × Nat
  | 0, lx, _, count => (lx, count)
  | f + 1, lx, base, count =>
    if isBaseDigit base (peekT lx 0) then
      baseDigitsLoop f (advance lx).2 base (count + 1)
    else (lx, count)

/-- The decimal digit/underscore condition of `scanNumber`
(`unicode.IsDigit(lx.peek(0)) || lx.peek(0) == '_'`). -/
def ddigit (ch : Char) : Bool :=
  isDigitU ch || ch = '_'

/-- A run `for ddigit (peek 0) { advance }`, used three times by the
decimal/float branch of `scanNumber`.  Fuel `src.length + 2` always
suffices. -/
def decDigitsLoop : Nat → Lexer → Lexer
  | 0, lx => lx
  | f + 1, lx =>
    if ddigit (peekT lx 0) then decDigitsLoop f (advance lx).2 else lx

/-- The base-specific error message selection of `scanNumber` (the default
"invalid numeric literal" is unreachable: `base` is always one of the six
prefix letters). -/
def baseMsg (base : Char) : String :=
  if base = 'x' || base = 'X' then "invalid hex literal"
  else if base = 'b' || base = 'B' then "invalid binary literal"
  else if base = 'o' || base = 'O' then "invalid octal literal"
  else "invalid numeric literal"

/-- The shared tail of the decimal/float branch of `scanNumber` (in Go the
two paths fall through to this code): slice the whole lexeme, re-validate
underscores, and emit FLOAT_LIT or INT_LIT. -/
def finishDec (lx : Lexer) (start l c : Nat) (isFloat : Bool) : Lexer :=
  let lex := seg lx.src start lx.i
  if !validUnderscores lex then
    errorAt lx l c "illegal underscore placement in number"
  else if isFloat || lex.any (fun ch => ch = '.' || ch = 'e' || ch = 'E') then
    addTok lx .FLOAT_LIT lex l c
  else
    addTok lx .INT_LIT lex l c

/-- `scanNumber` from main.go: base-prefixed branch (0x/0X, 0b/0B, 0o/0O)
or decimal/float branch (integer part, optional fraction, optional
exponent). -/
def scanNumber (lx : Lexer) : Lexer :=
  let l := lx.line
  let c := lx.col
  let start := lx.i
  let fuel := lx.src.length + 2
  if peekT lx 0 = '0' && (peekT lx 1 = 'x' || peekT lx 1 = 'X' || peekT lx 1 = 'b' ||
      peekT lx 1 = 'B' || peekT lx 1 = 'o' || peekT lx 1 = 'O') then
    let base := peekT lx 1
    let r := baseDigitsLoop fuel (advance (advance lx).2).2 base 0
    let lx2 := r.1
    let body := seg lx2.src (start + 2) lx2.i
    if r.2 = 0 || !validUnderscores body then
      errorAt lx2 l c (baseMsg base)
    else
      addTok lx2 .INT_LIT (seg lx2.src start lx2.i) l c
  else
    let lx1 := decDigitsLoop fuel lx
    let hasFrac := peekT lx1 0 = '.' && isDigitU (peekT lx1 1)
    let lx2 := if hasFrac then decDigitsLoop fuel (advance lx1).2 else lx1
    if peekT lx2 0 = 'e' || peekT lx2 0 = 'E' then
      let lx3 := (advance lx2).2
      let lx4 := if peekT lx3 0 = '+' || peekT lx3 0 = '-' then (advance lx3).2 else lx3
      if !isDigitU (peekT lx4 0) then
        errorAt lx4 l c "invalid float exponent"
      else
        finishDec (decDigitsLoop fuel lx4) start l c true
    else
      finishDec lx2 start l c hasFrac

/-- The byte length `strings.Builder.Len()` of the accumulated lexeme: the
sum of the UTF-8 sizes of its code points. -/
def charSize (c : Char) : Nat :=
  if c.toNat < 0x80 then 1
  else if c.toNat < 0x800 then 2
  else if c.toNat < 0x10000 then 3
  else 4

/-- UTF-8 byte length of a code-point list (models `b.Len()`). -/
def utf8Len (s : List Char) : Nat :=
  (s.map charSize).sum

/-- The main loop of `scanString`, carrying the accumulated lexeme `b` (which
always starts with the already-consumed opening quote, so `b ≠ []`).  Each
iteration consumes one or two code points, so fuel `src.length + 2` always
suffices.  The check `utf8Len ≥ 2 && last = quote && peekBack ≠ backslash`
and the following `peek(0) = quote` check reproduce the Go code verbatim
(including its redundancy, analysed in `scanStringLoop_spec`). -/
def scanStringLoop : Nat → Lexer → List Char → Nat → Nat → Lexer
  | 0, lx, _, _, _ => lx
  | f + 1, lx, b, l, c =>
    let ch := peekT lx 0
    if ch = sentinel ∨ ch = '\n' then
      errorAt lx l c "unterminated string literal"
    else if ch = bslash then
      let lx1 := (advance lx).2
      if peekT lx1 0 = sentinel ∨ peekT lx1 0 = '\n' then
        errorAt lx1 l c "unterminated string escape"
      else
        scanStringLoop f (advance lx1).2 (b ++ [ch, peekT lx1 0]) l c
    else
      let lx1 := (advance lx).2
      let b1 := b ++ [ch]
      if 2 ≤ utf8Len b1 ∧ b1.getLastD sentinel = dquote ∧ peekBack lx1 ≠ bslash then
        addTok lx1 .STRING_LIT b1 l c
      else if peekT lx1 0 = dquote then
        addTok (advance lx1).2 .STRING_LIT (b1 ++ [dquote]) l c
      else
        scanStringLoop f lx1 b1 l c

/-- `scanString` from main.go: consume the opening quote, then run the loop. -/
def scanString (lx : Lexer) : Lexer :=
  let l := lx.line
  let c := lx.col
  let r := advance lx
  scanStringLoop (lx.src.length + 2) r.2 [r.1] l c

/-- The loop of `scanRawString`: every code point verbatim until a closing
backquote; sentinel means unterminated.  Fuel `src.length + 2` always
suffices. -/
def scanRawLoop : Nat → Lexer → List Char → Nat → Nat → Lexer
  | 0, lx, _, _, _ => lx
  | f + 1, lx, b, l, c =>
    let ch := peekT lx 0
    if ch = sentinel then
      errorAt lx l c "unterminated raw string"
    else
      let lx1 := (advance lx).2
      let b1 := b ++ [ch]
      if ch = backquote then addTok lx1 .STRING_LIT b1 l c
      else scanRawLoop f lx1 b1 l c

/-- `scanRawString` from main.go. -/
def scanRawString (lx : Lexer) : Lexer :=
  let l := lx.line
  let c := lx.col
  let r := advance lx
  scanRawLoop (lx.src.length + 2) r.2 [r.1] l c

/-- The closing-quote tail of `scanChar`. -/
def scanCharClose (lx : Lexer) (b : List Char) (l c : Nat) : Lexer :=
  if peekT lx 0 ≠ squote then errorAt lx l c "unterminated char literal"
  else addTok (advance lx).2 .CHAR_LIT (b ++ [squote]) l c

/-- `scanChar` from main.go: opening quote, then either a backslash pair or
exactly one ordinary code point, then the closing quote. -/
def scanChar (lx : Lexer) : Lexer :=
  let l := lx.line
  let c := lx.col
  let r := advance lx
  let lx1 := r.2
  let b := [r.1]
  let ch := peekT lx1 0
  if ch = bslash then
    let lx2 := (advance lx1).2
    if peekT lx2 0 = sentinel ∨ peekT lx2 0 = '\n' then
      errorAt lx2 l c "unterminated char escape"
    else
      scanCharClose (advance lx2).2 (b ++ [ch, peekT lx2 0]) l c
  else
    if ch = sentinel ∨ ch = '\n' ∨ ch = squote then
      errorAt lx1 l c "empty or invalid char literal"
    else
      scanCharClose (advance lx1).2 (b ++ [ch]) l c

/-- Two lowercase hex digits of a byte value (for `goQuoteRune`). -/
def hexDigit (n : Nat) : Char :=
  if n < 10 then Char.ofNat (48 + n) else Char.ofNat (87 + n)

/-- Models the Go formatting verb `%q` applied to a rune (as in
`fmt.Sprintf("invalid character %q", ch)`): a single-quoted, Go-escaped
character literal.  Faithful for printable ASCII, the common control escapes
and bytes below 0x80; other code points (unreachable in the claims below) are
abstracted to the `\u`-style form. -/
def goQuoteRune (c : Char) : String :=
  if c = squote then String.mk [squote, bslash, squote, squote]
  else if c = bslash then String.mk [squote, bslash, bslash, squote]
  else if c = '\n' then String.mk [squote, bslash, 'n', squote]
  else if c = '\t' then String.mk [squote, bslash, 't', squote]
  else if c = '\r' then String.mk [squote, bslash, 'r', squote]
  else if c.toNat = 7 then String.mk [squote, bslash, 'a', squote]
  else if c.toNat = 8 then String.mk [squote, bslash, 'b', squote]
  else if c.toNat = 11 then String.mk [squote, bslash, 'v', squote]
  else if c.toNat = 12 then String.mk [squote, bslash, 'f', squote]
  else if 0x20 ≤ c.toNat ∧ c.toNat < 0x7f then String.mk [squote, c, squote]
  else if c.toNat < 0x80 then
    String.mk [squote, bslash, 'x', hexDigit (c.toNat / 16), hexDigit (c.toNat % 16), squote]
  else
    String.mk ([squote, bslash, 'u'] ++ (Nat.toDigits 16 c.toNat).map id ++ [squote])

/-- The `switch ch` of `nextToken` handling punctuation and operators with 1-3
characters of lookahead, and the default "invalid character %q" error (which
still advances past the offending code point).  `l`/`c` are the position
captured before dispatch; `ch = peek(0)`. -/
def symbolStep (lx : Lexer) (ch : Char) (l c : Nat) : Lexer :=
  if ch = '(' then addTok (advance lx).2 .LPAREN ['('] l c
  else if ch = ')' then addTok (advance lx).2 .RPAREN [')'] l c
  else if ch = '{' then addTok (advance lx).2 .LBRACE ['{'] l c
  else if ch = '}' then addTok (advance lx).2 .RBRACE ['}'] l c
  else if ch = '[' then addTok (advance lx).2 .LBRACK ['['] l c
  else if ch = ']' then addTok (advance lx).2 .RBRACK [']'] l c
  else if ch = ',' then addTok (advance lx).2 .COMMA [','] l c
  else if ch = ';' then addTok (advance lx).2 .SEMI [';'] l c
  else if ch = ':' then
    if peekT lx 1 = '=' then addTok (advance (advance lx).2).2 .DECL [':', '='] l c
    else addTok (advance lx).2 .COLON [':'] l c
  else if ch = '.' then addTok (advance lx).2 .DOT ['.'] l c
  else if ch = '+' then
    if peekT lx 1 = '=' then addTok (advance (advance lx).2).2 .ADDEQ ['+', '='] l c
    else addTok (advance lx).2 .PLUS ['+'] l c
  else if ch = '-' then
    if peekT lx 1 = '=' then addTok (advance (advance lx).2).2 .SUBEQ ['-', '='] l c
    else addTok (advance lx).2 .MINUS ['-'] l c
  else if ch = '*' then
    if peekT lx 1 = '=' then addTok (advance (advance lx).2).2 .MULEQ ['*', '='] l c
    else addTok (advance lx).2 .STAR ['*'] l c
  else if ch = '/' then
    if peekT lx 1 = '=' then addTok (advance (advance lx).2).2 .DIVEQ ['/', '='] l c
    else addTok (advance lx).2 .SLASH ['/'] l c
  else if ch = '%' then
    if peekT lx 1 = '=' then addTok (advance (advance lx).2).2 .MODEQ ['%', '='] l c
    else addTok (advance lx).2 .PERCENT ['%'] l c
  else if ch = '<' then
    if peekT lx 1 = '-' then addTok (advance (advance lx).2).2 .CH_SEND ['<', '-'] l c
    else if peekT lx 1 = '=' then addTok (advance (advance lx).2).2 .LE ['<', '='] l c
    else if peekT lx 1 = '<' then
      if peekT lx 2 = '=' then
        addTok (advance (advance (advance lx).2).2).2 .SHLEQ ['<', '<', '='] l c
      else addTok (advance (advance lx).2).2 .SHL ['<', '<'] l c
    else addTok (advance lx).2 .LT ['<'] l c
  else if ch = '>' then
    if peekT lx 1 = '=' then addTok (advance (advance lx).2).2 .GE ['>', '='] l c
    else if peekT lx 1 = '>' then
      if peekT lx 2 = '=' then
        addTok (advance (advance (advance lx).2).2).2 .SHREQ ['>', '>', '='] l c
      else addTok (advance (advance lx).2).2 .SHR ['>', '>'] l c
    else addTok (advance lx).2 .GT ['>'] l c
  else if ch = '=' then
    if peekT lx 1 = '=' then addTok (advance (advance lx).2).2 .EQ ['=', '='] l c
    else addTok (advance lx).2 .ASSIGN ['='] l c
  else if ch = '!' then
    if peekT lx 1 = '=' then addTok (advance (advance lx).2).2 .NE ['!', '='] l c
    else addTok (advance lx).2 .BANG ['!'] l c
  else if ch = '&' then
    if peekT lx 1 = '&' then addTok (advance (advance lx).2).2 .ANDAND ['&', '&'] l c
    else if peekT lx 1 = '=' then addTok (advance (advance lx).2).2 .ANDEQ ['&', '='] l c
    else addTok (advance lx).2 .BAND ['&'] l c
  else if ch = '|' then
    if peekT lx 1 = '|' then addTok (advance (advance lx).2).2 .OROR ['|', '|'] l c
    else if peekT lx 1 = '=' then addTok (advance (advance lx).2).2 .OREQ ['|', '='] l c
    else addTok (advance lx).2 .BOR ['|'] l c
  else if ch = '^' then
    if peekT lx 1 = '=' then addTok (advance (advance lx).2).2 .XOREQ ['^', '='] l c
    else addTok (advance lx).2 .BXOR ['^'] l c
  else
    (advance (errorAt lx l c ("invalid character " ++ goQuoteRune ch))).2

/-- `nextToken` from main.go: skip trivia; if the next code point is the
sentinel report no more tokens; otherwise dispatch on the first code point
and report that scanning may continue.  The Go method mutates the receiver
and returns a Bool; here it returns the Bool with the new state. -/
def nextToken (lx0 : Lexer) : Bool × Lexer :=
  let lx := skipWSAndComments lx0
  let ch := peekT lx 0
  if ch = sentinel then (false, lx)
  else
    let l := lx.line
    let c := lx.col
    if isIdentStart ch then (true, scanIdentOrKeyword lx)
    else if isDigitU ch then (true, scanNumber lx)
    else if ch = dquote then (true, scanString lx)
    else if ch = backquote then (true, scanRawString lx)
    else if ch = squote then (true, scanChar lx)
    else (true, symbolStep lx ch l c)

/-- The driver loop of `LexAll` (`for lx.nextToken() {}`), fueled.  Every
step that returns true consumes at least one code point and a step with the
cursor at or past the end returns false, so at most `src.length` true steps
occur and fuel `src.length + 2` always suffices. -/
def lexAllF : Nat → Lexer → Lexer
  | 0, lx => lx
  | f + 1, lx =>
    let r := nextToken lx
    if r.1 then lexAllF f r.2 else r.2

/-- `LexAll` from main.go: run `nextToken` to completion; the final state
carries the token list and error list that Go returns. -/
def LexAll (lx : Lexer) : Lexer :=
  lexAllF (lx.src.length + 2) lx

/-! ### Derived notions used to state the claims -/

/-- The (line, column) value of the position tracker after consuming the
first `n` code points of `src`: the position of the code point at index `n`. -/
def posOf (src : List Char) : Nat → Nat × Nat
  | 0 => (1, 1)
  | n + 1 =>
    let p := posOf src n
    if src.getD n sentinel = '\n' then (p.1 + 1, 1) else (p.1, p.2 + 1)

/-- Well-formedness of a lexer state: the cursor is inside the buffer
(or one past) and line/column are the position of the code point at the
cursor.  Holds for `NewLexer` and is preserved by every operation. -/
def Wf (lx : Lexer) : Prop :=
  lx.i ≤ lx.src.length ∧ (lx.line, lx.col) = posOf lx.src lx.i

/-- The tokens a step appended: the suffix of the new token list past the old
length (every scanner appends at most one). -/
def newTokens (lx lx' : Lexer) : List Token :=
  lx'.tokens.drop lx.tokens.length

/-- Concatenation of the lexemes of a token list. -/
def concatLexemes (ts : List Token) : List Char :=
  ts.flatMap Token.lexeme

/-- Per step of one full run: the trivia span this step skipped followed by
the lexemes of the tokens it emitted (the reading of claim C1: tokens plus
trivia only). -/
def tokensTriviaF : Nat → Lexer → List Char
  | 0, _ => []
  | f + 1, lx =>
    let lx1 := skipWSAndComments lx
    let r := nextToken lx
    seg lx.src lx.i lx1.i ++ concatLexemes (newTokens lx r.2) ++
      (if r.1 then tokensTriviaF f r.2 else [])

/-- Concatenation, over one full run, of all skipped trivia and all token
lexemes, in order. -/
def tokensTriviaConcat (lx : Lexer) : List Char :=
  tokensTriviaF (lx.src.length + 2) lx

/-- Per step: the trivia span, then the token lexemes if the step emitted a
token, else the span of code points the failed attempt consumed. -/
def runPiecesF : Nat → Lexer → List Char
  | 0, _ => []
  | f + 1, lx =>
    let lx1 := skipWSAndComments lx
    let r := nextToken lx
    seg lx.src lx.i lx1.i ++
      (if r.2.tokens.length = lx.tokens.length then seg lx.src lx1.i r.2.i
       else concatLexemes (newTokens lx r.2)) ++
      (if r.1 then runPiecesF f r.2 else [])

/-- Concatenation, over one full run, of all skipped trivia, all token
lexemes, and the spans consumed by error-triggering attempts, in order. -/
def runPieces (lx : Lexer) : List Char :=
  runPiecesF (lx.src.length + 2) lx

/-- Outcome of the double-quoted-string contract of the specification. -/
inductive StrRes where
  | ok (cs : List Char)
  | uterm
  | badEsc
  deriving DecidableEq, Repr

/-- Modelled from the spec (§4.6, and the design note asking for the intended
contract rather than the redundant check structure): scan the code points
after the opening quote; stop at the first closing quote that is not the
second half of a backslash pair, a backslash consumes itself and the next
code point; end of input or a newline (or the sentinel-conflated NUL) before
the closing quote is "unterminated string literal", and right after a
backslash is "unterminated string escape".  `ok cs` returns the consumed code
points including the closing quote. -/
def stringSpec : List Char → StrRes
  | [] => .uterm
  | ch :: rest =>
    if ch = sentinel ∨ ch = '\n' then .uterm
    else if ch = bslash then
      match rest with
      | [] => .badEsc
      | d :: rest' =>
        if d = sentinel ∨ d = '\n' then .badEsc
        else
          match stringSpec rest' with
          | .ok cs => .ok (ch :: d :: cs)
          | r => r
    else if ch = dquote then .ok [ch]
    else
      match stringSpec rest with
      | .ok cs => .ok (ch :: cs)
      | r => r

/-- The characters whose adjacency to an underscore `validUnderscores`
rejects. -/
def adjChars : List Char :=
  ['.', 'e', 'E', 'x', 'X', 'b', 'B', 'o', 'O']

/-- The rejection condition of the underscore-validation rule as the spec
states it: empty, leading or trailing underscore, two consecutive
underscores, or an underscore adjacent (in either order) to one of
`adjChars`. -/
def underscoreReject (s : List Char) : Prop :=
  s = [] ∨ s.headD sentinel = '_' ∨ s.getLastD sentinel = '_' ∨
  (∃ k, k + 1 < s.length ∧ s.getD k sentinel = '_' ∧ s.getD (k + 1) sentinel = '_') ∨
  (∃ k c, k + 1 < s.length ∧ c ∈ adjChars ∧
    ((s.getD k sentinel = '_' ∧ s.getD (k + 1) sentinel = c) ∨
     (s.getD k sentinel = c ∧ s.getD (k + 1) sentinel = '_')))

/-- Derived description of the decimal/float branch of `scanNumber`: the
cursor index after the integer-part digit/underscore run, scanning `src` from
index `i` (proved to match the code in `scanNumber_dec_spec`). -/
def decIntEnd (src : List Char) (i : Nat) : Nat :=
  i + ((src.drop i).takeWhile ddigit).length

/-- Whether the decimal branch takes a fractional part
(`peek(0) == '.' && IsDigit(peek(1))` after the integer run). -/
def decHasFrac (src : List Char) (i : Nat) : Bool :=
  src.getD (decIntEnd src i) sentinel = '.' && isDigitU (src.getD (decIntEnd src i + 1) sentinel)

/-- The cursor index after the integer part and the optional fractional
part. -/
def decFracEnd (src : List Char) (i : Nat) : Nat :=
  if decHasFrac src i then decIntEnd src (decIntEnd src i + 1) else decIntEnd src i

/-- Whether an exponent marker `e`/`E` follows the integer/fraction part. -/
def decHasExp (src : List Char) (i : Nat) : Bool :=
  src.getD (decFracEnd src i) sentinel = 'e' || src.getD (decFracEnd src i) sentinel = 'E'

/-- The index of the first mandatory exponent digit (after the marker and the
optional sign). -/
def decExpDigitPos (src : List Char) (i : Nat) : Nat :=
  if src.getD (decFracEnd src i + 1) sentinel = '+' ||
     src.getD (decFracEnd src i + 1) sentinel = '-' then
    decFracEnd src i + 2
  else decFracEnd src i + 1

/-- The final cursor index of a decimal/float scan that does not stop at an
exponent error. -/
def decEnd (src : List Char) (i : Nat) : Nat :=
  if decHasExp src i then
    decExpDigitPos src i + ((src.drop (decExpDigitPos src i)).takeWhile ddigit).length
  else decFracEnd src i

/-- Bookkeeping facts common to every lexer operation: the source is
unchanged, the cursor never moves backward, it never leaves the buffer, and
well-formedness is preserved. -/
def Walk (lx lx' : Lexer) : Prop :=
  lx'.src = lx.src ∧ lx.i ≤ lx'.i ∧ (lx.i ≤ lx.src.length → lx'.i ≤ lx.src.length) ∧
  (Wf lx → Wf lx')

/-- Postcondition of one scanner dispatch of `nextToken`: the cursor strictly
advanced and either exactly one token was appended, whose lexeme is exactly
the consumed span and whose position is the scan-start position, or exactly
one error was appended at the scan-start position and no token. -/
def ScanAcct (lx lx' : Lexer) : Prop :=
  Walk lx lx' ∧ lx.i < lx'.i ∧
  ((∃ t : Token, lx'.errors = lx.errors ∧ lx'.tokens = lx.tokens ++ [t] ∧
      t.lexeme = seg lx.src lx.i lx'.i ∧ t.line = lx.line ∧ t.col = lx.col) ∨
   (∃ e : LexErr, lx'.tokens = lx.tokens ∧ lx'.errors = lx.errors ++ [e] ∧
      e.line = lx.line ∧ e.col = lx.col))

/-- The outcome of the decimal/float branch of `scanNumber` started in state
`lx`, as a predicate on the result state: either the exponent error, or the
underscore-placement error, or exactly one INT/FLOAT token whose lexeme is
the consumed span (proved in `scanNumber_dec_spec`). -/
def DecOutcome (lx X : Lexer) : Prop :=
  X.src = lx.src ∧ Walk lx X ∧ lx.i < X.i ∧
  (if decHasExp lx.src lx.i = true ∧
      isDigitU (lx.src.getD (decExpDigitPos lx.src lx.i) sentinel) = false then
    X.tokens = lx.tokens ∧
    X.errors = lx.errors ++ [⟨lx.line, lx.col, "invalid float exponent"⟩]
  else if validUnderscores (seg lx.src lx.i (decEnd lx.src lx.i)) = false then
    X.tokens = lx.tokens ∧ X.i = decEnd lx.src lx.i ∧
    X.errors = lx.errors ++ [⟨lx.line, lx.col, "illegal underscore placement in number"⟩]
  else
    X.errors = lx.errors ∧ X.i = decEnd lx.src lx.i ∧
    X.tokens = lx.tokens ++
      [⟨(if decHasExp lx.src lx.i || decHasFrac lx.src lx.i ||
            (seg lx.src lx.i (decEnd lx.src lx.i)).any
              (fun ch => ch = '.' || ch = 'e' || ch = 'E') then
          TokenType.FLOAT_LIT
        else TokenType.INT_LIT),
        seg lx.src lx.i (decEnd lx.src lx.i), lx.line, lx.col⟩])

/-! ### Basic lemmas: peeking, advancing, spans, positions -/

/-- On a nonnegative offset, `peek` never fails and agrees with `peekT`. -/
theorem peek_nonneg (lx : Lexer) (n : Nat) : peek lx (n : Int) = some (peekT lx n) := by
  unfold peek peekT
  by_cases h : lx.src.length ≤ lx.i + n
  · simp only [h, if_pos]
    have : (lx.src.length : Int) ≤ (lx.i : Int) + (n : Int) := by exact_mod_cast h
    simp [this]
  · have h1 : ¬ ((lx.src.length : Int) ≤ (lx.i : Int) + (n : Int)) := by
      push_neg; push_neg at h; exact_mod_cast h
    have h2 : (0 : Int) ≤ (lx.i : Int) + (n : Int) := by positivity
    have h3 : ((lx.i : Int) + (n : Int)).toNat = lx.i + n := by omega
    simp [h, h1, h2, h3]

/-- The look-behind `peek(-1)` succeeds exactly when the cursor has moved at
least one code point, and then agrees with `peekBack`. -/
theorem peek_neg_one (lx : Lexer) (h : 1 ≤ lx.i) : peek lx (-1) = some (peekBack lx) := by
  unfold peek peekBack
  by_cases hl : lx.src.length ≤ lx.i - 1
  · have : (lx.src.length : Int) ≤ (lx.i : Int) + (-1) := by omega
    simp [this, hl]
  · have h1 : ¬ ((lx.src.length : Int) ≤ (lx.i : Int) + (-1)) := by omega
    have h2 : (0 : Int) ≤ (lx.i : Int) + (-1) := by omega
    have h3 : ((lx.i : Int) + (-1)).toNat = lx.i - 1 := by omega
    simp [h1, h2, h3, hl]

/-- Closed form of `peekT`: `getD` already yields the sentinel out of range. -/
theorem peekT_eq (lx : Lexer) (n : Nat) : peekT lx n = lx.src.getD (lx.i + n) sentinel := by
  unfold peekT
  split
  · rename_i h
    rw [List.getD_eq_default _ _ h]
  · rfl

/-- A non-sentinel peek is inside the buffer. -/
theorem peekT_lt (lx : Lexer) (n : Nat) (h : peekT lx n ≠ sentinel) :
    lx.i + n < lx.src.length := by
  unfold peekT at h
  by_cases hl : lx.src.length ≤ lx.i + n
  · simp [hl] at h
  · omega

@[simp] theorem advance_src (lx : Lexer) : (advance lx).2.src = lx.src := by
  unfold advance; split <;> simp

@[simp] theorem advance_tokens (lx : Lexer) : (advance lx).2.tokens = lx.tokens := by
  unfold advance; split <;> simp

@[simp] theorem advance_errors (lx : Lexer) : (advance lx).2.errors = lx.errors := by
  unfold advance; split <;> simp

theorem advance_i_lt (lx : Lexer) (h : lx.i < lx.src.length) :
    (advance lx).2.i = lx.i + 1 := by
  unfold advance
  split
  · omega
  · simp

theorem advance_i_ge (lx : Lexer) (h : lx.src.length ≤ lx.i) : (advance lx).2 = lx := by
  unfold advance
  split
  · rfl
  · omega

theorem advance_fst (lx : Lexer) (h : lx.i < lx.src.length) :
    (advance lx).1 = lx.src.getD lx.i sentinel := by
  unfold advance
  split
  · omega
  · simp

theorem advance_fst_peekT (lx : Lexer) (h : peekT lx 0 ≠ sentinel) :
    (advance lx).1 = peekT lx 0 := by
  have hlt := peekT_lt lx 0 h
  rw [advance_fst lx (by omega), peekT_eq]
  simp

theorem advance_mono (lx : Lexer) : lx.i ≤ (advance lx).2.i := by
  unfold advance; split <;> simp

theorem advance_bound (lx : Lexer) (h : lx.i ≤ lx.src.length) :
    (advance lx).2.i ≤ lx.src.length := by
  unfold advance
  split
  · exact h
  · simp; omega

/-- The position tracker law: `advance` keeps line/column equal to the
position of the code point at the cursor. -/
theorem posOf_succ (src : List Char) (n : Nat) :
    posOf src (n + 1) = if src.getD n sentinel = '\n'
      then ((posOf src n).1 + 1, 1) else ((posOf src n).1, (posOf src n).2 + 1) := rfl

theorem advance_line (lx : Lexer) (h : lx.i < lx.src.length) :
    (advance lx).2.line =
      if lx.src.getD lx.i sentinel = '\n' then lx.line + 1 else lx.line := by
  unfold advance
  rw [if_neg (by omega)]

theorem advance_col (lx : Lexer) (h : lx.i < lx.src.length) :
    (advance lx).2.col =
      if lx.src.getD lx.i sentinel = '\n' then 1 else lx.col + 1 := by
  unfold advance
  rw [if_neg (by omega)]

theorem advance_wf (lx : Lexer) (h : Wf lx) : Wf (advance lx).2 := by
  obtain ⟨hb, hp⟩ := h
  have hl : lx.line = (posOf lx.src lx.i).1 := by rw [← hp]
  have hc : lx.col = (posOf lx.src lx.i).2 := by rw [← hp]
  by_cases hlt : lx.src.length ≤ lx.i
  · rw [advance_i_ge lx hlt]
    exact ⟨hb, hp⟩
  · push_neg at hlt
    unfold Wf
    rw [advance_src, advance_i_lt lx hlt, advance_line lx hlt, advance_col lx hlt,
      posOf_succ, hl, hc]
    refine ⟨by omega, ?_⟩
    by_cases hn : lx.src.getD lx.i sentinel = '\n'
    · rw [if_pos hn, if_pos hn, if_pos hn]
    · rw [if_neg hn, if_neg hn, if_neg hn]

theorem advance_walk (lx : Lexer) : Walk lx (advance lx).2 :=
  ⟨advance_src lx, advance_mono lx, advance_bound lx, advance_wf lx⟩

theorem Walk.refl (lx : Lexer) : Walk lx lx := ⟨rfl, le_refl _, fun h => h, fun h => h⟩

theorem Walk.trans {a b c : Lexer} (h1 : Walk a b) (h2 : Walk b c) : Walk a c := by
  obtain ⟨s1, m1, b1, w1⟩ := h1
  obtain ⟨s2, m2, b2, w2⟩ := h2
  refine ⟨s2.trans s1, m1.trans m2, ?_, fun h => w2 (w1 h)⟩
  intro h
  have := b1 h
  have := b2
  rw [s1] at this
  exact this ‹b.i ≤ a.src.length›

@[simp] theorem addTok_src (lx : Lexer) (tt lex l c) : (addTok lx tt lex l c).src = lx.src := rfl
@[simp] theorem addTok_i (lx : Lexer) (tt lex l c) : (addTok lx tt lex l c).i = lx.i := rfl
@[simp] theorem addTok_line (lx : Lexer) (tt lex l c) : (addTok lx tt lex l c).line = lx.line := rfl
@[simp] theorem addTok_col (lx : Lexer) (tt lex l c) : (addTok lx tt lex l c).col = lx.col := rfl
@[simp] theorem addTok_errors (lx : Lexer) (tt lex l c) :
    (addTok lx tt lex l c).errors = lx.errors := rfl
@[simp] theorem addTok_tokens (lx : Lexer) (tt lex l c) :
    (addTok lx tt lex l c).tokens = lx.tokens ++ [⟨tt, lex, l, c⟩] := rfl

@[simp] theorem errorAt_src (lx : Lexer) (l c m) : (errorAt lx l c m).src = lx.src := rfl
@[simp] theorem errorAt_i (lx : Lexer) (l c m) : (errorAt lx l c m).i = lx.i := rfl
@[simp] theorem errorAt_line (lx : Lexer) (l c m) : (errorAt lx l c m).line = lx.line := rfl
@[simp] theorem errorAt_col (lx : Lexer) (l c m) : (errorAt lx l c m).col = lx.col := rfl
@[simp] theorem errorAt_tokens (lx : Lexer) (l c m) : (errorAt lx l c m).tokens = lx.tokens := rfl
@[simp] theorem errorAt_errors (lx : Lexer) (l c m) :
    (errorAt lx l c m).errors = lx.errors ++ [⟨l, c, m⟩] := rfl

theorem addTok_walk (lx : Lexer) (tt lex l c) : Walk lx (addTok lx tt lex l c) := by
  refine ⟨rfl, le_refl _, fun h => h, fun h => ?_⟩
  exact h

theorem errorAt_walk (lx : Lexer) (l c m) : Walk lx (errorAt lx l c m) := by
  refine ⟨rfl, le_refl _, fun h => h, fun h => ?_⟩
  exact h

theorem wf_new (s : List Char) : Wf (NewLexer s) := ⟨Nat.zero_le _, rfl⟩

/-! ### Span lemmas -/

theorem seg_self (src : List Char) (a : Nat) : seg src a a = [] := by
  unfold seg; simp

theorem seg_append (src : List Char) {a b c : Nat} (h1 : a ≤ b) (h2 : b ≤ c) :
    seg src a b ++ seg src b c = seg src a c := by
  unfold seg
  have hb : b = a + (b - a) := by omega
  rw [show src.drop b = (src.drop a).drop (b - a) by
        rw [List.drop_drop, show a + (b - a) = b by omega]]
  rw [← List.take_add]
  congr 1
  omega

theorem drop_cons_getD (src : List Char) (n : Nat) (h : n < src.length) :
    src.drop n = src.getD n sentinel :: src.drop (n + 1) := by
  rw [List.drop_eq_getElem_cons h, List.getD_eq_getElem _ _ h]

theorem seg_one (src : List Char) (a : Nat) (h : a < src.length) :
    seg src a (a + 1) = [src.getD a sentinel] := by
  unfold seg
  rw [drop_cons_getD src a h]
  simp

theorem seg_cons (src : List Char) {a b : Nat} (h : a < src.length) (h2 : a < b) :
    seg src a b = src.getD a sentinel :: seg src (a + 1) b := by
  unfold seg
  rw [drop_cons_getD src a h]
  rw [show b - a = (b - (a + 1)) + 1 by omega]
  simp

theorem seg_nil_of_le (src : List Char) {a b : Nat} (h : b ≤ a) : seg src a b = [] := by
  unfold seg
  rw [show b - a = 0 by omega]
  simp

theorem seg_all (src : List Char) : seg src 0 src.length = src := by
  unfold seg; simp

/-- A segment starting at `a` of a list that is `a` code points followed by a
known suffix. -/
theorem seg_of_drop (src : List Char) {a : Nat} {cs t : List Char}
    (h : src.drop a = cs ++ t) (_hb : a ≤ src.length) :
    seg src a (a + cs.length) = cs := by
  unfold seg
  rw [h]
  simp

/-! ### Position order -/

theorem isIdentPart_sentinel : isIdentPart sentinel = false := by decide

theorem isIdentStart_sentinel : isIdentStart sentinel = false := by decide

theorem ddigit_sentinel : ddigit sentinel = false := by decide

theorem isDigitU_sentinel : isDigitU sentinel = false := by decide

theorem isBaseDigit_sentinel (base : Char) : isBaseDigit base sentinel = false := by
  unfold isBaseDigit
  rw [show (decide (sentinel = '_')) = false by decide,
      show isDigitU sentinel = false from isDigitU_sentinel,
      show (decide ('a' ≤ sentinel) && decide (sentinel ≤ 'f') ||
            (decide ('A' ≤ sentinel) && decide (sentinel ≤ 'F'))) = false by decide,
      show (decide (sentinel = '0') || decide (sentinel = '1')) = false by decide,
      show (decide ('0' ≤ sentinel) && decide (sentinel ≤ '7')) = false by decide]
  simp

/-! ### Trivia skipper -/

theorem lineCommentLoop_walk : ∀ (f : Nat) (lx : Lexer) (ch : Char),
    Walk lx (lineCommentLoop f lx ch) ∧
    (lineCommentLoop f lx ch).tokens = lx.tokens ∧
    (lineCommentLoop f lx ch).errors = lx.errors := by
  intro f
  induction f with
  | zero => exact fun lx ch => ⟨Walk.refl lx, rfl, rfl⟩
  | succ f ih =>
    intro lx ch
    simp only [lineCommentLoop]
    split
    · obtain ⟨w, ht, he⟩ := ih (advance lx).2 (advance lx).1
      exact ⟨(advance_walk lx).trans w, by rw [ht, advance_tokens], by rw [he, advance_errors]⟩
    · exact ⟨Walk.refl lx, rfl, rfl⟩

theorem blockCommentLoop_walk : ∀ (f : Nat) (lx : Lexer) (d sl sc : Nat),
    Walk lx (blockCommentLoop f lx d sl sc).1 ∧
    (blockCommentLoop f lx d sl sc).1.tokens = lx.tokens ∧
    ((blockCommentLoop f lx d sl sc).1.errors = lx.errors ∨
      (blockCommentLoop f lx d sl sc).1.errors =
        lx.errors ++ [⟨sl, sc, "unterminated block comment"⟩]) ∧
    ((blockCommentLoop f lx d sl sc).2 = true →
      (blockCommentLoop f lx d sl sc).1.errors = lx.errors) := by
  intro f
  induction f with
  | zero => exact fun lx d sl sc => ⟨Walk.refl lx, rfl, Or.inl rfl, fun _ => rfl⟩
  | succ f ih =>
    intro lx d sl sc
    simp only [blockCommentLoop]
    split
    · split
      · refine ⟨errorAt_walk lx sl sc _, rfl, Or.inr (by simp), fun h => by simp at h⟩
      · split
        · obtain ⟨w, ht, he, hok⟩ := ih (advance (advance lx).2).2 (d + 1) sl sc
          refine ⟨((advance_walk lx).trans (advance_walk _)).trans w, by simp [ht], ?_, ?_⟩
          · simpa [advance_errors] using he
          · intro h; simpa [advance_errors] using hok h
        · split
          · obtain ⟨w, ht, he, hok⟩ := ih (advance (advance lx).2).2 (d - 1) sl sc
            refine ⟨((advance_walk lx).trans (advance_walk _)).trans w, by simp [ht], ?_, ?_⟩
            · simpa [advance_errors] using he
            · intro h; simpa [advance_errors] using hok h
          · obtain ⟨w, ht, he, hok⟩ := ih (advance lx).2 d sl sc
            refine ⟨(advance_walk lx).trans w, by simp [ht], ?_, ?_⟩
            · simpa [advance_errors] using he
            · intro h; simpa [advance_errors] using hok h
    · exact ⟨Walk.refl lx, rfl, Or.inl rfl, fun _ => rfl⟩

theorem skipLoop_walk : ∀ (f : Nat) (lx : Lexer),
    Walk lx (skipLoop f lx) ∧
    (skipLoop f lx).tokens = lx.tokens ∧
    ∃ es, (skipLoop f lx).errors = lx.errors ++ es := by
  intro f
  induction f with
  | zero => exact fun lx => ⟨Walk.refl lx, rfl, [], by simp [skipLoop]⟩
  | succ f ih =>
    intro lx
    simp only [skipLoop]
    split
    · obtain ⟨w, ht, es, he⟩ := ih (advance lx).2
      exact ⟨(advance_walk lx).trans w, by rw [ht, advance_tokens],
        es, by rw [he, advance_errors]⟩
    · split
      · obtain ⟨w1, ht1, he1⟩ := lineCommentLoop_walk (lx.src.length + 2) lx (peekT lx 0)
        obtain ⟨w, ht, es, he⟩ := ih (lineCommentLoop (lx.src.length + 2) lx (peekT lx 0))
        exact ⟨w1.trans w, by rw [ht, ht1], es, by rw [he, he1]⟩
      · split
        · obtain ⟨wb, htb, heb, _⟩ :=
            blockCommentLoop_walk (lx.src.length + 2) (advance (advance lx).2).2 1 lx.line lx.col
          have wpre : Walk lx (advance (advance lx).2).2 :=
            (advance_walk lx).trans (advance_walk _)
          split
          · obtain ⟨w, ht, es, he⟩ :=
              ih (blockCommentLoop (lx.src.length + 2) (advance (advance lx).2).2 1 lx.line lx.col).1
            refine ⟨(wpre.trans wb).trans w, ?_, ?_⟩
            · rw [ht, htb]; simp
            · rcases heb with h0 | h0
              · exact ⟨es, by rw [he, h0]; simp⟩
              · exact ⟨[⟨lx.line, lx.col, "unterminated block comment"⟩] ++ es,
                  by rw [he, h0]; simp⟩
          · refine ⟨wpre.trans wb, by rw [htb]; simp, ?_⟩
            rcases heb with h0 | h0
            · exact ⟨[], by rw [h0]; simp⟩
            · exact ⟨[⟨lx.line, lx.col, "unterminated block comment"⟩], by rw [h0]; simp⟩
        · exact ⟨Walk.refl lx, rfl, [], by simp⟩

theorem skip_walk (lx : Lexer) :
    Walk lx (skipWSAndComments lx) ∧
    (skipWSAndComments lx).tokens = lx.tokens ∧
    ∃ es, (skipWSAndComments lx).errors = lx.errors ++ es :=
  skipLoop_walk (lx.src.length + 2) lx

theorem skipLoop_sentinel (f : Nat) (lx : Lexer) (h : peekT lx 0 = sentinel) :
    skipLoop (f + 1) lx = lx := by
  simp only [skipLoop, h]
  rw [if_neg (by decide), if_neg (fun hx => absurd hx.1 (by decide)),
      if_neg (fun hx => absurd hx.1 (by decide))]

theorem skip_sentinel (lx : Lexer) (h : peekT lx 0 = sentinel) :
    skipWSAndComments lx = lx :=
  skipLoop_sentinel (lx.src.length + 1) lx h

theorem list_ne_append_singleton {α : Type} (l : List α) (x : α) : l ≠ l ++ [x] := by
  intro h
  have := congrArg List.length h
  simp at this

theorem peekT_in_of_pred {p : Char → Bool} (lx : Lexer) (hsent : p sentinel = false)
    (h : p (peekT lx 0) = true) :
    lx.i < lx.src.length ∧ lx.src.getD lx.i sentinel = peekT lx 0 := by
  have hne : peekT lx 0 ≠ sentinel := by
    intro he; rw [he, hsent] at h; exact Bool.false_ne_true h
  have := peekT_lt lx 0 hne
  refine ⟨by omega, ?_⟩
  rw [peekT_eq, Nat.add_zero]

theorem identLoop_spec : ∀ (f : Nat) (lx : Lexer) (b : List Char),
    lx.src.length - lx.i < f →
    (identLoop f lx b).1 = b ++ (lx.src.drop lx.i).takeWhile isIdentPart ∧
    (identLoop f lx b).2.i = lx.i + ((lx.src.drop lx.i).takeWhile isIdentPart).length ∧
    Walk lx (identLoop f lx b).2 ∧
    (identLoop f lx b).2.tokens = lx.tokens ∧
    (identLoop f lx b).2.errors = lx.errors := by
  intro f
  induction f with
  | zero => exact fun lx b hf => absurd hf (by omega)
  | succ f ih =>
    intro lx b hf
    simp only [identLoop]
    by_cases hc : isIdentPart (peekT lx 0) = true
    · obtain ⟨hin, hgd⟩ := peekT_in_of_pred lx isIdentPart_sentinel hc
      have hdrop : lx.src.drop lx.i = peekT lx 0 :: lx.src.drop (lx.i + 1) := by
        rw [drop_cons_getD lx.src lx.i hin, hgd]
      have hadv : (advance lx).2.i = lx.i + 1 := advance_i_lt lx (by omega)
      have hfst : (advance lx).1 = peekT lx 0 := advance_fst_peekT lx (by
        intro he; rw [he, isIdentPart_sentinel] at hc; exact Bool.false_ne_true hc)
      rw [if_pos hc]
      have hf' : (advance lx).2.src.length - (advance lx).2.i < f := by
        rw [advance_src, hadv]; omega
      obtain ⟨ihb, ihi, ihw, iht, ihe⟩ := ih (advance lx).2 (b ++ [(advance lx).1]) hf'
      rw [hdrop, List.takeWhile_cons_of_pos hc]
      refine ⟨?_, ?_, (advance_walk lx).trans ihw, by rw [iht, advance_tokens],
        by rw [ihe, advance_errors]⟩
      · rw [ihb, advance_src, hadv, hfst]
        simp
      · rw [ihi, advance_src, hadv]
        simp
        omega
    · rw [if_neg hc]
      rcases Nat.lt_or_ge lx.i lx.src.length with hin | hge
      · have hgd : lx.src.getD lx.i sentinel = peekT lx 0 := by rw [peekT_eq, Nat.add_zero]
        rw [drop_cons_getD lx.src lx.i hin, hgd, List.takeWhile_cons_of_neg (by simpa using hc)]
        exact ⟨by simp, by simp, Walk.refl lx, rfl, rfl⟩
      · rw [List.drop_eq_nil_of_le hge]
        exact ⟨by simp, by simp, Walk.refl lx, rfl, rfl⟩

theorem decDigitsLoop_spec : ∀ (f : Nat) (lx : Lexer),
    lx.src.length - lx.i < f →
    (decDigitsLoop f lx).i = lx.i + ((lx.src.drop lx.i).takeWhile ddigit).length ∧
    Walk lx (decDigitsLoop f lx) ∧
    (decDigitsLoop f lx).src = lx.src ∧
    (decDigitsLoop f lx).tokens = lx.tokens ∧
    (decDigitsLoop f lx).errors = lx.errors := by
  intro f
  induction f with
  | zero => exact fun lx hf => absurd hf (by omega)
  | succ f ih =>
    intro lx hf
    simp only [decDigitsLoop]
    by_cases hc : ddigit (peekT lx 0) = true
    · obtain ⟨hin, hgd⟩ := peekT_in_of_pred lx ddigit_sentinel hc
      have hdrop : lx.src.drop lx.i = peekT lx 0 :: lx.src.drop (lx.i + 1) := by
        rw [drop_cons_getD lx.src lx.i hin, hgd]
      have hadv : (advance lx).2.i = lx.i + 1 := advance_i_lt lx (by omega)
      rw [if_pos hc]
      have hf' : (advance lx).2.src.length - (advance lx).2.i < f := by
        rw [advance_src, hadv]; omega
      obtain ⟨ihi, ihw, ihs, iht, ihe⟩ := ih (advance lx).2 hf'
      rw [hdrop, List.takeWhile_cons_of_pos hc]
      refine ⟨?_, (advance_walk lx).trans ihw, by rw [ihs, advance_src],
        by rw [iht, advance_tokens], by rw [ihe, advance_errors]⟩
      rw [ihi, advance_src, hadv]
      simp
      omega
    · rw [if_neg hc]
      rcases Nat.lt_or_ge lx.i lx.src.length with hin | hge
      · have hgd : lx.src.getD lx.i sentinel = peekT lx 0 := by rw [peekT_eq, Nat.add_zero]
        rw [drop_cons_getD lx.src lx.i hin, hgd, List.takeWhile_cons_of_neg (by simpa using hc)]
        exact ⟨by simp, Walk.refl lx, rfl, rfl, rfl⟩
      · rw [List.drop_eq_nil_of_le hge]
        exact ⟨by simp, Walk.refl lx, rfl, rfl, rfl⟩

theorem baseDigitsLoop_spec : ∀ (f : Nat) (lx : Lexer) (base : Char) (count : Nat),
    lx.src.length - lx.i < f →
    (baseDigitsLoop f lx base count).1.i =
      lx.i + ((lx.src.drop lx.i).takeWhile (isBaseDigit base)).length ∧
    (baseDigitsLoop f lx base count).2 =
      count + ((lx.src.drop lx.i).takeWhile (isBaseDigit base)).length ∧
    Walk lx (baseDigitsLoop f lx base count).1 ∧
    (baseDigitsLoop f lx base count).1.src = lx.src ∧
    (baseDigitsLoop f lx base count).1.tokens = lx.tokens ∧
    (baseDigitsLoop f lx base count).1.errors = lx.errors := by
  intro f
  induction f with
  | zero => exact fun lx base count hf => absurd hf (by omega)
  | succ f ih =>
    intro lx base count hf
    simp only [baseDigitsLoop]
    by_cases hc : isBaseDigit base (peekT lx 0) = true
    · obtain ⟨hin, hgd⟩ := peekT_in_of_pred lx (isBaseDigit_sentinel base) hc
      have hdrop : lx.src.drop lx.i = peekT lx 0 :: lx.src.drop (lx.i + 1) := by
        rw [drop_cons_getD lx.src lx.i hin, hgd]
      have hadv : (advance lx).2.i = lx.i + 1 := advance_i_lt lx (by omega)
      rw [if_pos hc]
      have hf' : (advance lx).2.src.length - (advance lx).2.i < f := by
        rw [advance_src, hadv]; omega
      obtain ⟨ihi, ihc, ihw, ihs, iht, ihe⟩ := ih (advance lx).2 base (count + 1) hf'
      rw [hdrop, List.takeWhile_cons_of_pos hc]
      refine ⟨?_, ?_, (advance_walk lx).trans ihw, by rw [ihs, advance_src],
        by rw [iht, advance_tokens], by rw [ihe, advance_errors]⟩
      · rw [ihi, advance_src, hadv]
        simp
        omega
      · rw [ihc, advance_src, hadv]
        simp
        omega
    · rw [if_neg hc]
      rcases Nat.lt_or_ge lx.i lx.src.length with hin | hge
      · have hgd : lx.src.getD lx.i sentinel = peekT lx 0 := by rw [peekT_eq, Nat.add_zero]
        rw [drop_cons_getD lx.src lx.i hin, hgd, List.takeWhile_cons_of_neg (by simpa using hc)]
        exact ⟨by simp, by simp, Walk.refl lx, rfl, rfl, rfl⟩
      · rw [List.drop_eq_nil_of_le hge]
        exact ⟨by simp, by simp, Walk.refl lx, rfl, rfl, rfl⟩

/-! ### Identifier/keyword scanner -/

theorem identStart_part {c : Char} (h : isIdentStart c = true) : isIdentPart c = true := by
  unfold isIdentStart at h
  unfold isIdentPart
  rw [Bool.or_eq_true] at h
  rcases h with h1 | h1 <;> simp [h1]

theorem scanIdentOrKeyword_spec (lx : Lexer) (h : isIdentStart (peekT lx 0) = true) :
    (scanIdentOrKeyword lx).src = lx.src ∧
    (scanIdentOrKeyword lx).errors = lx.errors ∧
    (scanIdentOrKeyword lx).tokens = lx.tokens ++
      [⟨(match keywordLookup (((lx.src.drop lx.i).takeWhile isIdentPart).map lowerChar) with
         | some t => t
         | none =>
           if typeNames.contains ((lx.src.drop lx.i).takeWhile isIdentPart) then
             TokenType.TYPE_NAME
           else TokenType.IDENT),
        (lx.src.drop lx.i).takeWhile isIdentPart, lx.line, lx.col⟩] ∧
    (scanIdentOrKeyword lx).i = lx.i + ((lx.src.drop lx.i).takeWhile isIdentPart).length ∧
    Walk lx (scanIdentOrKeyword lx) := by
  have hf : lx.src.length - lx.i < lx.src.length + 2 := by omega
  obtain ⟨hb, hi, hw, ht, he⟩ := identLoop_spec (lx.src.length + 2) lx [] hf
  rw [List.nil_append] at hb
  simp only [scanIdentOrKeyword]
  rcases hk : keywordLookup (((lx.src.drop lx.i).takeWhile isIdentPart).map lowerChar)
    with _ | t
  · rw [hb, hk]
    by_cases htn : typeNames.contains ((lx.src.drop lx.i).takeWhile isIdentPart) = true
    · rw [if_pos htn]
      refine ⟨by rw [addTok_src, hw.1], by rw [addTok_errors, he],
        ?_, by rw [addTok_i, hi], hw.trans (addTok_walk _ _ _ _ _)⟩
      rw [addTok_tokens, ht]
      have hmem : (List.takeWhile isIdentPart (List.drop lx.i lx.src)) ∈ typeNames := by
        simpa using htn
      simp [hmem]
    · rw [if_neg htn]
      refine ⟨by rw [addTok_src, hw.1], by rw [addTok_errors, he],
        ?_, by rw [addTok_i, hi], hw.trans (addTok_walk _ _ _ _ _)⟩
      rw [addTok_tokens, ht]
      have hmem : ¬ ((List.takeWhile isIdentPart (List.drop lx.i lx.src)) ∈ typeNames) := by
        simpa using htn
      simp [hmem]
  · rw [hb, hk]
    refine ⟨by rw [addTok_src, hw.1], by rw [addTok_errors, he],
      by rw [addTok_tokens, ht], by rw [addTok_i, hi], ?_⟩
    exact hw.trans (addTok_walk _ _ _ _ _)

theorem scanIdentOrKeyword_acct (lx : Lexer) (h : isIdentStart (peekT lx 0) = true) :
    ScanAcct lx (scanIdentOrKeyword lx) := by
  obtain ⟨hs, he, ht, hi, hw⟩ := scanIdentOrKeyword_spec lx h
  have hne : peekT lx 0 ≠ sentinel := by
    intro h0; rw [h0, isIdentStart_sentinel] at h; exact Bool.false_ne_true h
  obtain ⟨hin, hgd⟩ := peekT_in_of_pred lx isIdentStart_sentinel h
  have hdrop : lx.src.drop lx.i = peekT lx 0 :: lx.src.drop (lx.i + 1) := by
    rw [drop_cons_getD lx.src lx.i hin, hgd]
  have hrun : (lx.src.drop lx.i).takeWhile isIdentPart =
      peekT lx 0 :: (lx.src.drop (lx.i + 1)).takeWhile isIdentPart := by
    rw [hdrop, List.takeWhile_cons_of_pos (identStart_part h)]
  have hlen : 0 < ((lx.src.drop lx.i).takeWhile isIdentPart).length := by
    rw [hrun]; simp
  refine ⟨hw, by omega, Or.inl ⟨_, he, ht, ?_, rfl, rfl⟩⟩
  rw [hi]
  exact (seg_of_drop lx.src
    (List.takeWhile_append_dropWhile isIdentPart (lx.src.drop lx.i)).symm (by omega)).symm

/-! ### Number scanner: base-prefixed branch -/

theorem lt_len_of_getD_ne (src : List Char) (n : Nat) (h : src.getD n sentinel ≠ sentinel) :
    n < src.length := by
  by_contra hc
  push_neg at hc
  rw [List.getD_eq_default _ _ hc] at h
  exact h rfl

theorem scanNumber_base (lx : Lexer) (base : Char)
    (h0 : peekT lx 0 = '0') (h1 : peekT lx 1 = base)
    (hb : base = 'x' ∨ base = 'X' ∨ base = 'b' ∨ base = 'B' ∨ base = 'o' ∨ base = 'O') :
    (scanNumber lx).src = lx.src ∧
    (scanNumber lx).i =
      lx.i + 2 + ((lx.src.drop (lx.i + 2)).takeWhile (isBaseDigit base)).length ∧
    Walk lx (scanNumber lx) ∧
    (if ((lx.src.drop (lx.i + 2)).takeWhile (isBaseDigit base)) = [] ∨
        validUnderscores ((lx.src.drop (lx.i + 2)).takeWhile (isBaseDigit base)) = false then
      (scanNumber lx).tokens = lx.tokens ∧
      (scanNumber lx).errors = lx.errors ++ [⟨lx.line, lx.col, baseMsg base⟩]
    else
      (scanNumber lx).errors = lx.errors ∧
      (scanNumber lx).tokens = lx.tokens ++
        [⟨TokenType.INT_LIT, seg lx.src lx.i (lx.i + 2 +
            ((lx.src.drop (lx.i + 2)).takeWhile (isBaseDigit base)).length),
          lx.line, lx.col⟩]) := by
  have hbs : base ≠ sentinel := by
    rcases hb with h | h | h | h | h | h <;> subst h <;> decide
  have hin0 : lx.i < lx.src.length := by
    have := peekT_lt lx 0 (by rw [h0]; decide)
    omega
  have hin1 : lx.i + 1 < lx.src.length := peekT_lt lx 1 (by rw [h1]; exact hbs)
  have hcond : (peekT lx 0 = '0' && (peekT lx 1 = 'x' || peekT lx 1 = 'X' ||
      peekT lx 1 = 'b' || peekT lx 1 = 'B' || peekT lx 1 = 'o' || peekT lx 1 = 'O')) = true := by
    rw [h0, h1]
    rcases hb with h | h | h | h | h | h <;> subst h <;> decide
  have hadv1 : (advance lx).2.i = lx.i + 1 := advance_i_lt lx hin0
  have hadv2 : (advance (advance lx).2).2.i = lx.i + 2 := by
    rw [advance_i_lt _ (by rw [hadv1, advance_src]; omega), hadv1]
  have hwpre : Walk lx (advance (advance lx).2).2 := (advance_walk lx).trans (advance_walk _)
  have hfb : (advance (advance lx).2).2.src.length - (advance (advance lx).2).2.i <
      lx.src.length + 2 := by
    rw [advance_src, advance_src, hadv2]
    omega
  obtain ⟨hli, hlc, hlw, hls, hlt, hle⟩ :=
    baseDigitsLoop_spec (lx.src.length + 2) (advance (advance lx).2).2 base 0 hfb
  rw [advance_src, advance_src, hadv2] at hli hlc
  have hls' : (baseDigitsLoop (lx.src.length + 2) (advance (advance lx).2).2 base 0).1.src =
      lx.src := by
    rw [hls, advance_src, advance_src]
  have hlt' : (baseDigitsLoop (lx.src.length + 2) (advance (advance lx).2).2 base 0).1.tokens =
      lx.tokens := by
    rw [hlt, advance_tokens, advance_tokens]
  have hle' : (baseDigitsLoop (lx.src.length + 2) (advance (advance lx).2).2 base 0).1.errors =
      lx.errors := by
    rw [hle, advance_errors, advance_errors]
  have hwl : Walk lx (baseDigitsLoop (lx.src.length + 2) (advance (advance lx).2).2 base 0).1 :=
    hwpre.trans hlw
  have hbody : seg (baseDigitsLoop (lx.src.length + 2) (advance (advance lx).2).2 base 0).1.src
      (lx.i + 2) (baseDigitsLoop (lx.src.length + 2) (advance (advance lx).2).2 base 0).1.i =
      (lx.src.drop (lx.i + 2)).takeWhile (isBaseDigit base) := by
    rw [hls', hli]
    exact seg_of_drop lx.src
      (List.takeWhile_append_dropWhile (isBaseDigit base) (lx.src.drop (lx.i + 2))).symm (by omega)
  simp only [scanNumber]
  rw [if_pos hcond, h1]
  by_cases herr : ((lx.src.drop (lx.i + 2)).takeWhile (isBaseDigit base)) = [] ∨
      validUnderscores ((lx.src.drop (lx.i + 2)).takeWhile (isBaseDigit base)) = false
  · have hbcond : ((baseDigitsLoop (lx.src.length + 2) (advance (advance lx).2).2 base 0).2 = 0 ||
        !validUnderscores (seg
          (baseDigitsLoop (lx.src.length + 2) (advance (advance lx).2).2 base 0).1.src
          (lx.i + 2)
          (baseDigitsLoop (lx.src.length + 2) (advance (advance lx).2).2 base 0).1.i)) = true := by
      rw [hbody, hlc]
      rcases herr with h | h
      · rw [h]; simp
      · rw [h]; simp
    rw [if_pos hbcond, if_pos herr]
    refine ⟨by rw [errorAt_src, hls'], by rw [errorAt_i, hli], ?_,
      by rw [errorAt_tokens, hlt'], by rw [errorAt_errors, hle']⟩
    exact hwl.trans (errorAt_walk _ _ _ _)
  · push_neg at herr
    have hbcond : ((baseDigitsLoop (lx.src.length + 2) (advance (advance lx).2).2 base 0).2 = 0 ||
        !validUnderscores (seg
          (baseDigitsLoop (lx.src.length + 2) (advance (advance lx).2).2 base 0).1.src
          (lx.i + 2)
          (baseDigitsLoop (lx.src.length + 2) (advance (advance lx).2).2 base 0).1.i)) = false := by
      rw [hbody, hlc]
      have h1' : ((lx.src.drop (lx.i + 2)).takeWhile (isBaseDigit base)).length ≠ 0 := by
        intro hc
        exact herr.1 (List.length_eq_zero.1 hc)
      have h2' : validUnderscores ((lx.src.drop (lx.i + 2)).takeWhile (isBaseDigit base)) =
          true := by
        exact Bool.ne_false_iff.mp herr.2
      rw [h2']
      simp [h1']
    rw [if_neg (by rw [hbcond]; simp),
      if_neg (by rw [show (((lx.src.drop (lx.i + 2)).takeWhile (isBaseDigit base)) = [] ∨
        validUnderscores ((lx.src.drop (lx.i + 2)).takeWhile (isBaseDigit base)) = false) =
        False from eq_false (by push_neg; exact herr)]; simp)]
    refine ⟨by rw [addTok_src, hls'], by rw [addTok_i, hli], ?_,
      by rw [addTok_errors, hle'], ?_⟩
    · exact hwl.trans (addTok_walk _ _ _ _ _)
    · rw [addTok_tokens, hlt']
      have hseg : seg (baseDigitsLoop (lx.src.length + 2) (advance (advance lx).2).2 base 0).1.src
          lx.i (baseDigitsLoop (lx.src.length + 2) (advance (advance lx).2).2 base 0).1.i =
          seg lx.src lx.i (lx.i + 2 +
            ((lx.src.drop (lx.i + 2)).takeWhile (isBaseDigit base)).length) := by
        rw [hls', hli]
      rw [hseg]

/-! ### Number scanner: decimal/float branch -/

theorem finishDec_cases (lxF : Lexer) (start l c : Nat) (isF : Bool) :
    (if validUnderscores (seg lxF.src start lxF.i) = false then
      (finishDec lxF start l c isF).tokens = lxF.tokens ∧
      (finishDec lxF start l c isF).errors = lxF.errors ++
        [⟨l, c, "illegal underscore placement in number"⟩]
    else
      (finishDec lxF start l c isF).errors = lxF.errors ∧
      (finishDec lxF start l c isF).tokens = lxF.tokens ++
        [⟨(if isF || (seg lxF.src start lxF.i).any (fun ch => ch = '.' || ch = 'e' || ch = 'E')
            then TokenType.FLOAT_LIT else TokenType.INT_LIT),
          seg lxF.src start lxF.i, l, c⟩]) ∧
    (finishDec lxF start l c isF).src = lxF.src ∧
    (finishDec lxF start l c isF).i = lxF.i ∧
    Walk lxF (finishDec lxF start l c isF) := by
  simp only [finishDec]
  by_cases hv : validUnderscores (seg lxF.src start lxF.i) = false
  · rw [if_pos (show (!validUnderscores (seg lxF.src start lxF.i)) = true by simp [hv]),
        if_pos hv]
    exact ⟨⟨rfl, rfl⟩, rfl, rfl, errorAt_walk _ _ _ _⟩
  · have hv' : validUnderscores (seg lxF.src start lxF.i) = true := Bool.ne_false_iff.mp hv
    rw [if_neg (show ¬((!validUnderscores (seg lxF.src start lxF.i)) = true) by simp [hv']),
        if_neg hv]
    by_cases ha : (isF || (seg lxF.src start lxF.i).any
        (fun ch => ch = '.' || ch = 'e' || ch = 'E')) = true
    · rw [if_pos ha, if_pos ha]
      exact ⟨⟨rfl, rfl⟩, rfl, rfl, addTok_walk _ _ _ _ _⟩
    · rw [if_neg ha, if_neg ha]
      exact ⟨⟨rfl, rfl⟩, rfl, rfl, addTok_walk _ _ _ _ _⟩

theorem scanNumber_exp_tail (lx lx4 : Lexer)
    (hs : lx4.src = lx.src) (ht : lx4.tokens = lx.tokens) (he : lx4.errors = lx.errors)
    (hw : Walk lx lx4) (hst : lx.i < lx4.i) (hi4 : lx4.i = decExpDigitPos lx.src lx.i)
    (hexp : decHasExp lx.src lx.i = true) :
    DecOutcome lx
      (if !isDigitU (peekT lx4 0) then
        errorAt lx4 lx.line lx.col "invalid float exponent"
      else
        finishDec (decDigitsLoop (lx.src.length + 2) lx4) lx.i lx.line lx.col true) := by
  have hpk4 : peekT lx4 0 = lx.src.getD (decExpDigitPos lx.src lx.i) sentinel := by
    rw [peekT_eq, hs, hi4, Nat.add_zero]
  by_cases hdig : isDigitU (lx.src.getD (decExpDigitPos lx.src lx.i) sentinel) = true
  · rw [if_neg (by rw [hpk4, hdig]; decide)]
    have hff : lx4.src.length - lx4.i < lx.src.length + 2 := by rw [hs]; omega
    obtain ⟨h3i, h3w, h3s, h3t, h3e⟩ := decDigitsLoop_spec (lx.src.length + 2) lx4 hff
    have hdrop4 : lx4.src.drop lx4.i = lx.src.drop (decExpDigitPos lx.src lx.i) := by
      rw [hs, hi4]
    have hiF : (decDigitsLoop (lx.src.length + 2) lx4).i = decEnd lx.src lx.i := by
      rw [h3i, hdrop4, hi4]
      unfold decEnd
      rw [if_pos hexp]
    have hsF : (decDigitsLoop (lx.src.length + 2) lx4).src = lx.src := by rw [h3s, hs]
    obtain ⟨hcasesF, hfs, hfi, hfw⟩ :=
      finishDec_cases (decDigitsLoop (lx.src.length + 2) lx4) lx.i lx.line lx.col true
    have hseg : seg (decDigitsLoop (lx.src.length + 2) lx4).src lx.i
        (decDigitsLoop (lx.src.length + 2) lx4).i = seg lx.src lx.i (decEnd lx.src lx.i) := by
      rw [hsF, hiF]
    rw [hseg] at hcasesF
    have hlt : lx.i <
        (finishDec (decDigitsLoop (lx.src.length + 2) lx4) lx.i lx.line lx.col true).i := by
      rw [hfi, hiF]
      unfold decEnd
      rw [if_pos hexp]
      omega
    refine ⟨by rw [hfs, hsF], (hw.trans h3w).trans hfw, hlt, ?_⟩
    rw [if_neg (fun hcon => by rw [hdig] at hcon; exact Bool.true_eq_false.mp hcon.2)]
    by_cases hvu : validUnderscores (seg lx.src lx.i (decEnd lx.src lx.i)) = false
    · rw [if_pos hvu]
      rw [if_pos hvu] at hcasesF
      exact ⟨by rw [hcasesF.1, h3t, ht], by rw [hfi, hiF], by rw [hcasesF.2, h3e, he]⟩
    · rw [if_neg hvu]
      rw [if_neg hvu] at hcasesF
      refine ⟨by rw [hcasesF.1, h3e, he], by rw [hfi, hiF], ?_⟩
      rw [hcasesF.2, h3t, ht]
      have hkind : (true || (seg lx.src lx.i (decEnd lx.src lx.i)).any
          (fun ch => ch = '.' || ch = 'e' || ch = 'E')) =
          (decHasExp lx.src lx.i || decHasFrac lx.src lx.i ||
            (seg lx.src lx.i (decEnd lx.src lx.i)).any
              (fun ch => ch = '.' || ch = 'e' || ch = 'E')) := by
        rw [hexp]
        simp
      rw [hkind]
  · have hdf : isDigitU (lx.src.getD (decExpDigitPos lx.src lx.i) sentinel) = false := by
      rcases Bool.eq_false_or_eq_true
        (isDigitU (lx.src.getD (decExpDigitPos lx.src lx.i) sentinel)) with h | h
      · exact absurd h hdig
      · exact h
    rw [if_pos (by rw [hpk4, hdf]; decide)]
    refine ⟨by rw [errorAt_src, hs], hw.trans (errorAt_walk _ _ _ _), by rw [errorAt_i]; omega, ?_⟩
    rw [if_pos ⟨hexp, hdf⟩]
    exact ⟨by rw [errorAt_tokens, ht], by rw [errorAt_errors, he]⟩

theorem scanNumber_dec_tail (lx lx2 : Lexer)
    (hs : lx2.src = lx.src) (ht : lx2.tokens = lx.tokens) (he : lx2.errors = lx.errors)
    (hw : Walk lx lx2) (hst : lx.i < lx2.i) (hi2 : lx2.i = decFracEnd lx.src lx.i) :
    DecOutcome lx
      (if peekT lx2 0 = 'e' || peekT lx2 0 = 'E' then
        (if !isDigitU (peekT (if peekT (advance lx2).2 0 = '+' || peekT (advance lx2).2 0 = '-'
              then (advance (advance lx2).2).2 else (advance lx2).2) 0) then
          errorAt (if peekT (advance lx2).2 0 = '+' || peekT (advance lx2).2 0 = '-'
              then (advance (advance lx2).2).2 else (advance lx2).2) lx.line lx.col
            "invalid float exponent"
        else
          finishDec (decDigitsLoop (lx.src.length + 2)
              (if peekT (advance lx2).2 0 = '+' || peekT (advance lx2).2 0 = '-'
                then (advance (advance lx2).2).2 else (advance lx2).2))
            lx.i lx.line lx.col true)
      else finishDec lx2 lx.i lx.line lx.col (decHasFrac lx.src lx.i)) := by
  have hpk2 : peekT lx2 0 = lx.src.getD (decFracEnd lx.src lx.i) sentinel := by
    rw [peekT_eq, hs, hi2, Nat.add_zero]
  by_cases hexp : decHasExp lx.src lx.i = true
  · have hcond : (peekT lx2 0 = 'e' || peekT lx2 0 = 'E') = true := by
      rw [hpk2]
      have hexp' := hexp
      unfold decHasExp at hexp'
      exact hexp'
    rw [if_pos hcond]
    have hne : lx.src.getD (decFracEnd lx.src lx.i) sentinel ≠ sentinel := by
      have hexp' := hexp
      unfold decHasExp at hexp'
      rw [Bool.or_eq_true] at hexp'
      rcases hexp' with h | h
      · rw [of_decide_eq_true h]; decide
      · rw [of_decide_eq_true h]; decide
    have hfe_lt : decFracEnd lx.src lx.i < lx.src.length := lt_len_of_getD_ne _ _ hne
    have hlx2lt : lx2.i < lx2.src.length := by rw [hs, hi2]; exact hfe_lt
    have h3i : (advance lx2).2.i = decFracEnd lx.src lx.i + 1 := by
      rw [advance_i_lt lx2 hlx2lt, hi2]
    have h3s : (advance lx2).2.src = lx.src := by rw [advance_src, hs]
    have hpk3 : peekT (advance lx2).2 0 = lx.src.getD (decFracEnd lx.src lx.i + 1) sentinel := by
      rw [peekT_eq, h3s, h3i, Nat.add_zero]
    by_cases hsign : (peekT (advance lx2).2 0 = '+' || peekT (advance lx2).2 0 = '-') = true
    · rw [if_pos hsign]
      have hsign' : (lx.src.getD (decFracEnd lx.src lx.i + 1) sentinel = '+' ||
          lx.src.getD (decFracEnd lx.src lx.i + 1) sentinel = '-') = true := by
        rw [← hpk3]; exact hsign
      have hsne : lx.src.getD (decFracEnd lx.src lx.i + 1) sentinel ≠ sentinel := by
        rw [Bool.or_eq_true] at hsign'
        rcases hsign' with h | h
        · rw [of_decide_eq_true h]; decide
        · rw [of_decide_eq_true h]; decide
      have h4lt : (advance lx2).2.i < (advance lx2).2.src.length := by
        rw [h3s, h3i]
        exact lt_len_of_getD_ne _ _ hsne
      have h4i : (advance (advance lx2).2).2.i = decFracEnd lx.src lx.i + 2 := by
        rw [advance_i_lt _ h4lt, h3i]
      have hpos : decExpDigitPos lx.src lx.i = decFracEnd lx.src lx.i + 2 := by
        unfold decExpDigitPos
        rw [if_pos hsign']
      exact scanNumber_exp_tail lx (advance (advance lx2).2).2
        (by rw [advance_src, h3s])
        (by rw [advance_tokens, advance_tokens, ht])
        (by rw [advance_errors, advance_errors, he])
        ((hw.trans (advance_walk _)).trans (advance_walk _))
        (by rw [h4i]; omega)
        (by rw [h4i, hpos])
        hexp
    · rw [if_neg hsign]
      have hsign' : ¬((lx.src.getD (decFracEnd lx.src lx.i + 1) sentinel = '+' ||
          lx.src.getD (decFracEnd lx.src lx.i + 1) sentinel = '-') = true) := by
        rw [← hpk3]; exact hsign
      have hpos : decExpDigitPos lx.src lx.i = decFracEnd lx.src lx.i + 1 := by
        unfold decExpDigitPos
        rw [if_neg hsign']
      exact scanNumber_exp_tail lx (advance lx2).2
        h3s
        (by rw [advance_tokens, ht])
        (by rw [advance_errors, he])
        (hw.trans (advance_walk _))
        (by rw [h3i]; omega)
        (by rw [h3i, hpos])
        hexp
  · have hcond : ¬((peekT lx2 0 = 'e' || peekT lx2 0 = 'E') = true) := by
      rw [hpk2]
      intro hcon
      exact hexp (by unfold decHasExp; exact hcon)
    rw [if_neg hcond]
    obtain ⟨hcases, hfs, hfi, hfw⟩ :=
      finishDec_cases lx2 lx.i lx.line lx.col (decHasFrac lx.src lx.i)
    have hef : decHasExp lx.src lx.i = false := by
      rcases Bool.eq_false_or_eq_true (decHasExp lx.src lx.i) with h | h
      · exact absurd h hexp
      · exact h
    have hde : decEnd lx.src lx.i = decFracEnd lx.src lx.i := by
      unfold decEnd
      rw [if_neg (by rw [hef]; simp)]
    have hseg : seg lx2.src lx.i lx2.i = seg lx.src lx.i (decEnd lx.src lx.i) := by
      rw [hs, hi2, hde]
    rw [hseg] at hcases
    refine ⟨by rw [hfs, hs], hw.trans hfw, by rw [hfi]; omega, ?_⟩
    rw [if_neg (fun hcon => by rw [hcon.1] at hef; exact Bool.true_eq_false.mp hef)]
    by_cases hvu : validUnderscores (seg lx.src lx.i (decEnd lx.src lx.i)) = false
    · rw [if_pos hvu]
      rw [if_pos hvu] at hcases
      exact ⟨by rw [hcases.1, ht], by rw [hfi, hi2, hde], by rw [hcases.2, he]⟩
    · rw [if_neg hvu]
      rw [if_neg hvu] at hcases
      refine ⟨by rw [hcases.1, he], by rw [hfi, hi2, hde], ?_⟩
      rw [hcases.2, ht]
      have hkind : (decHasFrac lx.src lx.i || (seg lx.src lx.i (decEnd lx.src lx.i)).any
          (fun ch => ch = '.' || ch = 'e' || ch = 'E')) =
          (decHasExp lx.src lx.i || decHasFrac lx.src lx.i ||
            (seg lx.src lx.i (decEnd lx.src lx.i)).any
              (fun ch => ch = '.' || ch = 'e' || ch = 'E')) := by
        rw [hef]
        simp
      rw [hkind]

theorem scanNumber_dec_spec (lx : Lexer) (hd : isDigitU (peekT lx 0) = true)
    (hnb : (peekT lx 0 = '0' && (peekT lx 1 = 'x' || peekT lx 1 = 'X' || peekT lx 1 = 'b' ||
      peekT lx 1 = 'B' || peekT lx 1 = 'o' || peekT lx 1 = 'O')) = false) :
    DecOutcome lx (scanNumber lx) := by
  have hf1 : lx.src.length - lx.i < lx.src.length + 2 := by omega
  obtain ⟨h1i, h1w, h1s, h1t, h1e⟩ := decDigitsLoop_spec (lx.src.length + 2) lx hf1
  have hdd : ddigit (peekT lx 0) = true := by
    unfold ddigit
    rw [hd]
    rfl
  obtain ⟨hin, hgd⟩ := peekT_in_of_pred lx ddigit_sentinel hdd
  have hr1 : 0 < ((lx.src.drop lx.i).takeWhile ddigit).length := by
    rw [drop_cons_getD lx.src lx.i hin, hgd, List.takeWhile_cons_of_pos hdd]
    simp
  have hnb' : ¬((peekT lx 0 = '0' && (peekT lx 1 = 'x' || peekT lx 1 = 'X' ||
      peekT lx 1 = 'b' || peekT lx 1 = 'B' || peekT lx 1 = 'o' || peekT lx 1 = 'O')) = true) := by
    rw [hnb]
    simp
  simp only [scanNumber]
  rw [if_neg hnb']
  have hpk1a : peekT (decDigitsLoop (lx.src.length + 2) lx) 0 =
      lx.src.getD (decIntEnd lx.src lx.i) sentinel := by
    rw [peekT_eq, h1s, h1i, Nat.add_zero]
    rfl
  have hpk1b : peekT (decDigitsLoop (lx.src.length + 2) lx) 1 =
      lx.src.getD (decIntEnd lx.src lx.i + 1) sentinel := by
    rw [peekT_eq, h1s, h1i]
    rfl
  have hhf : (peekT (decDigitsLoop (lx.src.length + 2) lx) 0 = '.' &&
      isDigitU (peekT (decDigitsLoop (lx.src.length + 2) lx) 1)) = decHasFrac lx.src lx.i := by
    rw [hpk1a, hpk1b]
    rfl
  rw [hhf]
  by_cases hfc : decHasFrac lx.src lx.i = true
  · rw [if_pos hfc]
    have hdot : lx.src.getD (decIntEnd lx.src lx.i) sentinel = '.' := by
      have h := hfc
      unfold decHasFrac at h
      rw [Bool.and_eq_true] at h
      exact of_decide_eq_true h.1
    have hi1lt : decIntEnd lx.src lx.i < lx.src.length :=
      lt_len_of_getD_ne _ _ (by rw [hdot]; decide)
    have hl1lt : (decDigitsLoop (lx.src.length + 2) lx).i <
        (decDigitsLoop (lx.src.length + 2) lx).src.length := by
      rw [h1s, h1i]
      exact hi1lt
    have hadv : (advance (decDigitsLoop (lx.src.length + 2) lx)).2.i =
        decIntEnd lx.src lx.i + 1 := by
      rw [advance_i_lt _ hl1lt, h1i]
      rfl
    have hadvs : (advance (decDigitsLoop (lx.src.length + 2) lx)).2.src = lx.src := by
      rw [advance_src, h1s]
    have hf2 : (advance (decDigitsLoop (lx.src.length + 2) lx)).2.src.length -
        (advance (decDigitsLoop (lx.src.length + 2) lx)).2.i < lx.src.length + 2 := by
      rw [hadvs]
      omega
    obtain ⟨h2i, h2w, h2s, h2t, h2e⟩ := decDigitsLoop_spec (lx.src.length + 2)
      (advance (decDigitsLoop (lx.src.length + 2) lx)).2 hf2
    have hi2 : (decDigitsLoop (lx.src.length + 2)
        (advance (decDigitsLoop (lx.src.length + 2) lx)).2).i = decFracEnd lx.src lx.i := by
      rw [h2i, hadv, hadvs]
      unfold decFracEnd
      rw [if_pos hfc]
      rfl
    refine scanNumber_dec_tail lx _ (by rw [h2s, hadvs])
      (by rw [h2t, advance_tokens, h1t]) (by rw [h2e, advance_errors, h1e])
      ((h1w.trans (advance_walk _)).trans h2w) ?_ hi2
    have hm2 := h2w.2.1
    rw [hadv] at hm2
    have : lx.i + ((lx.src.drop lx.i).takeWhile ddigit).length = decIntEnd lx.src lx.i := rfl
    omega
  · rw [if_neg hfc]
    have hi2 : (decDigitsLoop (lx.src.length + 2) lx).i = decFracEnd lx.src lx.i := by
      rw [h1i]
      unfold decFracEnd
      rw [if_neg hfc]
      rfl
    refine scanNumber_dec_tail lx _ h1s h1t h1e h1w ?_ hi2
    rw [h1i]
    omega

theorem scanNumber_acct (lx : Lexer) (hd : isDigitU (peekT lx 0) = true) :
    ScanAcct lx (scanNumber lx) := by
  by_cases hb : (peekT lx 0 = '0' && (peekT lx 1 = 'x' || peekT lx 1 = 'X' || peekT lx 1 = 'b' ||
      peekT lx 1 = 'B' || peekT lx 1 = 'o' || peekT lx 1 = 'O')) = true
  · rw [Bool.and_eq_true] at hb
    have h0 : peekT lx 0 = '0' := of_decide_eq_true hb.1
    have hsix : peekT lx 1 = 'x' ∨ peekT lx 1 = 'X' ∨ peekT lx 1 = 'b' ∨
        peekT lx 1 = 'B' ∨ peekT lx 1 = 'o' ∨ peekT lx 1 = 'O' := by
      have h1 := hb.2
      simp at h1
      tauto
    obtain ⟨hs, hi, hw, hcases⟩ := scanNumber_base lx (peekT lx 1) h0 rfl hsix
    by_cases herr : (((lx.src.drop (lx.i + 2)).takeWhile (isBaseDigit (peekT lx 1))) = [] ∨
        validUnderscores ((lx.src.drop (lx.i + 2)).takeWhile (isBaseDigit (peekT lx 1))) = false)
    · rw [if_pos herr] at hcases
      exact ⟨hw, by rw [hi]; omega, Or.inr ⟨_, hcases.1, hcases.2, rfl, rfl⟩⟩
    · rw [if_neg herr] at hcases
      refine ⟨hw, by rw [hi]; omega, Or.inl ⟨_, hcases.1, hcases.2, ?_, rfl, rfl⟩⟩
      rw [hi]
  · have hnb : (peekT lx 0 = '0' && (peekT lx 1 = 'x' || peekT lx 1 = 'X' || peekT lx 1 = 'b' ||
        peekT lx 1 = 'B' || peekT lx 1 = 'o' || peekT lx 1 = 'O')) = false := by
      rcases Bool.eq_false_or_eq_true (peekT lx 0 = '0' && (peekT lx 1 = 'x' ||
        peekT lx 1 = 'X' || peekT lx 1 = 'b' || peekT lx 1 = 'B' || peekT lx 1 = 'o' ||
        peekT lx 1 = 'O')) with h | h
      · exact absurd h hb
      · exact h
    obtain ⟨hsX, hwX, hstX, hcases⟩ := scanNumber_dec_spec lx hd hnb
    by_cases h1c : decHasExp lx.src lx.i = true ∧
        isDigitU (lx.src.getD (decExpDigitPos lx.src lx.i) sentinel) = false
    · rw [if_pos h1c] at hcases
      exact ⟨hwX, hstX, Or.inr ⟨_, hcases.1, hcases.2, rfl, rfl⟩⟩
    · rw [if_neg h1c] at hcases
      by_cases h2c : validUnderscores (seg lx.src lx.i (decEnd lx.src lx.i)) = false
      · rw [if_pos h2c] at hcases
        exact ⟨hwX, hstX, Or.inr ⟨_, hcases.1, hcases.2.2, rfl, rfl⟩⟩
      · rw [if_neg h2c] at hcases
        refine ⟨hwX, hstX, Or.inl ⟨_, hcases.1, hcases.2.2, ?_, rfl, rfl⟩⟩
        rw [hcases.2.1]

/-! ### String scanner -/

theorem charSize_pos (c : Char) : 0 < charSize c := by
  unfold charSize
  split_ifs <;> omega

theorem utf8Len_cat_ge_two (b : List Char) (hb : b ≠ []) (ch : Char) :
    2 ≤ utf8Len (b ++ [ch]) := by
  rcases b with _ | ⟨y, ys⟩
  · exact absurd rfl hb
  · have h1 := charSize_pos y
    have h2 := charSize_pos ch
    simp [utf8Len, List.sum_append]
    omega

theorem stringSpec_take_aux : ∀ (n : Nat) (l : List Char), l.length ≤ n → ∀ (cs : List Char),
    stringSpec l = StrRes.ok cs → ∃ t, l = cs ++ t := by
  intro n
  induction n with
  | zero =>
    intro l hl cs h
    have : l = [] := List.eq_nil_of_length_eq_zero (by omega)
    subst this
    rw [show stringSpec [] = StrRes.uterm from rfl] at h
    exact absurd h (by simp)
  | succ n ih =>
    intro l hl cs h
    rcases l with _ | ⟨ch, rest⟩
    · rw [show stringSpec [] = StrRes.uterm from rfl] at h
      exact absurd h (by simp)
    · unfold stringSpec at h
      by_cases h1 : ch = sentinel ∨ ch = '\n'
      · rw [if_pos h1] at h
        exact absurd h (by simp)
      · rw [if_neg h1] at h
        by_cases h2 : ch = bslash
        · rw [if_pos h2] at h
          rcases rest with _ | ⟨d, rest'⟩
          · exact absurd h (by simp)
          · simp only at h
            by_cases h3 : d = sentinel ∨ d = '\n'
            · rw [if_pos h3] at h
              exact absurd h (by simp)
            · rw [if_neg h3] at h
              rcases hrec : stringSpec rest' with cs' | _ | _ <;> rw [hrec] at h
              · have h' : StrRes.ok (ch :: d :: cs') = StrRes.ok cs := h
                injection h' with h''
                obtain ⟨t, ht⟩ := ih rest' (by simp at hl; omega) cs' hrec
                exact ⟨t, by rw [ht, ← h'']; simp⟩
              · exact absurd (show StrRes.uterm = StrRes.ok cs from h) (by simp)
              · exact absurd (show StrRes.badEsc = StrRes.ok cs from h) (by simp)
        · rw [if_neg h2] at h
          by_cases h4 : ch = dquote
          · rw [if_pos h4] at h
            injection h with h''
            exact ⟨rest, by rw [← h'']; simp⟩
          · rw [if_neg h4] at h
            rcases hrec : stringSpec rest with cs' | _ | _ <;> rw [hrec] at h
            · have h' : StrRes.ok (ch :: cs') = StrRes.ok cs := h
              injection h' with h''
              obtain ⟨t, ht⟩ := ih rest (by simp at hl; omega) cs' hrec
              exact ⟨t, by rw [ht, ← h'']; simp⟩
            · exact absurd (show StrRes.uterm = StrRes.ok cs from h) (by simp)
            · exact absurd (show StrRes.badEsc = StrRes.ok cs from h) (by simp)

theorem stringSpec_take (l cs : List Char) (h : stringSpec l = StrRes.ok cs) :
    ∃ t, l = cs ++ t :=
  stringSpec_take_aux l.length l (le_refl _) cs h


theorem stringSpec_cons (ch : Char) (rest : List Char) :
    stringSpec (ch :: rest) =
      (if ch = sentinel ∨ ch = '\n' then StrRes.uterm
       else if ch = bslash then
         (match rest with
          | [] => StrRes.badEsc
          | d :: rest' =>
            if d = sentinel ∨ d = '\n' then StrRes.badEsc
            else
              match stringSpec rest' with
              | StrRes.ok cs => StrRes.ok (ch :: d :: cs)
              | r => r)
       else if ch = dquote then StrRes.ok [ch]
       else
         match stringSpec rest with
         | StrRes.ok cs => StrRes.ok (ch :: cs)
         | r => r) := by
  conv_lhs => unfold stringSpec

theorem scanStringLoop_spec : ∀ (f : Nat) (lx : Lexer) (b : List Char) (l c : Nat),
    lx.src.length - lx.i < f → b ≠ [] →
    Walk lx (scanStringLoop f lx b l c) ∧
    (match stringSpec (lx.src.drop lx.i) with
     | StrRes.ok cs =>
        (scanStringLoop f lx b l c).errors = lx.errors ∧
        (scanStringLoop f lx b l c).tokens =
          lx.tokens ++ [⟨TokenType.STRING_LIT, b ++ cs, l, c⟩] ∧
        (scanStringLoop f lx b l c).i = lx.i + cs.length
     | StrRes.uterm =>
        (scanStringLoop f lx b l c).tokens = lx.tokens ∧
        (scanStringLoop f lx b l c).errors =
          lx.errors ++ [⟨l, c, "unterminated string literal"⟩]
     | StrRes.badEsc =>
        (scanStringLoop f lx b l c).tokens = lx.tokens ∧
        (scanStringLoop f lx b l c).errors =
          lx.errors ++ [⟨l, c, "unterminated string escape"⟩]) := by
  intro f
  induction f with
  | zero => exact fun lx b l c hf hb => absurd hf (by omega)
  | succ f ih =>
    intro lx b l c hf hb
    have hgd0 : lx.src.getD lx.i sentinel = peekT lx 0 := by rw [peekT_eq, Nat.add_zero]
    simp only [scanStringLoop]
    by_cases h1 : peekT lx 0 = sentinel ∨ peekT lx 0 = '\n'
    · rw [if_pos h1]
      have hspec : stringSpec (lx.src.drop lx.i) = StrRes.uterm := by
        rcases Nat.lt_or_ge lx.i lx.src.length with hin | hge
        · rw [drop_cons_getD lx.src lx.i hin, stringSpec_cons]
          rw [if_pos (by rw [hgd0]; exact h1)]
        · rw [List.drop_eq_nil_of_le hge]
          rfl
      rw [hspec]
      exact ⟨errorAt_walk lx l c _, rfl, by simp⟩
    · have hne0 : peekT lx 0 ≠ sentinel := fun hx => h1 (Or.inl hx)
      have hin : lx.i < lx.src.length := by
        have := peekT_lt lx 0 hne0
        omega
      have hdrop : lx.src.drop lx.i = peekT lx 0 :: lx.src.drop (lx.i + 1) := by
        rw [drop_cons_getD lx.src lx.i hin, hgd0]
      have hadv1i : (advance lx).2.i = lx.i + 1 := advance_i_lt lx hin
      have hgd1 : lx.src.getD (lx.i + 1) sentinel = peekT (advance lx).2 0 := by
        rw [peekT_eq, advance_src, hadv1i, Nat.add_zero]
      by_cases h2 : peekT lx 0 = bslash
      · rw [if_neg h1, if_pos h2]
        by_cases h3 : peekT (advance lx).2 0 = sentinel ∨ peekT (advance lx).2 0 = '\n'
        · rw [if_pos h3]
          have hspec : stringSpec (lx.src.drop lx.i) = StrRes.badEsc := by
            rw [hdrop, stringSpec_cons]
            rw [if_neg (by rw [h2]; decide), if_pos h2]
            rcases Nat.lt_or_ge (lx.i + 1) lx.src.length with hin2 | hge2
            · rw [drop_cons_getD lx.src (lx.i + 1) hin2]
              simp only
              rw [if_pos (by rw [hgd1]; exact h3)]
            · rw [List.drop_eq_nil_of_le hge2]
          rw [hspec]
          refine ⟨(advance_walk lx).trans (errorAt_walk _ l c _), ?_, ?_⟩
          · rw [errorAt_tokens, advance_tokens]
          · rw [errorAt_errors, advance_errors]
        · rw [if_neg h3]
          have hne1 : peekT (advance lx).2 0 ≠ sentinel := fun hx => h3 (Or.inl hx)
          have hin2 : lx.i + 1 < lx.src.length := by
            have := peekT_lt (advance lx).2 0 hne1
            rw [advance_src, hadv1i] at this
            omega
          have hadv2i : (advance (advance lx).2).2.i = lx.i + 2 := by
            rw [advance_i_lt _ (by rw [advance_src, hadv1i]; omega), hadv1i]
          have hf' : (advance (advance lx).2).2.src.length - (advance (advance lx).2).2.i < f := by
            rw [advance_src, advance_src, hadv2i]
            omega
          obtain ⟨ihw, ihm⟩ := ih (advance (advance lx).2).2
            (b ++ [peekT lx 0, peekT (advance lx).2 0]) l c hf' (by simp)
          have hdrop2 : (advance (advance lx).2).2.src.drop (advance (advance lx).2).2.i =
              lx.src.drop (lx.i + 2) := by
            rw [advance_src, advance_src, hadv2i]
          rw [hdrop2] at ihm
          have hspec : stringSpec (lx.src.drop lx.i) =
              (match stringSpec (lx.src.drop (lx.i + 2)) with
               | StrRes.ok cs => StrRes.ok (peekT lx 0 :: peekT (advance lx).2 0 :: cs)
               | r => r) := by
            rw [hdrop, stringSpec_cons]
            rw [if_neg (by rw [h2]; decide), if_pos h2, drop_cons_getD lx.src (lx.i + 1) hin2]
            simp only
            rw [if_neg (by rw [hgd1]; exact h3), hgd1]
          rw [hspec]
          have hwalk : Walk lx (scanStringLoop f (advance (advance lx).2).2
              (b ++ [peekT lx 0, peekT (advance lx).2 0]) l c) :=
            ((advance_walk lx).trans (advance_walk _)).trans ihw
          rcases hrec : stringSpec (lx.src.drop (lx.i + 2)) with cs' | _ | _ <;>
            rw [hrec] at ihm
          · obtain ⟨ihe, iht, ihi⟩ := ihm
            refine ⟨hwalk, ?_, ?_, ?_⟩
            · rw [ihe, advance_errors, advance_errors]
            · rw [iht, advance_tokens, advance_tokens]
              simp
            · rw [ihi, hadv2i]
              simp
              omega
          · obtain ⟨iht, ihe⟩ := ihm
            exact ⟨hwalk, by rw [iht, advance_tokens, advance_tokens],
              by rw [ihe, advance_errors, advance_errors]⟩
          · obtain ⟨iht, ihe⟩ := ihm
            exact ⟨hwalk, by rw [iht, advance_tokens, advance_tokens],
              by rw [ihe, advance_errors, advance_errors]⟩
      · rw [if_neg h1, if_neg h2]
        have hlast : (b ++ [peekT lx 0]).getLastD sentinel = peekT lx 0 := by
          simp
        have hback : peekBack (advance lx).2 = peekT lx 0 := by
          unfold peekBack
          rw [advance_src, hadv1i]
          simp only [Nat.add_sub_cancel]
          rw [if_neg (by omega), hgd0]
        by_cases h4 : peekT lx 0 = dquote
        · rw [if_pos ⟨utf8Len_cat_ge_two b hb _, by rw [hlast]; exact h4,
            by rw [hback, h4]; decide⟩]
          have hspec : stringSpec (lx.src.drop lx.i) = StrRes.ok [peekT lx 0] := by
            rw [hdrop, stringSpec_cons]
            rw [if_neg (by rw [h4]; decide), if_neg (by rw [h4]; decide), if_pos h4]
          rw [hspec]
          refine ⟨(advance_walk lx).trans (addTok_walk _ _ _ _ _), ?_, ?_, ?_⟩
          · rw [addTok_errors, advance_errors]
          · rw [addTok_tokens, advance_tokens]
          · rw [addTok_i, hadv1i]
            simp
        · rw [if_neg (fun hcon => h4 (by rw [← hlast]; exact hcon.2.1))]
          by_cases h5 : peekT (advance lx).2 0 = dquote
          · rw [if_pos h5]
            have hin2 : lx.i + 1 < lx.src.length := by
              have := peekT_lt (advance lx).2 0 (by rw [h5]; decide)
              rw [advance_src, hadv1i] at this
              omega
            have hadv2i : (advance (advance lx).2).2.i = lx.i + 2 := by
              rw [advance_i_lt _ (by rw [advance_src, hadv1i]; omega), hadv1i]
            have hspec : stringSpec (lx.src.drop lx.i) =
                StrRes.ok [peekT lx 0, peekT (advance lx).2 0] := by
              rw [hdrop, stringSpec_cons]
              rw [if_neg h1, if_neg h2, if_neg h4, drop_cons_getD lx.src (lx.i + 1) hin2,
                stringSpec_cons]
              have hd : lx.src.getD (lx.i + 1) sentinel = dquote := by rw [hgd1, h5]
              rw [if_neg (by rw [hd]; decide), if_neg (by rw [hd]; decide), if_pos hd]
              rw [hgd1]
            rw [hspec]
            refine ⟨((advance_walk lx).trans (advance_walk _)).trans
              (addTok_walk _ _ _ _ _), ?_, ?_, ?_⟩
            · rw [addTok_errors, advance_errors, advance_errors]
            · rw [addTok_tokens, advance_tokens, advance_tokens]
              simp [h5]
            · rw [addTok_i, hadv2i]
              simp
          · rw [if_neg h5]
            have hf' : (advance lx).2.src.length - (advance lx).2.i < f := by
              rw [advance_src, hadv1i]
              omega
            obtain ⟨ihw, ihm⟩ := ih (advance lx).2 (b ++ [peekT lx 0]) l c hf' (by simp)
            have hdrop1 : (advance lx).2.src.drop (advance lx).2.i =
                lx.src.drop (lx.i + 1) := by
              rw [advance_src, hadv1i]
            rw [hdrop1] at ihm
            have hspec : stringSpec (lx.src.drop lx.i) =
                (match stringSpec (lx.src.drop (lx.i + 1)) with
                 | StrRes.ok cs => StrRes.ok (peekT lx 0 :: cs)
                 | r => r) := by
              rw [hdrop, stringSpec_cons]
              rw [if_neg h1, if_neg h2, if_neg h4]
            rw [hspec]
            have hwalk : Walk lx (scanStringLoop f (advance lx).2 (b ++ [peekT lx 0]) l c) :=
              (advance_walk lx).trans ihw
            rcases hrec : stringSpec (lx.src.drop (lx.i + 1)) with cs' | _ | _ <;>
              rw [hrec] at ihm
            · obtain ⟨ihe, iht, ihi⟩ := ihm
              refine ⟨hwalk, ?_, ?_, ?_⟩
              · rw [ihe, advance_errors]
              · rw [iht, advance_tokens]
                simp
              · rw [ihi, hadv1i]
                simp
                omega
            · obtain ⟨iht, ihe⟩ := ihm
              exact ⟨hwalk, by rw [iht, advance_tokens], by rw [ihe, advance_errors]⟩
            · obtain ⟨iht, ihe⟩ := ihm
              exact ⟨hwalk, by rw [iht, advance_tokens], by rw [ihe, advance_errors]⟩

/-- `scanString` realises the specification contract `stringSpec` on the
code points after the opening quote: one STRING_LIT token whose lexeme is
the opening quote followed by everything up to and including the first
closing quote not escaped by a backslash, or the corresponding
"unterminated" error, always positioned at the opening quote. -/
theorem scanString_spec (lx : Lexer) (hq : peekT lx 0 = dquote) :
    Walk lx (scanString lx) ∧
    (match stringSpec (lx.src.drop (lx.i + 1)) with
     | StrRes.ok cs =>
        (scanString lx).errors = lx.errors ∧
        (scanString lx).tokens =
          lx.tokens ++ [⟨TokenType.STRING_LIT, dquote :: cs, lx.line, lx.col⟩] ∧
        (scanString lx).i = lx.i + 1 + cs.length
     | StrRes.uterm =>
        (scanString lx).tokens = lx.tokens ∧
        (scanString lx).errors =
          lx.errors ++ [⟨lx.line, lx.col, "unterminated string literal"⟩]
     | StrRes.badEsc =>
        (scanString lx).tokens = lx.tokens ∧
        (scanString lx).errors =
          lx.errors ++ [⟨lx.line, lx.col, "unterminated string escape"⟩]) := by
  have hne : peekT lx 0 ≠ sentinel := by rw [hq]; decide
  have hin : lx.i < lx.src.length := peekT_lt lx 0 hne
  have hadv : (advance lx).2.i = lx.i + 1 := advance_i_lt lx hin
  have hfst : (advance lx).1 = peekT lx 0 := advance_fst_peekT lx hne
  have hs : scanString lx =
      scanStringLoop (lx.src.length + 2) (advance lx).2 [(advance lx).1]
        lx.line lx.col := rfl
  have hfuel : (advance lx).2.src.length - (advance lx).2.i < lx.src.length + 2 := by
    rw [advance_src, hadv]; omega
  obtain ⟨hw, hm⟩ := scanStringLoop_spec (lx.src.length + 2) (advance lx).2
    [(advance lx).1] lx.line lx.col hfuel (by simp)
  have hdrop1 : (advance lx).2.src.drop (advance lx).2.i = lx.src.drop (lx.i + 1) := by
    rw [advance_src, hadv]
  rw [hdrop1] at hm
  rw [hs]
  refine ⟨(advance_walk lx).trans hw, ?_⟩
  rcases hrec : stringSpec (lx.src.drop (lx.i + 1)) with cs | _ | _ <;> rw [hrec] at hm
  · obtain ⟨he, ht, hi⟩ := hm
    refine ⟨by rw [he, advance_errors], ?_, ?_⟩
    · rw [ht, advance_tokens, hfst, hq]
      rfl
    · rw [hi, hadv]
  · exact ⟨by rw [hm.1, advance_tokens], by rw [hm.2, advance_errors]⟩
  · exact ⟨by rw [hm.1, advance_tokens], by rw [hm.2, advance_errors]⟩

/-- `scanString` satisfies the accounting postcondition: strict cursor
progress and exactly one token whose lexeme is the consumed span, or exactly
one error, positioned at the scan start. -/
theorem scanString_acct (lx : Lexer) (hq : peekT lx 0 = dquote) :
    ScanAcct lx (scanString lx) := by
  have hne : peekT lx 0 ≠ sentinel := by rw [hq]; decide
  have hin : lx.i < lx.src.length := peekT_lt lx 0 hne
  have hadv : (advance lx).2.i = lx.i + 1 := advance_i_lt lx hin
  have hs : scanString lx =
      scanStringLoop (lx.src.length + 2) (advance lx).2 [(advance lx).1]
        lx.line lx.col := rfl
  have hfuel : (advance lx).2.src.length - (advance lx).2.i < lx.src.length + 2 := by
    rw [advance_src, hadv]; omega
  obtain ⟨hw, hm⟩ := scanStringLoop_spec (lx.src.length + 2) (advance lx).2
    [(advance lx).1] lx.line lx.col hfuel (by simp)
  have hdrop1 : (advance lx).2.src.drop (advance lx).2.i = lx.src.drop (lx.i + 1) := by
    rw [advance_src, hadv]
  rw [hdrop1] at hm
  have hstrict : lx.i < (scanStringLoop (lx.src.length + 2) (advance lx).2
      [(advance lx).1] lx.line lx.col).i := by
    have h2 := hw.2.1
    omega
  rw [hs]
  refine ⟨(advance_walk lx).trans hw, hstrict, ?_⟩
  rcases hrec : stringSpec (lx.src.drop (lx.i + 1)) with cs | _ | _ <;> rw [hrec] at hm
  · obtain ⟨he, ht, hi⟩ := hm
    obtain ⟨t0, hdrop2⟩ := stringSpec_take _ _ hrec
    refine Or.inl ⟨⟨TokenType.STRING_LIT, [(advance lx).1] ++ cs, lx.line, lx.col⟩,
      by rw [he, advance_errors], by rw [ht, advance_tokens], ?_, rfl, rfl⟩
    show [(advance lx).1] ++ cs = seg lx.src lx.i _
    rw [hi, hadv, seg_cons lx.src hin (by omega),
      seg_of_drop lx.src hdrop2 (by omega), advance_fst lx hin]
    rfl
  · exact Or.inr ⟨⟨lx.line, lx.col, "unterminated string literal"⟩,
      by rw [hm.1, advance_tokens], by rw [hm.2, advance_errors], rfl, rfl⟩
  · exact Or.inr ⟨⟨lx.line, lx.col, "unterminated string escape"⟩,
      by rw [hm.1, advance_tokens], by rw [hm.2, advance_errors], rfl, rfl⟩

/-- Peeking after an in-bounds advance shifts the offset by one. -/
theorem peekT_advance (lx : Lexer) (h : lx.i < lx.src.length) (n : Nat) :
    peekT (advance lx).2 n = peekT lx (n + 1) := by
  rw [peekT_eq, peekT_eq, advance_src, advance_i_lt lx h,
    show lx.i + 1 + n = lx.i + (n + 1) by omega]

/-- A segment extended on the right by one in-bounds code point. -/
theorem seg_snoc (src : List Char) {a b : Nat} (hab : a ≤ b) (hb : b < src.length) :
    seg src a (b + 1) = seg src a b ++ [src.getD b sentinel] := by
  unfold seg
  rw [show b + 1 - a = (b - a) + 1 by omega, List.take_succ]
  congr 1
  rw [List.getElem?_drop, show a + (b - a) = b by omega, List.getElem?_eq_getElem hb]
  simp only [Option.toList_some]
  rw [List.getD_eq_getElem src sentinel hb]

/-- The raw-string loop: either exactly one STRING_LIT token extending the
accumulated prefix `b` by exactly the consumed span, or the
"unterminated raw string" error, and nothing else changes. -/
theorem scanRawLoop_acct : ∀ (f : Nat) (lx : Lexer) (b : List Char) (l c : Nat),
    lx.src.length - lx.i < f →
    Walk lx (scanRawLoop f lx b l c) ∧
    ((∃ cs, lx.i < (scanRawLoop f lx b l c).i ∧
        (scanRawLoop f lx b l c).errors = lx.errors ∧
        (scanRawLoop f lx b l c).tokens =
          lx.tokens ++ [⟨TokenType.STRING_LIT, b ++ cs, l, c⟩] ∧
        cs = seg lx.src lx.i (scanRawLoop f lx b l c).i) ∨
     ((scanRawLoop f lx b l c).tokens = lx.tokens ∧
      (scanRawLoop f lx b l c).errors =
        lx.errors ++ [⟨l, c, "unterminated raw string"⟩])) := by
  intro f
  induction f with
  | zero => exact fun lx b l c hf => absurd hf (by omega)
  | succ f ih =>
    intro lx b l c hf
    simp only [scanRawLoop]
    by_cases h1 : peekT lx 0 = sentinel
    · rw [if_pos h1]
      exact ⟨errorAt_walk _ _ _ _, Or.inr ⟨rfl, rfl⟩⟩
    · rw [if_neg h1]
      have hin : lx.i < lx.src.length := peekT_lt lx 0 h1
      have hadv : (advance lx).2.i = lx.i + 1 := advance_i_lt lx hin
      have hgd : lx.src.getD lx.i sentinel = peekT lx 0 := by rw [peekT_eq, Nat.add_zero]
      by_cases h2 : peekT lx 0 = backquote
      · rw [if_pos h2]
        refine ⟨(advance_walk lx).trans (addTok_walk _ _ _ _ _),
          Or.inl ⟨[peekT lx 0], ?_, ?_, ?_, ?_⟩⟩
        · rw [addTok_i, hadv]; omega
        · rw [addTok_errors, advance_errors]
        · rw [addTok_tokens, advance_tokens]
        · rw [addTok_i, hadv, seg_one lx.src lx.i hin, hgd]
      · rw [if_neg h2]
        have hf' : (advance lx).2.src.length - (advance lx).2.i < f := by
          rw [advance_src, hadv]; omega
        obtain ⟨ihw, ihm⟩ := ih (advance lx).2 (b ++ [peekT lx 0]) l c hf'
        refine ⟨(advance_walk lx).trans ihw, ?_⟩
        rcases ihm with ⟨cs, hstrict, he, ht, hcs⟩ | ⟨ht, he⟩
        · rw [hadv] at hstrict
          refine Or.inl ⟨peekT lx 0 :: cs, by omega, ?_, ?_, ?_⟩
          · rw [he, advance_errors]
          · rw [ht, advance_tokens]
            simp
          · rw [hcs, advance_src, hadv, seg_cons lx.src hin (by omega), hgd]
        · exact Or.inr ⟨by rw [ht, advance_tokens], by rw [he, advance_errors]⟩

/-- `scanRawString` satisfies the accounting postcondition. -/
theorem scanRawString_acct (lx : Lexer) (hq : peekT lx 0 = backquote) :
    ScanAcct lx (scanRawString lx) := by
  have hne : peekT lx 0 ≠ sentinel := by rw [hq]; decide
  have hin : lx.i < lx.src.length := peekT_lt lx 0 hne
  have hadv : (advance lx).2.i = lx.i + 1 := advance_i_lt lx hin
  have hs : scanRawString lx =
      scanRawLoop (lx.src.length + 2) (advance lx).2 [(advance lx).1]
        lx.line lx.col := rfl
  have hfuel : (advance lx).2.src.length - (advance lx).2.i < lx.src.length + 2 := by
    rw [advance_src, hadv]; omega
  obtain ⟨hw, hm⟩ := scanRawLoop_acct (lx.src.length + 2) (advance lx).2
    [(advance lx).1] lx.line lx.col hfuel
  have hiw := hw.2.1
  rw [hadv] at hiw
  rw [hs]
  refine ⟨(advance_walk lx).trans hw, by omega, ?_⟩
  rcases hm with ⟨cs, hstrict, he, ht, hcs⟩ | ⟨ht, he⟩
  · rw [hadv] at hstrict
    refine Or.inl ⟨⟨TokenType.STRING_LIT, [(advance lx).1] ++ cs, lx.line, lx.col⟩,
      by rw [he, advance_errors], by rw [ht, advance_tokens], ?_, rfl, rfl⟩
    show [(advance lx).1] ++ cs = seg lx.src lx.i _
    rw [hcs, advance_src, hadv, seg_cons lx.src hin (by omega), advance_fst lx hin]
    rfl
  · exact Or.inr ⟨⟨lx.line, lx.col, "unterminated raw string"⟩,
      by rw [ht, advance_tokens], by rw [he, advance_errors], rfl, rfl⟩

/-- The closing-quote tail of `scanChar` preserves the accounting
postcondition relative to the scan start `lx`, given that the state `X`
reaching it has consumed exactly the span recorded in `b`. -/
theorem scanCharClose_acct (lx X : Lexer) (b : List Char)
    (hw : Walk lx X) (hsrc : X.src = lx.src) (hXi : lx.i < X.i)
    (htok : X.tokens = lx.tokens) (herr : X.errors = lx.errors)
    (hb : b = seg lx.src lx.i X.i) :
    ScanAcct lx (scanCharClose X b lx.line lx.col) := by
  unfold scanCharClose
  by_cases h : peekT X 0 = squote
  · rw [if_neg (fun hc => hc h)]
    have hne : peekT X 0 ≠ sentinel := by rw [h]; decide
    have hinX : X.i < X.src.length := peekT_lt X 0 hne
    have hadvX : (advance X).2.i = X.i + 1 := advance_i_lt X hinX
    have hgdX : lx.src.getD X.i sentinel = squote := by
      rw [← h, peekT_eq, Nat.add_zero, hsrc]
    refine ⟨hw.trans ((advance_walk X).trans (addTok_walk _ _ _ _ _)), ?_,
      Or.inl ⟨⟨TokenType.CHAR_LIT, b ++ [squote], lx.line, lx.col⟩, ?_, ?_, ?_, rfl, rfl⟩⟩
    · rw [addTok_i, hadvX]; omega
    · rw [addTok_errors, advance_errors, herr]
    · rw [addTok_tokens, advance_tokens, htok]
    · show b ++ [squote] = seg lx.src lx.i _
      rw [addTok_i, hadvX, hb,
        seg_snoc lx.src (le_of_lt hXi) (by rw [← hsrc]; exact hinX), hgdX]
  · rw [if_pos h]
    refine ⟨hw.trans (errorAt_walk _ _ _ _), by rw [errorAt_i]; omega,
      Or.inr ⟨⟨lx.line, lx.col, "unterminated char literal"⟩,
        by rw [errorAt_tokens, htok], by rw [errorAt_errors, herr], rfl, rfl⟩⟩

/-- `scanChar` satisfies the accounting postcondition. -/
theorem scanChar_acct (lx : Lexer) (hq : peekT lx 0 = squote) :
    ScanAcct lx (scanChar lx) := by
  have hne : peekT lx 0 ≠ sentinel := by rw [hq]; decide
  have hin : lx.i < lx.src.length := peekT_lt lx 0 hne
  have hadv1 : (advance lx).2.i = lx.i + 1 := advance_i_lt lx hin
  have hfst : (advance lx).1 = lx.src.getD lx.i sentinel := advance_fst lx hin
  have hgd0 : lx.src.getD lx.i sentinel = peekT lx 0 := by rw [peekT_eq, Nat.add_zero]
  by_cases h2 : peekT (advance lx).2 0 = bslash
  · have hne2 : peekT (advance lx).2 0 ≠ sentinel := by rw [h2]; decide
    have hin2 : (advance lx).2.i < (advance lx).2.src.length := peekT_lt _ 0 hne2
    have hin2' : lx.i + 1 < lx.src.length := by
      rw [advance_src, hadv1] at hin2; exact hin2
    have hadv2 : (advance (advance lx).2).2.i = lx.i + 2 := by
      rw [advance_i_lt _ hin2, hadv1]
    by_cases h3 : peekT (advance (advance lx).2).2 0 = sentinel ∨
        peekT (advance (advance lx).2).2 0 = '\n'
    · have hsc : scanChar lx = errorAt (advance (advance lx).2).2
          lx.line lx.col "unterminated char escape" := by
        simp only [scanChar]
        rw [if_pos h2, if_pos h3]
      rw [hsc]
      refine ⟨((advance_walk lx).trans (advance_walk _)).trans (errorAt_walk _ _ _ _),
        by rw [errorAt_i, hadv2]; omega,
        Or.inr ⟨⟨lx.line, lx.col, "unterminated char escape"⟩,
          by rw [errorAt_tokens, advance_tokens, advance_tokens],
          by rw [errorAt_errors, advance_errors, advance_errors], rfl, rfl⟩⟩
    · have hne3 : peekT (advance (advance lx).2).2 0 ≠ sentinel := fun hc => h3 (Or.inl hc)
      have hin3 : (advance (advance lx).2).2.i < (advance (advance lx).2).2.src.length :=
        peekT_lt _ 0 hne3
      have hin3' : lx.i + 2 < lx.src.length := by
        rw [advance_src, advance_src, hadv2] at hin3; exact hin3
      have hadv3 : (advance (advance (advance lx).2).2).2.i = lx.i + 3 := by
        rw [advance_i_lt _ hin3, hadv2]
      have hsc : scanChar lx = scanCharClose (advance (advance (advance lx).2).2).2
          ([(advance lx).1] ++ [peekT (advance lx).2 0, peekT (advance (advance lx).2).2 0])
          lx.line lx.col := by
        simp only [scanChar]
        rw [if_pos h2, if_neg h3]
      rw [hsc]
      refine scanCharClose_acct lx _ _
        (((advance_walk lx).trans (advance_walk _)).trans (advance_walk _))
        (by rw [advance_src, advance_src, advance_src]) (by rw [hadv3]; omega)
        (by rw [advance_tokens, advance_tokens, advance_tokens])
        (by rw [advance_errors, advance_errors, advance_errors]) ?_
      rw [hadv3, seg_cons lx.src hin (by omega),
        seg_cons lx.src (show lx.i + 1 < lx.src.length from hin2') (by omega),
        show lx.i + 3 = lx.i + 2 + 1 by omega, seg_one lx.src (lx.i + 2) hin3']
      rw [hfst, hgd0]
      have hg1 : lx.src.getD (lx.i + 1) sentinel = peekT (advance lx).2 0 := by
        rw [peekT_eq, advance_src, hadv1, Nat.add_zero]
      have hg2 : lx.src.getD (lx.i + 2) sentinel = peekT (advance (advance lx).2).2 0 := by
        rw [peekT_eq, advance_src, advance_src, hadv2, Nat.add_zero]
      rw [hg1, hg2]
      rfl
  · by_cases h4 : peekT (advance lx).2 0 = sentinel ∨ peekT (advance lx).2 0 = '\n' ∨
        peekT (advance lx).2 0 = squote
    · have hsc : scanChar lx = errorAt (advance lx).2
          lx.line lx.col "empty or invalid char literal" := by
        simp only [scanChar]
        rw [if_neg h2, if_pos h4]
      rw [hsc]
      refine ⟨(advance_walk lx).trans (errorAt_walk _ _ _ _),
        by rw [errorAt_i, hadv1]; omega,
        Or.inr ⟨⟨lx.line, lx.col, "empty or invalid char literal"⟩,
          by rw [errorAt_tokens, advance_tokens],
          by rw [errorAt_errors, advance_errors], rfl, rfl⟩⟩
    · have hne2 : peekT (advance lx).2 0 ≠ sentinel := fun hc => h4 (Or.inl hc)
      have hin2 : (advance lx).2.i < (advance lx).2.src.length := peekT_lt _ 0 hne2
      have hin2' : lx.i + 1 < lx.src.length := by
        rw [advance_src, hadv1] at hin2; exact hin2
      have hadv2 : (advance (advance lx).2).2.i = lx.i + 2 := by
        rw [advance_i_lt _ hin2, hadv1]
      have hsc : scanChar lx = scanCharClose (advance (advance lx).2).2
          ([(advance lx).1] ++ [peekT (advance lx).2 0]) lx.line lx.col := by
        simp only [scanChar]
        rw [if_neg h2, if_neg h4]
      rw [hsc]
      refine scanCharClose_acct lx _ _
        ((advance_walk lx).trans (advance_walk _))
        (by rw [advance_src, advance_src]) (by rw [hadv2]; omega)
        (by rw [advance_tokens, advance_tokens])
        (by rw [advance_errors, advance_errors]) ?_
      rw [hadv2, seg_cons lx.src hin (by omega),
        show lx.i + 2 = lx.i + 1 + 1 by omega, seg_one lx.src (lx.i + 1) hin2']
      rw [hfst, hgd0]
      have hg1 : lx.src.getD (lx.i + 1) sentinel = peekT (advance lx).2 0 := by
        rw [peekT_eq, advance_src, hadv1, Nat.add_zero]
      rw [hg1]
      rfl

/-- Accounting for a one-code-point symbol token. -/
theorem acct_tok1_of (lx : Lexer) {a : Char} (tt : TokenType)
    (hne : peekT lx 0 ≠ sentinel) (h0 : peekT lx 0 = a) :
    ScanAcct lx (addTok (advance lx).2 tt [a] lx.line lx.col) := by
  subst h0
  have hin : lx.i < lx.src.length := peekT_lt lx 0 hne
  have hadv : (advance lx).2.i = lx.i + 1 := advance_i_lt lx hin
  have hgd : lx.src.getD lx.i sentinel = peekT lx 0 := by rw [peekT_eq, Nat.add_zero]
  refine ⟨(advance_walk lx).trans (addTok_walk _ _ _ _ _),
    by rw [addTok_i, hadv]; omega,
    Or.inl ⟨_, by rw [addTok_errors, advance_errors], by rw [addTok_tokens, advance_tokens],
      ?_, rfl, rfl⟩⟩
  show [peekT lx 0] = seg lx.src lx.i _
  rw [addTok_i, hadv, seg_one lx.src lx.i hin, hgd]

/-- Accounting for a two-code-point symbol token. -/
theorem acct_tok2_of (lx : Lexer) {a b : Char} (tt : TokenType)
    (hne : peekT lx 0 ≠ sentinel) (h0 : peekT lx 0 = a) (h1 : peekT lx 1 = b)
    (hb : b ≠ sentinel) :
    ScanAcct lx (addTok (advance (advance lx).2).2 tt [a, b] lx.line lx.col) := by
  subst h0
  subst h1
  have hin0 : lx.i < lx.src.length := peekT_lt lx 0 hne
  have hin1 : lx.i + 1 < lx.src.length := peekT_lt lx 1 hb
  have hadv1 : (advance lx).2.i = lx.i + 1 := advance_i_lt lx hin0
  have hadv2 : (advance (advance lx).2).2.i = lx.i + 2 := by
    rw [advance_i_lt _ (by rw [advance_src, hadv1]; exact hin1), hadv1]
  have hgd0 : lx.src.getD lx.i sentinel = peekT lx 0 := by rw [peekT_eq, Nat.add_zero]
  have hgd1 : lx.src.getD (lx.i + 1) sentinel = peekT lx 1 := by rw [peekT_eq]
  refine ⟨((advance_walk lx).trans (advance_walk _)).trans (addTok_walk _ _ _ _ _),
    by rw [addTok_i, hadv2]; omega,
    Or.inl ⟨_, by rw [addTok_errors, advance_errors, advance_errors],
      by rw [addTok_tokens, advance_tokens, advance_tokens], ?_, rfl, rfl⟩⟩
  show [peekT lx 0, peekT lx 1] = seg lx.src lx.i _
  rw [addTok_i, hadv2, seg_cons lx.src hin0 (by omega),
    show lx.i + 2 = lx.i + 1 + 1 by omega, seg_one lx.src (lx.i + 1) hin1, hgd0, hgd1]

/-- Accounting for a three-code-point symbol token. -/
theorem acct_tok3_of (lx : Lexer) {a b c : Char} (tt : TokenType)
    (hne : peekT lx 0 ≠ sentinel) (h0 : peekT lx 0 = a) (h1 : peekT lx 1 = b)
    (h2 : peekT lx 2 = c) (hb : b ≠ sentinel) (hc : c ≠ sentinel) :
    ScanAcct lx
      (addTok (advance (advance (advance lx).2).2).2 tt [a, b, c] lx.line lx.col) := by
  subst h0
  subst h1
  subst h2
  have hin0 : lx.i < lx.src.length := peekT_lt lx 0 hne
  have hin1 : lx.i + 1 < lx.src.length := peekT_lt lx 1 hb
  have hin2 : lx.i + 2 < lx.src.length := peekT_lt lx 2 hc
  have hadv1 : (advance lx).2.i = lx.i + 1 := advance_i_lt lx hin0
  have hadv2 : (advance (advance lx).2).2.i = lx.i + 2 := by
    rw [advance_i_lt _ (by rw [advance_src, hadv1]; exact hin1), hadv1]
  have hadv3 : (advance (advance (advance lx).2).2).2.i = lx.i + 3 := by
    rw [advance_i_lt _ (by rw [advance_src, advance_src, hadv2]; exact hin2), hadv2]
  have hgd0 : lx.src.getD lx.i sentinel = peekT lx 0 := by rw [peekT_eq, Nat.add_zero]
  have hgd1 : lx.src.getD (lx.i + 1) sentinel = peekT lx 1 := by rw [peekT_eq]
  have hgd2 : lx.src.getD (lx.i + 2) sentinel = peekT lx 2 := by rw [peekT_eq]
  refine ⟨(((advance_walk lx).trans (advance_walk _)).trans (advance_walk _)).trans
      (addTok_walk _ _ _ _ _),
    by rw [addTok_i, hadv3]; omega,
    Or.inl ⟨_, by rw [addTok_errors, advance_errors, advance_errors, advance_errors],
      by rw [addTok_tokens, advance_tokens, advance_tokens, advance_tokens],
      ?_, rfl, rfl⟩⟩
  show [peekT lx 0, peekT lx 1, peekT lx 2] = seg lx.src lx.i _
  rw [addTok_i, hadv3, seg_cons lx.src hin0 (by omega),
    seg_cons lx.src (show lx.i + 1 < lx.src.length from hin1) (by omega),
    show lx.i + 3 = lx.i + 2 + 1 by omega, seg_one lx.src (lx.i + 2) hin2,
    hgd0, hgd1, hgd2]

/-- Accounting for the default branch of the symbol switch: record the
invalid-character error and step past the offending code point. -/
theorem acct_err1 (lx : Lexer) (m : String) (hne : peekT lx 0 ≠ sentinel) :
    ScanAcct lx (advance (errorAt lx lx.line lx.col m)).2 := by
  have hin : lx.i < lx.src.length := peekT_lt lx 0 hne
  have hinE : (errorAt lx lx.line lx.col m).i <
      (errorAt lx lx.line lx.col m).src.length := by
    rw [errorAt_i, errorAt_src]; exact hin
  have hadvE : (advance (errorAt lx lx.line lx.col m)).2.i = lx.i + 1 := by
    rw [advance_i_lt _ hinE, errorAt_i]
  refine ⟨(errorAt_walk lx _ _ _).trans (advance_walk _),
    by rw [hadvE]; omega,
    Or.inr ⟨⟨lx.line, lx.col, m⟩,
      by rw [advance_tokens, errorAt_tokens],
      by rw [advance_errors, errorAt_errors], rfl, rfl⟩⟩

/-- The symbol switch of `nextToken` satisfies the accounting postcondition:
every branch emits exactly one token whose lexeme is the consumed one-, two-
or three-code-point span, or one invalid-character error, and strictly
advances the cursor. -/
theorem symbolStep_acct (lx : Lexer) (hne : peekT lx 0 ≠ sentinel) :
    ScanAcct lx (symbolStep lx (peekT lx 0) lx.line lx.col) := by
  unfold symbolStep
  by_cases h1 : peekT lx 0 = '('
  · rw [if_pos h1]
    exact acct_tok1_of lx _ hne h1
  rw [if_neg h1]
  by_cases h2 : peekT lx 0 = ')'
  · rw [if_pos h2]
    exact acct_tok1_of lx _ hne h2
  rw [if_neg h2]
  by_cases h3 : peekT lx 0 = '{'
  · rw [if_pos h3]
    exact acct_tok1_of lx _ hne h3
  rw [if_neg h3]
  by_cases h4 : peekT lx 0 = '}'
  · rw [if_pos h4]
    exact acct_tok1_of lx _ hne h4
  rw [if_neg h4]
  by_cases h5 : peekT lx 0 = '['
  · rw [if_pos h5]
    exact acct_tok1_of lx _ hne h5
  rw [if_neg h5]
  by_cases h6 : peekT lx 0 = ']'
  · rw [if_pos h6]
    exact acct_tok1_of lx _ hne h6
  rw [if_neg h6]
  by_cases h7 : peekT lx 0 = ','
  · rw [if_pos h7]
    exact acct_tok1_of lx _ hne h7
  rw [if_neg h7]
  by_cases h8 : peekT lx 0 = ';'
  · rw [if_pos h8]
    exact acct_tok1_of lx _ hne h8
  rw [if_neg h8]
  by_cases h9 : peekT lx 0 = ':'
  · rw [if_pos h9]
    by_cases g9 : peekT lx 1 = '='
    · rw [if_pos g9]
      exact acct_tok2_of lx _ hne h9 g9 (by decide)
    · rw [if_neg g9]
      exact acct_tok1_of lx _ hne h9
  rw [if_neg h9]
  by_cases h10 : peekT lx 0 = '.'
  · rw [if_pos h10]
    exact acct_tok1_of lx _ hne h10
  rw [if_neg h10]
  by_cases h11 : peekT lx 0 = '+'
  · rw [if_pos h11]
    by_cases g11 : peekT lx 1 = '='
    · rw [if_pos g11]
      exact acct_tok2_of lx _ hne h11 g11 (by decide)
    · rw [if_neg g11]
      exact acct_tok1_of lx _ hne h11
  rw [if_neg h11]
  by_cases h12 : peekT lx 0 = '-'
  · rw [if_pos h12]
    by_cases g12 : peekT lx 1 = '='
    · rw [if_pos g12]
      exact acct_tok2_of lx _ hne h12 g12 (by decide)
    · rw [if_neg g12]
      exact acct_tok1_of lx _ hne h12
  rw [if_neg h12]
  by_cases h13 : peekT lx 0 = '*'
  · rw [if_pos h13]
    by_cases g13 : peekT lx 1 = '='
    · rw [if_pos g13]
      exact acct_tok2_of lx _ hne h13 g13 (by decide)
    · rw [if_neg g13]
      exact acct_tok1_of lx _ hne h13
  rw [if_neg h13]
  by_cases h14 : peekT lx 0 = '/'
  · rw [if_pos h14]
    by_cases g14 : peekT lx 1 = '='
    · rw [if_pos g14]
      exact acct_tok2_of lx _ hne h14 g14 (by decide)
    · rw [if_neg g14]
      exact acct_tok1_of lx _ hne h14
  rw [if_neg h14]
  by_cases h15 : peekT lx 0 = '%'
  · rw [if_pos h15]
    by_cases g15 : peekT lx 1 = '='
    · rw [if_pos g15]
      exact acct_tok2_of lx _ hne h15 g15 (by decide)
    · rw [if_neg g15]
      exact acct_tok1_of lx _ hne h15
  rw [if_neg h15]
  by_cases h16 : peekT lx 0 = '<'
  · rw [if_pos h16]
    by_cases ga16 : peekT lx 1 = '-'
    · rw [if_pos ga16]
      exact acct_tok2_of lx _ hne h16 ga16 (by decide)
    rw [if_neg ga16]
    by_cases gb16 : peekT lx 1 = '='
    · rw [if_pos gb16]
      exact acct_tok2_of lx _ hne h16 gb16 (by decide)
    rw [if_neg gb16]
    by_cases gc16 : peekT lx 1 = '<'
    · rw [if_pos gc16]
      by_cases gd16 : peekT lx 2 = '='
      · rw [if_pos gd16]
        exact acct_tok3_of lx _ hne h16 gc16 gd16 (by decide) (by decide)
      · rw [if_neg gd16]
        exact acct_tok2_of lx _ hne h16 gc16 (by decide)
    · rw [if_neg gc16]
      exact acct_tok1_of lx _ hne h16
  rw [if_neg h16]
  by_cases h17 : peekT lx 0 = '>'
  · rw [if_pos h17]
    by_cases ga17 : peekT lx 1 = '='
    · rw [if_pos ga17]
      exact acct_tok2_of lx _ hne h17 ga17 (by decide)
    rw [if_neg ga17]
    by_cases gb17 : peekT lx 1 = '>'
    · rw [if_pos gb17]
      by_cases gd17 : peekT lx 2 = '='
      · rw [if_pos gd17]
        exact acct_tok3_of lx _ hne h17 gb17 gd17 (by decide) (by decide)
      · rw [if_neg gd17]
        exact acct_tok2_of lx _ hne h17 gb17 (by decide)
    · rw [if_neg gb17]
      exact acct_tok1_of lx _ hne h17
  rw [if_neg h17]
  by_cases h18 : peekT lx 0 = '='
  · rw [if_pos h18]
    by_cases g18 : peekT lx 1 = '='
    · rw [if_pos g18]
      exact acct_tok2_of lx _ hne h18 g18 (by decide)
    · rw [if_neg g18]
      exact acct_tok1_of lx _ hne h18
  rw [if_neg h18]
  by_cases h19 : peekT lx 0 = '!'
  · rw [if_pos h19]
    by_cases g19 : peekT lx 1 = '='
    · rw [if_pos g19]
      exact acct_tok2_of lx _ hne h19 g19 (by decide)
    · rw [if_neg g19]
      exact acct_tok1_of lx _ hne h19
  rw [if_neg h19]
  by_cases h20 : peekT lx 0 = '&'
  · rw [if_pos h20]
    by_cases ga20 : peekT lx 1 = '&'
    · rw [if_pos ga20]
      exact acct_tok2_of lx _ hne h20 ga20 (by decide)
    rw [if_neg ga20]
    by_cases gb20 : peekT lx 1 = '='
    · rw [if_pos gb20]
      exact acct_tok2_of lx _ hne h20 gb20 (by decide)
    · rw [if_neg gb20]
      exact acct_tok1_of lx _ hne h20
  rw [if_neg h20]
  by_cases h21 : peekT lx 0 = '|'
  · rw [if_pos h21]
    by_cases ga21 : peekT lx 1 = '|'
    · rw [if_pos ga21]
      exact acct_tok2_of lx _ hne h21 ga21 (by decide)
    rw [if_neg ga21]
    by_cases gb21 : peekT lx 1 = '='
    · rw [if_pos gb21]
      exact acct_tok2_of lx _ hne h21 gb21 (by decide)
    · rw [if_neg gb21]
      exact acct_tok1_of lx _ hne h21
  rw [if_neg h21]
  by_cases h22 : peekT lx 0 = '^'
  · rw [if_pos h22]
    by_cases g22 : peekT lx 1 = '='
    · rw [if_pos g22]
      exact acct_tok2_of lx _ hne h22 g22 (by decide)
    · rw [if_neg g22]
      exact acct_tok1_of lx _ hne h22
  rw [if_neg h22]
  exact acct_err1 lx _ hne

/-- Second component of a literal pair (used to strip the Bool flag off a
`nextToken` branch without expensive definitional unfolding). -/
theorem snd_pair (b : Bool) (x : Lexer) : ((b, x) : Bool × Lexer).2 = x := rfl

/-- When the post-trivia cursor sees the sentinel, `nextToken` reports no
more tokens and leaves the state at the skipped position. -/
theorem nextToken_eq_false (lx : Lexer) (h : peekT (skipWSAndComments lx) 0 = sentinel) :
    nextToken lx = (false, skipWSAndComments lx) := by
  simp only [nextToken]
  rw [if_pos h]

/-- State version of `nextToken_eq_false`. -/
theorem nextToken_snd_false (lx : Lexer) (h : peekT (skipWSAndComments lx) 0 = sentinel) :
    (nextToken lx).2 = skipWSAndComments lx := by
  rw [nextToken_eq_false lx h, snd_pair]

/-- `nextToken` returns false exactly when the post-trivia cursor sees the
sentinel. -/
theorem nextToken_false_iff (lx : Lexer) :
    (nextToken lx).1 = false ↔ peekT (skipWSAndComments lx) 0 = sentinel := by
  simp only [nextToken]
  by_cases h : peekT (skipWSAndComments lx) 0 = sentinel
  · rw [if_pos h]
    simp [h]
  · rw [if_neg h]
    split_ifs <;> simp [h]

/-- A true `nextToken` step is one scanner dispatch from the post-trivia
state, and so satisfies the accounting postcondition from there. -/
theorem nextToken_true_acct (lx : Lexer) (h : (nextToken lx).1 = true) :
    ScanAcct (skipWSAndComments lx) (nextToken lx).2 := by
  have hne : peekT (skipWSAndComments lx) 0 ≠ sentinel := by
    intro hc
    rw [nextToken_eq_false lx hc] at h
    exact Bool.false_ne_true h
  simp only [nextToken]
  rw [if_neg hne]
  by_cases h1 : isIdentStart (peekT (skipWSAndComments lx) 0) = true
  · rw [if_pos h1, snd_pair]
    exact scanIdentOrKeyword_acct _ h1
  rw [if_neg h1]
  by_cases h2 : isDigitU (peekT (skipWSAndComments lx) 0) = true
  · rw [if_pos h2, snd_pair]
    exact scanNumber_acct _ h2
  rw [if_neg h2]
  by_cases h3 : peekT (skipWSAndComments lx) 0 = dquote
  · rw [if_pos h3, snd_pair]
    exact scanString_acct _ h3
  rw [if_neg h3]
  by_cases h4 : peekT (skipWSAndComments lx) 0 = backquote
  · rw [if_pos h4, snd_pair]
    exact scanRawString_acct _ h4
  rw [if_neg h4]
  by_cases h5 : peekT (skipWSAndComments lx) 0 = squote
  · rw [if_pos h5, snd_pair]
    exact scanChar_acct _ h5
  rw [if_neg h5, snd_pair]
  exact symbolStep_acct _ hne

/-- Every `nextToken` step is a walk of the state. -/
theorem nextToken_walk (lx : Lexer) : Walk lx (nextToken lx).2 := by
  rcases Bool.eq_false_or_eq_true (nextToken lx).1 with h | h
  · exact (skip_walk lx).1.trans (nextToken_true_acct lx h).1
  · rw [nextToken_snd_false lx ((nextToken_false_iff lx).mp h)]
    exact (skip_walk lx).1

/-- A true `nextToken` step strictly advances the cursor. -/
theorem nextToken_progress (lx : Lexer) (h : (nextToken lx).1 = true) :
    lx.i < (nextToken lx).2.i := by
  have h1 := (skip_walk lx).1.2.1
  have h2 := (nextToken_true_acct lx h).2.1
  omega

/-- Errors only accumulate across a `nextToken` step. -/
theorem nextToken_errors_ext (lx : Lexer) :
    ∃ es, (nextToken lx).2.errors = lx.errors ++ es := by
  rcases Bool.eq_false_or_eq_true (nextToken lx).1 with h | h
  · obtain ⟨es, hsk⟩ := (skip_walk lx).2.2
    rcases (nextToken_true_acct lx h).2.2 with ⟨t, he, _⟩ | ⟨e, _, he, _⟩
    · exact ⟨es, by rw [he, hsk]⟩
    · exact ⟨es ++ [e], by rw [he, hsk, List.append_assoc]⟩
  · rw [nextToken_snd_false lx ((nextToken_false_iff lx).mp h)]
    exact (skip_walk lx).2.2

/-- The driver loop only walks the state forward. -/
theorem lexAllF_walk : ∀ (f : Nat) (lx : Lexer), Walk lx (lexAllF f lx) := by
  intro f
  induction f with
  | zero => exact fun lx => Walk.refl lx
  | succ f ih =>
    intro lx
    simp only [lexAllF]
    rcases hb : (nextToken lx).1 with _ | _
    · rw [if_neg Bool.false_ne_true]
      exact nextToken_walk lx
    · rw [if_pos rfl]
      exact (nextToken_walk lx).trans (ih (nextToken lx).2)

/-- With fuel exceeding the number of unread code points, the driver loop
reaches a state on which `nextToken` reports no more tokens. -/
theorem lexAllF_done : ∀ (f : Nat) (lx : Lexer), Wf lx →
    lx.src.length - lx.i < f → (nextToken (lexAllF f lx)).1 = false := by
  intro f
  induction f with
  | zero => exact fun lx _ hf => absurd hf (by omega)
  | succ f ih =>
    intro lx hwf hf
    simp only [lexAllF]
    rcases hb : (nextToken lx).1 with _ | _
    · rw [if_neg Bool.false_ne_true]
      have hsent : peekT (skipWSAndComments lx) 0 = sentinel :=
        (nextToken_false_iff lx).mp hb
      rw [nextToken_snd_false lx hsent]
      apply (nextToken_false_iff _).mpr
      rw [skip_sentinel _ hsent]
      exact hsent
    · rw [if_pos rfl]
      have hw := nextToken_walk lx
      apply ih (nextToken lx).2 (hw.2.2.2 hwf)
      rw [hw.1]
      have h1 := nextToken_progress lx hb
      have h2 := hw.2.2.1 hwf.1
      omega

/-- Errors only accumulate across the driver loop. -/
theorem lexAllF_errors_ext : ∀ (f : Nat) (lx : Lexer),
    ∃ es, (lexAllF f lx).errors = lx.errors ++ es := by
  intro f
  induction f with
  | zero => exact fun lx => ⟨[], by simp [lexAllF]⟩
  | succ f ih =>
    intro lx
    simp only [lexAllF]
    rcases hb : (nextToken lx).1 with _ | _
    · rw [if_neg Bool.false_ne_true]
      exact nextToken_errors_ext lx
    · rw [if_pos rfl]
      obtain ⟨es1, h1⟩ := nextToken_errors_ext lx
      obtain ⟨es2, h2⟩ := ih (nextToken lx).2
      exact ⟨es1 ++ es2, by rw [h2, h1, List.append_assoc]⟩

/-- A list extended twice on the right that equals itself extends by nothing. -/
theorem append_append_eq_self {α : Type} {l a b : List α} (h : l ++ a ++ b = l) :
    a = [] ∧ b = [] := by
  have hl := congrArg List.length h
  simp only [List.length_append] at hl
  constructor
  · exact List.length_eq_zero.mp (by omega)
  · exact List.length_eq_zero.mp (by omega)

theorem concatLexemes_single (t : Token) : concatLexemes [t] = t.lexeme := by
  simp [concatLexemes]

theorem concatLexemes_nil : concatLexemes [] = [] := rfl

theorem newTokens_of_append (lx lx' : Lexer) (t : Token)
    (h : lx'.tokens = lx.tokens ++ [t]) : newTokens lx lx' = [t] := by
  unfold newTokens
  rw [h, List.drop_left]

theorem newTokens_of_eq {lx lx' : Lexer} (h : lx'.tokens = lx.tokens) :
    newTokens lx lx' = [] := by
  unfold newTokens
  rw [h, List.drop_length]

/-- The pieces of one full run — trivia, token lexemes, and the spans of
error-triggering attempts — concatenate, in order, to exactly the consumed
prefix of the input. -/
theorem runPiecesF_eq : ∀ (f : Nat) (lx : Lexer), Wf lx →
    runPiecesF f lx = seg lx.src lx.i (lexAllF f lx).i := by
  intro f
  induction f with
  | zero =>
    intro lx _
    simp only [runPiecesF, lexAllF]
    exact (seg_self lx.src lx.i).symm
  | succ f ih =>
    intro lx hwf
    simp only [runPiecesF, lexAllF]
    rcases hb : (nextToken lx).1 with _ | _
    · rw [if_neg Bool.false_ne_true, if_neg Bool.false_ne_true]
      have hsent := (nextToken_false_iff lx).mp hb
      rw [nextToken_snd_false lx hsent]
      rw [if_pos (by rw [(skip_walk lx).2.1])]
      rw [seg_self, List.append_nil, List.append_nil]
    · rw [if_pos rfl, if_pos rfl]
      have acct := nextToken_true_acct lx hb
      have hsk := skip_walk lx
      have hss : (skipWSAndComments lx).src = lx.src := hsk.1.1
      have hr2src : (nextToken lx).2.src = lx.src := (nextToken_walk lx).1
      have hi1 : lx.i ≤ (skipWSAndComments lx).i := hsk.1.2.1
      have hi2 : (skipWSAndComments lx).i ≤ (nextToken lx).2.i := le_of_lt acct.2.1
      have hi3 : (nextToken lx).2.i ≤ (lexAllF f (nextToken lx).2).i :=
        (lexAllF_walk f (nextToken lx).2).2.1
      have hih := ih (nextToken lx).2 ((nextToken_walk lx).2.2.2 hwf)
      have hX : (if (nextToken lx).2.tokens.length = lx.tokens.length
            then seg lx.src (skipWSAndComments lx).i (nextToken lx).2.i
            else concatLexemes (newTokens lx (nextToken lx).2)) =
          seg lx.src (skipWSAndComments lx).i (nextToken lx).2.i := by
        rcases acct.2.2 with ⟨t, he, ht, hlex, _, _⟩ | ⟨e, ht, he, _, _⟩
        · have hc : ¬ ((nextToken lx).2.tokens.length = lx.tokens.length) := by
            intro hcc
            rw [ht, hsk.2.1, List.length_append, List.length_singleton] at hcc
            omega
          rw [if_neg hc, newTokens_of_append lx _ t (by rw [ht, hsk.2.1]),
            concatLexemes_single, hlex, hss]
        · rw [if_pos (by rw [ht, hsk.2.1])]
      rw [hX, seg_append lx.src hi1 hi2, hih, hr2src,
        seg_append lx.src (le_trans hi1 hi2) hi3]

/-- On an error-free run, the trivia and the token lexemes alone concatenate
to exactly the consumed prefix of the input. -/
theorem tokensTriviaF_eq : ∀ (f : Nat) (lx : Lexer), Wf lx →
    (lexAllF f lx).errors = lx.errors →
    tokensTriviaF f lx = seg lx.src lx.i (lexAllF f lx).i := by
  intro f
  induction f with
  | zero =>
    intro lx _ _
    simp only [tokensTriviaF, lexAllF]
    exact (seg_self lx.src lx.i).symm
  | succ f ih =>
    intro lx hwf herr
    simp only [tokensTriviaF, lexAllF]
    simp only [lexAllF] at herr
    rcases hb : (nextToken lx).1 with _ | _
    · rw [if_neg Bool.false_ne_true, if_neg Bool.false_ne_true]
      have hsent := (nextToken_false_iff lx).mp hb
      rw [nextToken_snd_false lx hsent]
      rw [newTokens_of_eq (skip_walk lx).2.1, concatLexemes_nil,
        List.append_nil, List.append_nil]
    · rw [hb] at herr
      rw [if_pos rfl, if_pos rfl]
      rw [if_pos rfl] at herr
      have acct := nextToken_true_acct lx hb
      have hsk := skip_walk lx
      have hss : (skipWSAndComments lx).src = lx.src := hsk.1.1
      have hr2src : (nextToken lx).2.src = lx.src := (nextToken_walk lx).1
      have hi1 : lx.i ≤ (skipWSAndComments lx).i := hsk.1.2.1
      have hi2 : (skipWSAndComments lx).i ≤ (nextToken lx).2.i := le_of_lt acct.2.1
      have hi3 : (nextToken lx).2.i ≤ (lexAllF f (nextToken lx).2).i :=
        (lexAllF_walk f (nextToken lx).2).2.1
      obtain ⟨es1, h1⟩ := nextToken_errors_ext lx
      obtain ⟨es2, h2⟩ := lexAllF_errors_ext f (nextToken lx).2
      rw [h2, h1] at herr
      obtain ⟨hes1, hes2⟩ := append_append_eq_self herr
      have hr2e : (nextToken lx).2.errors = lx.errors := by
        rw [h1, hes1, List.append_nil]
      obtain ⟨es0, hsk0⟩ := hsk.2.2
      rcases acct.2.2 with ⟨t, he, ht, hlex, _, _⟩ | ⟨e, ht', he', _, _⟩
      · have hih := ih (nextToken lx).2 ((nextToken_walk lx).2.2.2 hwf)
          (by rw [h2, hes2, List.append_nil])
        rw [newTokens_of_append lx _ t (by rw [ht, hsk.2.1]),
          concatLexemes_single, hlex, hss,
          seg_append lx.src hi1 hi2, hih, hr2src,
          seg_append lx.src (le_trans hi1 hi2) hi3]
      · have hcontr : lx.errors ++ es0 ++ [e] = lx.errors := by
          rw [← hsk0, ← he']
          exact hr2e
        exact absurd (append_append_eq_self hcontr).2 (by simp)

/-- `containsPair` detects exactly the adjacent occurrences of the ordered
pair `(a, b)`. -/
theorem containsPair_iff : ∀ (s : List Char) (a b : Char),
    containsPair s a b = true ↔
    ∃ k, k + 1 < s.length ∧ s.getD k sentinel = a ∧ s.getD (k + 1) sentinel = b
  | [], a, b => by
    simp only [containsPair]
    constructor
    · intro h
      exact absurd h Bool.false_ne_true
    · rintro ⟨k, hk, _⟩
      simp at hk
  | [x], a, b => by
    simp only [containsPair]
    constructor
    · intro h
      exact absurd h Bool.false_ne_true
    · rintro ⟨k, hk, _⟩
      simp at hk
  | x :: y :: rest, a, b => by
    simp only [containsPair]
    rw [Bool.or_eq_true, Bool.and_eq_true]
    constructor
    · rintro (⟨h1, h2⟩ | h)
      · refine ⟨0, by simp, ?_, ?_⟩
        · rw [List.getD_cons_zero]
          exact of_decide_eq_true h1
        · rw [List.getD_cons_succ, List.getD_cons_zero]
          exact of_decide_eq_true h2
      · obtain ⟨k, hk, h1, h2⟩ := (containsPair_iff (y :: rest) a b).mp h
        refine ⟨k + 1, by simp at hk ⊢; omega, ?_, ?_⟩
        · rw [List.getD_cons_succ]
          exact h1
        · rw [List.getD_cons_succ]
          exact h2
    · rintro ⟨k, hk, h1, h2⟩
      cases k with
      | zero =>
        rw [List.getD_cons_zero] at h1
        rw [List.getD_cons_succ, List.getD_cons_zero] at h2
        exact Or.inl ⟨decide_eq_true h1, decide_eq_true h2⟩
      | succ k =>
        rw [List.getD_cons_succ] at h1 h2
        refine Or.inr ((containsPair_iff (y :: rest) a b).mpr ⟨k, ?_, h1, h2⟩)
        simp at hk ⊢
        omega

/-- Every bad pair is an underscore next to one of the adjacency-restricted
characters, in one of the two orders. -/
theorem badPairs_shape : ∀ p ∈ badPairs,
    (p.1 = '_' ∧ p.2 ∈ adjChars) ∨ (p.1 ∈ adjChars ∧ p.2 = '_') := by
  decide

/-- Both orders of an underscore next to an adjacency-restricted character
are in the bad-pair list. -/
theorem adjChars_pairs : ∀ c ∈ adjChars, ('_', c) ∈ badPairs ∧ (c, '_') ∈ badPairs := by
  decide

/-- `validUnderscores` rejects exactly the strings matching the
specification's rejection rule. -/
theorem validUnderscores_false_iff (s : List Char) :
    validUnderscores s = false ↔ underscoreReject s := by
  unfold validUnderscores underscoreReject
  split_ifs with h1 h2 h3 h4
  · exact ⟨fun _ => Or.inl h1, fun _ => rfl⟩
  · refine ⟨fun _ => ?_, fun _ => rfl⟩
    rw [Bool.or_eq_true] at h2
    rcases h2 with h2 | h2
    · exact Or.inr (Or.inl (of_decide_eq_true h2))
    · exact Or.inr (Or.inr (Or.inl (of_decide_eq_true h2)))
  · refine ⟨fun _ => ?_, fun _ => rfl⟩
    obtain ⟨k, hk, ha, hb⟩ := (containsPair_iff s '_' '_').mp h3
    exact Or.inr (Or.inr (Or.inr (Or.inl ⟨k, hk, ha, hb⟩)))
  · refine ⟨fun _ => ?_, fun _ => rfl⟩
    rw [List.any_eq_true] at h4
    obtain ⟨p, hp, hcp⟩ := h4
    obtain ⟨k, hk, ha, hb⟩ := (containsPair_iff s p.1 p.2).mp hcp
    rcases badPairs_shape p hp with ⟨hp1, hp2⟩ | ⟨hp1, hp2⟩
    · refine Or.inr (Or.inr (Or.inr (Or.inr ⟨k, p.2, hk, hp2, Or.inl ⟨?_, hb⟩⟩)))
      rw [ha, hp1]
    · refine Or.inr (Or.inr (Or.inr (Or.inr ⟨k, p.1, hk, hp1, Or.inr ⟨ha, ?_⟩⟩)))
      rw [hb, hp2]
  · constructor
    · intro hf
      exact absurd hf (by decide)
    · intro hr
      exfalso
      rcases hr with hr | hr | hr | ⟨k, hk, ha, hb⟩ | ⟨k, c, hk, hc, hor⟩
      · exact h1 hr
      · exact h2 (by rw [Bool.or_eq_true]; exact Or.inl (decide_eq_true hr))
      · exact h2 (by rw [Bool.or_eq_true]; exact Or.inr (decide_eq_true hr))
      · exact h3 ((containsPair_iff s '_' '_').mpr ⟨k, hk, ha, hb⟩)
      · rcases hor with ⟨ha, hb⟩ | ⟨ha, hb⟩
        · refine h4 (List.any_eq_true.mpr ⟨('_', c), (adjChars_pairs c hc).1, ?_⟩)
          exact (containsPair_iff s '_' c).mpr ⟨k, hk, ha, hb⟩
        · refine h4 (List.any_eq_true.mpr ⟨(c, '_'), (adjChars_pairs c hc).2, ?_⟩)
          exact (containsPair_iff s c '_').mpr ⟨k, hk, ha, hb⟩

/-- First component of a literal pair. -/
theorem fst_pair (b : Bool) (x : Lexer) : ((b, x) : Bool × Lexer).1 = b := rfl

/-- A state on which `nextToken` reports no more tokens without moving is a
fixed point of the driver loop. -/
theorem lexAllF_fix : ∀ (f : Nat) (lx : Lexer), nextToken lx = (false, lx) →
    lexAllF f lx = lx := by
  intro f
  induction f with
  | zero => exact fun lx _ => rfl
  | succ f ih =>
    intro lx h
    simp only [lexAllF]
    rw [h, fst_pair, snd_pair, if_neg Bool.false_ne_true]

/-- The raw-string loop at the sentinel reports the unterminated error at
once. -/
theorem scanRawLoop_sentinel (f : Nat) (lx : Lexer) (b : List Char) (l c : Nat)
    (h : peekT lx 0 = sentinel) (hf : 0 < f) :
    scanRawLoop f lx b l c = errorAt lx l c "unterminated raw string" := by
  cases f with
  | zero => exact absurd hf (lt_irrefl 0)
  | succ f =>
    simp only [scanRawLoop]
    rw [if_pos h]

/-- A raw string whose content starts with the sentinel code point is
reported unterminated, regardless of what follows. -/
theorem scanRawString_sentinel (lx : Lexer) (hq : peekT lx 0 = backquote)
    (hs : peekT lx 1 = sentinel) :
    (scanRawString lx).tokens = lx.tokens ∧
    (scanRawString lx).errors =
      lx.errors ++ [⟨lx.line, lx.col, "unterminated raw string"⟩] := by
  have hne : peekT lx 0 ≠ sentinel := by rw [hq]; decide
  have hin : lx.i < lx.src.length := peekT_lt lx 0 hne
  have hs1 : peekT (advance lx).2 0 = sentinel := by
    rw [peekT_advance lx hin 0]
    exact hs
  have hs2 : scanRawString lx = scanRawLoop (lx.src.length + 2) (advance lx).2
      [(advance lx).1] lx.line lx.col := rfl
  rw [hs2, scanRawLoop_sentinel _ _ _ _ _ hs1 (by omega)]
  exact ⟨by rw [errorAt_tokens, advance_tokens], by rw [errorAt_errors, advance_errors]⟩

/-- A char literal whose content position holds the sentinel code point is
reported as an empty or invalid char literal, regardless of what follows. -/
theorem scanChar_sentinel (lx : Lexer) (hq : peekT lx 0 = squote)
    (hs : peekT lx 1 = sentinel) :
    (scanChar lx).tokens = lx.tokens ∧
    (scanChar lx).errors =
      lx.errors ++ [⟨lx.line, lx.col, "empty or invalid char literal"⟩] := by
  have hne : peekT lx 0 ≠ sentinel := by rw [hq]; decide
  have hin : lx.i < lx.src.length := peekT_lt lx 0 hne
  have hs1 : peekT (advance lx).2 0 = sentinel := by
    rw [peekT_advance lx hin 0]
    exact hs
  have hsc : scanChar lx = errorAt (advance lx).2 lx.line lx.col
      "empty or invalid char literal" := by
    simp only [scanChar]
    rw [if_neg (by rw [hs1]; decide), if_pos (Or.inl hs1)]
  rw [hsc]
  exact ⟨by rw [errorAt_tokens, advance_tokens], by rw [errorAt_errors, advance_errors]⟩

/-- The block-comment loop at the sentinel reports the unterminated error at
the opening position at once. -/
theorem blockCommentLoop_sentinel (f : Nat) (lx : Lexer) (depth sl sc : Nat)
    (hd : 0 < depth) (h : peekT lx 0 = sentinel) (hf : 0 < f) :
    blockCommentLoop f lx depth sl sc =
      (errorAt lx sl sc "unterminated block comment", false) := by
  cases f with
  | zero => exact absurd hf (lt_irrefl 0)
  | succ f =>
    simp only [blockCommentLoop]
    rw [if_pos hd, if_pos h]

/-- The skipping loop entered at a block-comment opener whose body starts
with the sentinel reports the unterminated error, regardless of what
follows. -/
theorem skipLoop_block_sentinel (f : Nat) (lx : Lexer) (hf : 0 < f)
    (h0 : peekT lx 0 = '/') (h1 : peekT lx 1 = '*')
    (hbs : peekT (advance (advance lx).2).2 0 = sentinel) :
    skipLoop f lx =
      errorAt (advance (advance lx).2).2 lx.line lx.col "unterminated block comment" := by
  cases f with
  | zero => exact absurd hf (lt_irrefl 0)
  | succ f =>
    simp only [skipLoop]
    rw [if_neg (by rw [h0]; decide)]
    rw [if_neg (fun hc => absurd hc.2 (by rw [h1]; decide))]
    rw [if_pos ⟨h0, h1⟩]
    rw [blockCommentLoop_sentinel _ _ _ _ _ (by omega) hbs (by omega)]
    rw [if_neg (fun hc => Bool.false_ne_true hc)]

/-- `skipWSAndComments` on a block-comment opener with the sentinel inside
the comment body records the unterminated error at the opener. -/
theorem skip_block_sentinel (lx : Lexer) (h0 : peekT lx 0 = '/')
    (h1 : peekT lx 1 = '*') (h2 : peekT lx 2 = sentinel) :
    skipWSAndComments lx =
      errorAt (advance (advance lx).2).2 lx.line lx.col "unterminated block comment" := by
  have hin0 : lx.i < lx.src.length := by
    have := peekT_lt lx 0 (by rw [h0]; decide)
    omega
  have hin1 : (advance lx).2.i < (advance lx).2.src.length := by
    rw [advance_src, advance_i_lt lx hin0]
    exact peekT_lt lx 1 (by rw [h1]; decide)
  have hbs : peekT (advance (advance lx).2).2 0 = sentinel := by
    rw [peekT_advance _ hin1 0, peekT_advance lx hin0 1]
    exact h2
  exact skipLoop_block_sentinel (lx.src.length + 2) lx (by omega) h0 h1 hbs

/-- With positive fuel, a false `nextToken` step ends the driver loop at
once. -/
theorem lexAllF_false_of_pos (f : Nat) (lx : Lexer) (hf : 0 < f)
    (hb : (nextToken lx).1 = false) : lexAllF f lx = (nextToken lx).2 := by
  cases f with
  | zero => exact absurd hf (lt_irrefl 0)
  | succ f =>
    simp only [lexAllF]
    rw [if_neg (by rw [hb]; exact Bool.false_ne_true)]

/-- Whenever the post-trivia code point is the sentinel — real end of input
or an in-buffer NUL — the whole run stops right there: the remainder of the
input is never scanned. -/
theorem LexAll_sentinel_stop (lx : Lexer)
    (h : peekT (skipWSAndComments lx) 0 = sentinel) :
    LexAll lx = skipWSAndComments lx := by
  have h2 : LexAll lx = (nextToken lx).2 :=
    lexAllF_false_of_pos (lx.src.length + 2) lx (by omega)
      ((nextToken_false_iff lx).mpr h)
  rw [h2, nextToken_snd_false lx h]

/-- A successfully scanned string never contains the sentinel code point:
the scanner cannot scan past a NUL. -/
theorem stringSpec_ok_no_sentinel_aux : ∀ (n : Nat) (l : List Char), l.length ≤ n →
    ∀ (cs : List Char), stringSpec l = StrRes.ok cs → sentinel ∉ cs := by
  intro n
  induction n with
  | zero =>
    intro l hl cs h
    have : l = [] := List.eq_nil_of_length_eq_zero (by omega)
    subst this
    rw [show stringSpec [] = StrRes.uterm from rfl] at h
    exact absurd h (by simp)
  | succ n ih =>
    intro l hl cs h
    rcases l with _ | ⟨ch, rest⟩
    · rw [show stringSpec [] = StrRes.uterm from rfl] at h
      exact absurd h (by simp)
    · unfold stringSpec at h
      by_cases h1 : ch = sentinel ∨ ch = '\n'
      · rw [if_pos h1] at h
        exact absurd h (by simp)
      · rw [if_neg h1] at h
        by_cases h2 : ch = bslash
        · rw [if_pos h2] at h
          rcases rest with _ | ⟨d, rest2⟩
          · exact absurd h (by simp)
          · simp only at h
            by_cases h3 : d = sentinel ∨ d = '\n'
            · rw [if_pos h3] at h
              exact absurd h (by simp)
            · rw [if_neg h3] at h
              rcases hrec : stringSpec rest2 with cs2 | _ | _ <;> rw [hrec] at h
              · have h5 : StrRes.ok (ch :: d :: cs2) = StrRes.ok cs := h
                injection h5 with h6
                have hns := ih rest2 (by simp at hl; omega) cs2 hrec
                rw [← h6]
                intro hmem
                rcases List.mem_cons.mp hmem with hq | hmem2
                · exact h1 (Or.inl hq.symm)
                rcases List.mem_cons.mp hmem2 with hq | hmem3
                · exact h3 (Or.inl hq.symm)
                · exact hns hmem3
              · exact absurd (show StrRes.uterm = StrRes.ok cs from h) (by simp)
              · exact absurd (show StrRes.badEsc = StrRes.ok cs from h) (by simp)
        · rw [if_neg h2] at h
          by_cases h4 : ch = dquote
          · rw [if_pos h4] at h
            injection h with h6
            rw [← h6, h4]
            decide
          · rw [if_neg h4] at h
            rcases hrec : stringSpec rest with cs2 | _ | _ <;> rw [hrec] at h
            · have h5 : StrRes.ok (ch :: cs2) = StrRes.ok cs := h
              injection h5 with h6
              have hns := ih rest (by simp at hl; omega) cs2 hrec
              rw [← h6]
              intro hmem
              rcases List.mem_cons.mp hmem with hq | hmem2
              · exact h1 (Or.inl hq.symm)
              · exact hns hmem2
            · exact absurd (show StrRes.uterm = StrRes.ok cs from h) (by simp)
            · exact absurd (show StrRes.badEsc = StrRes.ok cs from h) (by simp)

/-- Wrapper of `stringSpec_ok_no_sentinel_aux` at the natural fuel. -/
theorem stringSpec_ok_no_sentinel (l cs : List Char)
    (h : stringSpec l = StrRes.ok cs) : sentinel ∉ cs :=
  stringSpec_ok_no_sentinel_aux l.length l (le_refl _) cs h

/-- A sentinel code point reached as plain string content — at any depth —
makes the string contract unterminated, regardless of what follows. -/
theorem stringSpec_pre_uterm : ∀ (pre post : List Char),
    (∀ c ∈ pre, c ≠ sentinel ∧ c ≠ '\n' ∧ c ≠ bslash ∧ c ≠ dquote) →
    stringSpec (pre ++ sentinel :: post) = StrRes.uterm := by
  intro pre
  induction pre with
  | nil =>
    intro post _
    rw [List.nil_append, stringSpec_cons, if_pos (Or.inl rfl)]
  | cons c pre ih =>
    intro post hpre
    obtain ⟨hc1, hc2, hc3, hc4⟩ := hpre c (List.mem_cons_self _ _)
    rw [List.cons_append, stringSpec_cons,
      if_neg (fun hor => hor.elim hc1 hc2), if_neg hc3, if_neg hc4,
      ih post (fun d hd => hpre d (List.mem_cons_of_mem _ hd))]

/-- A sentinel code point right after a backslash — at any depth — makes the
string contract an unterminated escape, regardless of what follows. -/
theorem stringSpec_pre_badEsc : ∀ (pre post : List Char),
    (∀ c ∈ pre, c ≠ sentinel ∧ c ≠ '\n' ∧ c ≠ bslash ∧ c ≠ dquote) →
    stringSpec (pre ++ bslash :: sentinel :: post) = StrRes.badEsc := by
  intro pre
  induction pre with
  | nil =>
    intro post _
    rw [List.nil_append]
    rfl
  | cons c pre ih =>
    intro post hpre
    obtain ⟨hc1, hc2, hc3, hc4⟩ := hpre c (List.mem_cons_self _ _)
    rw [List.cons_append, stringSpec_cons,
      if_neg (fun hor => hor.elim hc1 hc2), if_neg hc3, if_neg hc4,
      ih post (fun d hd => hpre d (List.mem_cons_of_mem _ hd))]

/-- The raw-string loop hits an interior sentinel — any depth, any
following input — and reports the unterminated error, as long as no closing
backquote comes first. -/
theorem scanRawLoop_pre : ∀ (pre : List Char) (f : Nat) (lx : Lexer) (b : List Char)
    (l c : Nat) (post : List Char),
    lx.src.length - lx.i < f →
    lx.src.drop lx.i = pre ++ sentinel :: post →
    backquote ∉ pre →
    (scanRawLoop f lx b l c).tokens = lx.tokens ∧
    (scanRawLoop f lx b l c).errors = lx.errors ++ [⟨l, c, "unterminated raw string"⟩]
  | [], f, lx, b, l, c, post => by
    intro hf hdrop _
    have hin : lx.i < lx.src.length := by
      have hlen := congrArg List.length hdrop
      rw [List.length_drop] at hlen
      simp at hlen
      omega
    rw [List.nil_append] at hdrop
    have h2 := drop_cons_getD lx.src lx.i hin
    rw [hdrop] at h2
    injection h2 with h3 _
    have hpk : peekT lx 0 = sentinel := by rw [peekT_eq, Nat.add_zero, ← h3]
    rw [scanRawLoop_sentinel f lx b l c hpk (by omega)]
    exact ⟨by rw [errorAt_tokens], by rw [errorAt_errors]⟩
  | hd :: pre, f, lx, b, l, c, post => by
    intro hf hdrop hbq
    have hin : lx.i < lx.src.length := by
      have hlen := congrArg List.length hdrop
      rw [List.length_drop] at hlen
      simp at hlen
      omega
    have h2 := drop_cons_getD lx.src lx.i hin
    rw [hdrop, List.cons_append] at h2
    injection h2 with h3 h4
    have hpk : peekT lx 0 = hd := by rw [peekT_eq, Nat.add_zero, ← h3]
    by_cases hsent : hd = sentinel
    · rw [scanRawLoop_sentinel f lx b l c (by rw [hpk, hsent]) (by omega)]
      exact ⟨by rw [errorAt_tokens], by rw [errorAt_errors]⟩
    · have hhd : hd ≠ backquote := by
        intro hc
        exact hbq (by rw [hc]; exact List.mem_cons_self _ _)
      cases f with
      | zero => exact absurd hf (by omega)
      | succ f =>
        simp only [scanRawLoop]
        rw [if_neg (by rw [hpk]; exact hsent), if_neg (by rw [hpk]; exact hhd)]
        have hadv : (advance lx).2.i = lx.i + 1 := advance_i_lt lx hin
        obtain ⟨ht, he⟩ := scanRawLoop_pre pre f (advance lx).2 (b ++ [peekT lx 0])
          l c post (by rw [advance_src, hadv]; omega)
          (by rw [advance_src, hadv, ← h4]) (fun hc => hbq (List.mem_cons_of_mem _ hc))
        exact ⟨by rw [ht, advance_tokens], by rw [he, advance_errors]⟩

/-- A NUL anywhere inside a raw string — before its closing backquote, with
any input following — is reported as an unterminated raw string. -/
theorem scanRawString_pre (lx : Lexer) (pre post : List Char)
    (hq : peekT lx 0 = backquote)
    (hdrop : lx.src.drop (lx.i + 1) = pre ++ sentinel :: post)
    (hbq : backquote ∉ pre) :
    (scanRawString lx).tokens = lx.tokens ∧
    (scanRawString lx).errors =
      lx.errors ++ [⟨lx.line, lx.col, "unterminated raw string"⟩] := by
  have hne : peekT lx 0 ≠ sentinel := by rw [hq]; decide
  have hin : lx.i < lx.src.length := peekT_lt lx 0 hne
  have hadv : (advance lx).2.i = lx.i + 1 := advance_i_lt lx hin
  have hs : scanRawString lx = scanRawLoop (lx.src.length + 2) (advance lx).2
      [(advance lx).1] lx.line lx.col := rfl
  obtain ⟨ht, he⟩ := scanRawLoop_pre pre (lx.src.length + 2) (advance lx).2
    [(advance lx).1] lx.line lx.col post (by rw [advance_src, hadv]; omega)
    (by rw [advance_src, hadv]; exact hdrop) hbq
  rw [hs]
  exact ⟨by rw [ht, advance_tokens], by rw [he, advance_errors]⟩

/-- The block-comment loop hits an interior sentinel — any depth in the
source, any following input — and reports the unterminated error at the
opener, as long as no comment marker comes first. -/
theorem blockCommentLoop_pre : ∀ (pre : List Char) (f : Nat) (lx : Lexer)
    (depth sl sc : Nat) (post : List Char),
    0 < depth →
    lx.src.length - lx.i < f →
    lx.src.drop lx.i = pre ++ sentinel :: post →
    (∀ ch ∈ pre, ch ≠ '/' ∧ ch ≠ '*') →
    (blockCommentLoop f lx depth sl sc).1.tokens = lx.tokens ∧
    (blockCommentLoop f lx depth sl sc).1.errors =
      lx.errors ++ [⟨sl, sc, "unterminated block comment"⟩] ∧
    (blockCommentLoop f lx depth sl sc).2 = false
  | [], f, lx, depth, sl, sc, post => by
    intro hd hf hdrop _
    have hin : lx.i < lx.src.length := by
      have hlen := congrArg List.length hdrop
      rw [List.length_drop] at hlen
      simp at hlen
      omega
    rw [List.nil_append] at hdrop
    have h2 := drop_cons_getD lx.src lx.i hin
    rw [hdrop] at h2
    injection h2 with h3 _
    have hpk : peekT lx 0 = sentinel := by rw [peekT_eq, Nat.add_zero, ← h3]
    rw [blockCommentLoop_sentinel f lx depth sl sc hd hpk (by omega)]
    exact ⟨rfl, rfl, rfl⟩
  | hd :: pre, f, lx, depth, sl, sc, post => by
    intro hdep hf hdrop hpre
    have hin : lx.i < lx.src.length := by
      have hlen := congrArg List.length hdrop
      rw [List.length_drop] at hlen
      simp at hlen
      omega
    have h2 := drop_cons_getD lx.src lx.i hin
    rw [hdrop, List.cons_append] at h2
    injection h2 with h3 h4
    have hpk : peekT lx 0 = hd := by rw [peekT_eq, Nat.add_zero, ← h3]
    by_cases hsent : hd = sentinel
    · rw [blockCommentLoop_sentinel f lx depth sl sc hdep (by rw [hpk, hsent]) (by omega)]
      exact ⟨rfl, rfl, rfl⟩
    · obtain ⟨hhd1, hhd2⟩ := hpre hd (List.mem_cons_self _ _)
      cases f with
      | zero => exact absurd hf (by omega)
      | succ f =>
        simp only [blockCommentLoop]
        rw [if_pos hdep, if_neg (by rw [hpk]; exact hsent),
          if_neg (fun hc => hhd1 (hpk.symm.trans hc.1)),
          if_neg (fun hc => hhd2 (hpk.symm.trans hc.1))]
        have hadv : (advance lx).2.i = lx.i + 1 := advance_i_lt lx hin
        obtain ⟨ht, he, hfl⟩ := blockCommentLoop_pre pre f (advance lx).2 depth sl sc
          post hdep (by rw [advance_src, hadv]; omega)
          (by rw [advance_src, hadv, ← h4]) (fun d hdm => hpre d (List.mem_cons_of_mem _ hdm))
        exact ⟨by rw [ht, advance_tokens], by rw [he, advance_errors], hfl⟩

/-- The skipping loop entered at a block-comment opener whose body holds a
sentinel before any comment marker reports the unterminated error at the
opener, regardless of what follows. -/
theorem skipLoop_block_pre (f : Nat) (lx : Lexer) (pre post : List Char) (hf : 0 < f)
    (h0 : peekT lx 0 = '/') (h1 : peekT lx 1 = '*')
    (hd2 : (advance (advance lx).2).2.src.drop (advance (advance lx).2).2.i =
      pre ++ sentinel :: post)
    (hflen : (advance (advance lx).2).2.src.length - (advance (advance lx).2).2.i <
      lx.src.length + 2)
    (hpre : ∀ ch ∈ pre, ch ≠ '/' ∧ ch ≠ '*') :
    (skipLoop f lx).tokens = lx.tokens ∧
    (skipLoop f lx).errors =
      lx.errors ++ [⟨lx.line, lx.col, "unterminated block comment"⟩] := by
  cases f with
  | zero => exact absurd hf (lt_irrefl 0)
  | succ f =>
    simp only [skipLoop]
    rw [if_neg (by rw [h0]; decide)]
    rw [if_neg (fun hc => absurd hc.2 (by rw [h1]; decide))]
    rw [if_pos ⟨h0, h1⟩]
    obtain ⟨hbt, hbe, hbf⟩ := blockCommentLoop_pre pre (lx.src.length + 2)
      (advance (advance lx).2).2 1 lx.line lx.col post (by omega) hflen hd2 hpre
    rw [if_neg (by rw [hbf]; exact Bool.false_ne_true)]
    exact ⟨by rw [hbt, advance_tokens, advance_tokens],
      by rw [hbe, advance_errors, advance_errors]⟩

/-- A NUL anywhere inside a block comment — before any comment marker, with
any input following — makes `skipWSAndComments` report the unterminated
error at the opener. -/
theorem skip_block_pre (lx : Lexer) (pre post : List Char)
    (h0 : peekT lx 0 = '/') (h1 : peekT lx 1 = '*')
    (hdrop : lx.src.drop (lx.i + 2) = pre ++ sentinel :: post)
    (hpre : ∀ ch ∈ pre, ch ≠ '/' ∧ ch ≠ '*') :
    (skipWSAndComments lx).tokens = lx.tokens ∧
    (skipWSAndComments lx).errors =
      lx.errors ++ [⟨lx.line, lx.col, "unterminated block comment"⟩] := by
  have hin0 : lx.i < lx.src.length := by
    have := peekT_lt lx 0 (by rw [h0]; decide)
    omega
  have hin1 : lx.i + 1 < lx.src.length := peekT_lt lx 1 (by rw [h1]; decide)
  have hadv1 : (advance lx).2.i = lx.i + 1 := advance_i_lt lx hin0
  have hadv2 : (advance (advance lx).2).2.i = lx.i + 2 := by
    rw [advance_i_lt _ (by rw [advance_src, hadv1]; exact hin1), hadv1]
  exact skipLoop_block_pre (lx.src.length + 2) lx pre post (by omega) h0 h1
    (by rw [advance_src, advance_src, hadv2]; exact hdrop)
    (by rw [advance_src, advance_src, hadv2]; omega) hpre

/-- A char literal whose escape position holds the sentinel code point is
reported as an unterminated char escape, regardless of what follows. -/
theorem scanChar_esc_sentinel (lx : Lexer) (hq : peekT lx 0 = squote)
    (hb : peekT lx 1 = bslash) (hs : peekT lx 2 = sentinel) :
    (scanChar lx).tokens = lx.tokens ∧
    (scanChar lx).errors =
      lx.errors ++ [⟨lx.line, lx.col, "unterminated char escape"⟩] := by
  have hne : peekT lx 0 ≠ sentinel := by rw [hq]; decide
  have hin0 : lx.i < lx.src.length := peekT_lt lx 0 hne
  have hb2 : peekT (advance lx).2 0 = bslash := by
    rw [peekT_advance lx hin0 0]
    exact hb
  have hin1 : (advance lx).2.i < (advance lx).2.src.length :=
    peekT_lt _ 0 (by rw [hb2]; decide)
  have hs2 : peekT (advance (advance lx).2).2 0 = sentinel := by
    rw [peekT_advance _ hin1 0, peekT_advance lx hin0 1]
    exact hs
  have hsc : scanChar lx = errorAt (advance (advance lx).2).2 lx.line lx.col
      "unterminated char escape" := by
    simp only [scanChar]
    rw [if_pos hb2, if_pos (Or.inl hs2)]
  rw [hsc]
  exact ⟨by rw [errorAt_tokens, advance_tokens, advance_tokens],
    by rw [errorAt_errors, advance_errors, advance_errors]⟩

/-- A char literal with an ordinary content code point whose closing
position holds the sentinel code point is reported as an unterminated char
literal, regardless of what follows. -/
theorem scanChar_close_sentinel (lx : Lexer) (hq : peekT lx 0 = squote)
    (hnb : peekT lx 1 ≠ bslash)
    (hno : ¬(peekT lx 1 = sentinel ∨ peekT lx 1 = '\n' ∨ peekT lx 1 = squote))
    (hs : peekT lx 2 = sentinel) :
    (scanChar lx).tokens = lx.tokens ∧
    (scanChar lx).errors =
      lx.errors ++ [⟨lx.line, lx.col, "unterminated char literal"⟩] := by
  have hne : peekT lx 0 ≠ sentinel := by rw [hq]; decide
  have hin0 : lx.i < lx.src.length := peekT_lt lx 0 hne
  have hnb2 : peekT (advance lx).2 0 ≠ bslash := by
    rw [peekT_advance lx hin0 0]
    exact hnb
  have hno2 : ¬(peekT (advance lx).2 0 = sentinel ∨ peekT (advance lx).2 0 = '\n' ∨
      peekT (advance lx).2 0 = squote) := by
    rw [peekT_advance lx hin0 0]
    exact hno
  have hin1 : (advance lx).2.i < (advance lx).2.src.length :=
    peekT_lt _ 0 (fun hc => hno2 (Or.inl hc))
  have hs2 : peekT (advance (advance lx).2).2 0 = sentinel := by
    rw [peekT_advance _ hin1 0, peekT_advance lx hin0 1]
    exact hs
  have hsc : scanChar lx = scanCharClose (advance (advance lx).2).2
      ([(advance lx).1] ++ [peekT (advance lx).2 0]) lx.line lx.col := by
    simp only [scanChar]
    rw [if_neg hnb2, if_neg hno2]
  rw [hsc]
  unfold scanCharClose
  rw [if_pos (show peekT (advance (advance lx).2).2 0 ≠ squote by rw [hs2]; decide)]
  exact ⟨by rw [errorAt_tokens, advance_tokens, advance_tokens],
    by rw [errorAt_errors, advance_errors, advance_errors]⟩

/-! ### The claims -/

/-- Claim C1: as stated, concatenating all token lexemes and all skipped
trivia of one full run reproduces the input exactly.  Corrected: an
error-triggering attempt consumes code points that belong to neither a token
nor trivia, and a NUL stops the run early, so the concatenation reproduces
only the consumed prefix; adding the spans consumed by error-triggering
attempts (`runPieces`) always reproduces the consumed prefix `seg src 0
(LexAll ...).i`, and on an error-free run tokens plus trivia alone already
do. -/
theorem claim_C1 (src : List Char) :
    runPieces (NewLexer src) = seg src 0 (LexAll (NewLexer src)).i ∧
    ((LexAll (NewLexer src)).errors = [] →
      tokensTriviaConcat (NewLexer src) = seg src 0 (LexAll (NewLexer src)).i) := by
  constructor
  · exact runPiecesF_eq (src.length + 2) (NewLexer src) (wf_new src)
  · intro he
    exact tokensTriviaF_eq (src.length + 2) (NewLexer src) (wf_new src) he

/-- Claim C1 counterexample: on the input `@`, the run consumes the one code
point (the cursor ends at 1) but produces no token and no trivia, so tokens
plus trivia concatenate to the empty string, not to the input. -/
theorem claim_C1_cx :
    tokensTriviaConcat (NewLexer ['@']) = [] ∧
    (LexAll (NewLexer ['@'])).i = 1 ∧
    seg ['@'] 0 1 = ['@'] ∧
    ([] : List Char) ≠ ['@'] := by
  decide

/-- Claim C1 witness at the error-free input `if`. -/
theorem claim_C1_witness :
    runPieces (NewLexer ['i', 'f']) = seg ['i', 'f'] 0 (LexAll (NewLexer ['i', 'f'])).i ∧
    tokensTriviaConcat (NewLexer ['i', 'f']) =
      seg ['i', 'f'] 0 (LexAll (NewLexer ['i', 'f'])).i :=
  ⟨(claim_C1 ['i', 'f']).1, (claim_C1 ['i', 'f']).2 (by decide)⟩

/-- Claim C2: as stated, whenever `nextToken` is invoked with the cursor not
at end of input the cursor strictly increases.  Corrected: a NUL code point
inside the buffer makes `nextToken` return false without moving even though
the cursor is not at end of input (see the counterexample); what holds is
that every step that returns true strictly advances the cursor, and the run
always reaches a state on which `nextToken` reports no more tokens, so
`LexAll` terminates. -/
theorem claim_C2 (lx : Lexer) :
    ((nextToken lx).1 = true → lx.i < (nextToken lx).2.i) ∧
    (Wf lx → (nextToken (LexAll lx)).1 = false) :=
  ⟨nextToken_progress lx, fun hwf => lexAllF_done (lx.src.length + 2) lx hwf (by omega)⟩

/-- Claim C2 counterexample: on the one-code-point input U+0000 the cursor
(0) is strictly inside the buffer, yet `nextToken` returns false and leaves
the cursor unmoved. -/
theorem claim_C2_cx :
    (NewLexer [sentinel]).i < (NewLexer [sentinel]).src.length ∧
    (nextToken (NewLexer [sentinel])).1 = false ∧
    (nextToken (NewLexer [sentinel])).2.i = (NewLexer [sentinel]).i := by
  decide

/-- Claim C2 witness at the input `a`. -/
theorem claim_C2_witness :
    ((NewLexer ['a']).i < (nextToken (NewLexer ['a'])).2.i) ∧
    (nextToken (LexAll (NewLexer ['a']))).1 = false :=
  ⟨(claim_C2 (NewLexer ['a'])).1 (by decide), (claim_C2 (NewLexer ['a'])).2 (wf_new ['a'])⟩

/-- Claim C3 (code bug): `peek` is total on nonnegative offsets and returns
the sentinel when out of bounds, but the Go code checks only the upper bound
(`if lx.i+offset >= lx.length`), so a negative offset with the cursor at or
near 0 indexes `lx.src` at a negative position and panics — modelled here by
`peek` returning `none`; in particular `peek (-1)` at cursor 0 does not
return the sentinel, contradicting the spec.  Look-behind is safe only once
the cursor has moved (`peek_neg_one`). -/
theorem claim_C3 :
    peek (NewLexer ['a']) (-1) = none ∧
    (∀ (lx : Lexer) (n : Nat), peek lx (n : Int) = some (peekT lx n)) ∧
    (∀ lx : Lexer, 1 ≤ lx.i → peek lx (-1) = some (peekBack lx)) :=
  ⟨by decide, peek_nonneg, peek_neg_one⟩

/-- Claim C4: every malformed numeric literal yields exactly one error with
the corresponding message, at the line and column of the literal's first
code point, and no token: a base-prefixed literal whose digit run is empty
or fails underscore validation yields the base-specific message (`baseMsg`),
an exponent marker without a following digit yields "invalid float
exponent", and a decimal lexeme failing underscore validation yields
"illegal underscore placement in number". -/
theorem claim_C4 (lx : Lexer) :
    (∀ base : Char, peekT lx 0 = '0' → peekT lx 1 = base →
      (base = 'x' ∨ base = 'X' ∨ base = 'b' ∨ base = 'B' ∨ base = 'o' ∨ base = 'O') →
      (((lx.src.drop (lx.i + 2)).takeWhile (isBaseDigit base)) = [] ∨
        validUnderscores ((lx.src.drop (lx.i + 2)).takeWhile (isBaseDigit base)) = false) →
      (scanNumber lx).tokens = lx.tokens ∧
      (scanNumber lx).errors = lx.errors ++ [⟨lx.line, lx.col, baseMsg base⟩]) ∧
    (isDigitU (peekT lx 0) = true →
      (peekT lx 0 = '0' && (peekT lx 1 = 'x' || peekT lx 1 = 'X' || peekT lx 1 = 'b' ||
        peekT lx 1 = 'B' || peekT lx 1 = 'o' || peekT lx 1 = 'O')) = false →
      ((decHasExp lx.src lx.i = true ∧
          isDigitU (lx.src.getD (decExpDigitPos lx.src lx.i) sentinel) = false →
        (scanNumber lx).tokens = lx.tokens ∧
        (scanNumber lx).errors = lx.errors ++ [⟨lx.line, lx.col, "invalid float exponent"⟩]) ∧
      (¬(decHasExp lx.src lx.i = true ∧
          isDigitU (lx.src.getD (decExpDigitPos lx.src lx.i) sentinel) = false) →
        validUnderscores (seg lx.src lx.i (decEnd lx.src lx.i)) = false →
        (scanNumber lx).tokens = lx.tokens ∧
        (scanNumber lx).errors = lx.errors ++
          [⟨lx.line, lx.col, "illegal underscore placement in number"⟩]))) := by
  constructor
  · intro base h0 h1 hb herr
    obtain ⟨_, _, _, hif⟩ := scanNumber_base lx base h0 h1 hb
    rw [if_pos herr] at hif
    exact hif
  · intro hd hnb
    obtain ⟨_, _, _, hif⟩ := scanNumber_dec_spec lx hd hnb
    constructor
    · intro hexp
      rw [if_pos hexp] at hif
      exact hif
    · intro hnexp hvu
      rw [if_neg hnexp, if_pos hvu] at hif
      exact ⟨hif.1, hif.2.2⟩

/-- Claim C4 witness: the malformed literals `0x_1` (invalid hex), `1e+`
(invalid float exponent) and `123_` (illegal underscore placement). -/
theorem claim_C4_witness :
    ((scanNumber (NewLexer ['0', 'x', '_', '1'])).tokens =
        (NewLexer ['0', 'x', '_', '1']).tokens ∧
      (scanNumber (NewLexer ['0', 'x', '_', '1'])).errors =
        (NewLexer ['0', 'x', '_', '1']).errors ++
          [⟨(NewLexer ['0', 'x', '_', '1']).line, (NewLexer ['0', 'x', '_', '1']).col,
            baseMsg 'x'⟩]) ∧
    ((scanNumber (NewLexer ['1', 'e', '+'])).tokens = (NewLexer ['1', 'e', '+']).tokens ∧
      (scanNumber (NewLexer ['1', 'e', '+'])).errors =
        (NewLexer ['1', 'e', '+']).errors ++
          [⟨(NewLexer ['1', 'e', '+']).line, (NewLexer ['1', 'e', '+']).col,
            "invalid float exponent"⟩]) ∧
    ((scanNumber (NewLexer ['1', '2', '3', '_'])).tokens =
        (NewLexer ['1', '2', '3', '_']).tokens ∧
      (scanNumber (NewLexer ['1', '2', '3', '_'])).errors =
        (NewLexer ['1', '2', '3', '_']).errors ++
          [⟨(NewLexer ['1', '2', '3', '_']).line, (NewLexer ['1', '2', '3', '_']).col,
            "illegal underscore placement in number"⟩]) :=
  ⟨(claim_C4 (NewLexer ['0', 'x', '_', '1'])).1 'x' (by decide) (by decide) (by decide)
      (by decide),
   ((claim_C4 (NewLexer ['1', 'e', '+'])).2 (by decide) (by decide)).1 (by decide),
   ((claim_C4 (NewLexer ['1', '2', '3', '_'])).2 (by decide) (by decide)).2 (by decide)
      (by decide)⟩

/-- Claim C5: a maximal identifier run is scanned into one token — the
keyword of the lowercased run when the keyword table has it, else the
type-name token when the original-case run is a type name, else an
identifier — whose lexeme is the original-case source text, with no error
recorded and the cursor past exactly the run. -/
theorem claim_C5 (lx : Lexer) (h : isIdentStart (peekT lx 0) = true) :
    (scanIdentOrKeyword lx).src = lx.src ∧
    (scanIdentOrKeyword lx).errors = lx.errors ∧
    (scanIdentOrKeyword lx).tokens = lx.tokens ++
      [⟨(match keywordLookup (((lx.src.drop lx.i).takeWhile isIdentPart).map lowerChar) with
         | some t => t
         | none =>
           if typeNames.contains ((lx.src.drop lx.i).takeWhile isIdentPart) then
             TokenType.TYPE_NAME
           else TokenType.IDENT),
        (lx.src.drop lx.i).takeWhile isIdentPart, lx.line, lx.col⟩] ∧
    (scanIdentOrKeyword lx).i = lx.i + ((lx.src.drop lx.i).takeWhile isIdentPart).length ∧
    Walk lx (scanIdentOrKeyword lx) :=
  scanIdentOrKeyword_spec lx h

/-- Claim C5 witness at the mixed-case keyword spelling `If`. -/
theorem claim_C5_witness :
    (scanIdentOrKeyword (NewLexer ['I', 'f'])).src = (NewLexer ['I', 'f']).src ∧
    (scanIdentOrKeyword (NewLexer ['I', 'f'])).errors = (NewLexer ['I', 'f']).errors ∧
    (scanIdentOrKeyword (NewLexer ['I', 'f'])).tokens = (NewLexer ['I', 'f']).tokens ++
      [⟨(match keywordLookup ((((NewLexer ['I', 'f']).src.drop
            (NewLexer ['I', 'f']).i).takeWhile isIdentPart).map lowerChar) with
         | some t => t
         | none =>
           if typeNames.contains (((NewLexer ['I', 'f']).src.drop
               (NewLexer ['I', 'f']).i).takeWhile isIdentPart) then
             TokenType.TYPE_NAME
           else TokenType.IDENT),
        ((NewLexer ['I', 'f']).src.drop (NewLexer ['I', 'f']).i).takeWhile isIdentPart,
        (NewLexer ['I', 'f']).line, (NewLexer ['I', 'f']).col⟩] ∧
    (scanIdentOrKeyword (NewLexer ['I', 'f'])).i = (NewLexer ['I', 'f']).i +
      (((NewLexer ['I', 'f']).src.drop (NewLexer ['I', 'f']).i).takeWhile isIdentPart).length ∧
    Walk (NewLexer ['I', 'f']) (scanIdentOrKeyword (NewLexer ['I', 'f'])) :=
  claim_C5 (NewLexer ['I', 'f']) (by decide)

/-- Claim C6: as stated, "unterminated string literal" occurs only when end
of input or an unescaped newline is reached before a closing quote.
Corrected: the scanner also reports it at a NUL code point (conflated with
end of input) even when a closing quote follows (see the counterexample);
with that amendment the scanner realises the contract `stringSpec` exactly:
stop at the first closing quote not consumed as the second half of a
backslash pair, emit one STRING_LIT token whose lexeme is the exact consumed
text with both quotes and escapes undecoded, else report "unterminated
string escape" when the sentinel or a newline immediately follows a
backslash, and "unterminated string literal" when the sentinel or an
unescaped newline is reached first, emitting no token in either error
case. -/
theorem claim_C6 (lx : Lexer) (hq : peekT lx 0 = dquote) :
    Walk lx (scanString lx) ∧
    (∀ cs, stringSpec (lx.src.drop (lx.i + 1)) = StrRes.ok cs →
      (scanString lx).errors = lx.errors ∧
      (scanString lx).tokens =
        lx.tokens ++ [⟨TokenType.STRING_LIT, dquote :: cs, lx.line, lx.col⟩] ∧
      (scanString lx).i = lx.i + 1 + cs.length) ∧
    (stringSpec (lx.src.drop (lx.i + 1)) = StrRes.uterm →
      (scanString lx).tokens = lx.tokens ∧
      (scanString lx).errors =
        lx.errors ++ [⟨lx.line, lx.col, "unterminated string literal"⟩]) ∧
    (stringSpec (lx.src.drop (lx.i + 1)) = StrRes.badEsc →
      (scanString lx).tokens = lx.tokens ∧
      (scanString lx).errors =
        lx.errors ++ [⟨lx.line, lx.col, "unterminated string escape"⟩]) := by
  obtain ⟨hw, hm⟩ := scanString_spec lx hq
  refine ⟨hw, ?_, ?_, ?_⟩
  · intro cs hcs
    rw [hcs] at hm
    exact hm
  · intro hcs
    rw [hcs] at hm
    exact hm
  · intro hcs
    rw [hcs] at hm
    exact hm

/-- Claim C6 counterexample: a string whose content is a NUL code point is
reported unterminated although a closing quote follows and the input holds
no newline. -/
theorem claim_C6_cx :
    (scanString (NewLexer [dquote, sentinel, dquote])).tokens = [] ∧
    (scanString (NewLexer [dquote, sentinel, dquote])).errors =
      [⟨1, 1, "unterminated string literal"⟩] ∧
    (NewLexer [dquote, sentinel, dquote]).src.getD 2 sentinel = dquote ∧
    (∀ ch ∈ (NewLexer [dquote, sentinel, dquote]).src, ch ≠ '\n') := by
  decide

/-- Claim C6 witness at the well-formed string `"a"`. -/
theorem claim_C6_witness :
    (scanString (NewLexer [dquote, 'a', dquote])).errors =
      (NewLexer [dquote, 'a', dquote]).errors ∧
    (scanString (NewLexer [dquote, 'a', dquote])).tokens =
      (NewLexer [dquote, 'a', dquote]).tokens ++
        [⟨TokenType.STRING_LIT, dquote :: ['a', dquote],
          (NewLexer [dquote, 'a', dquote]).line, (NewLexer [dquote, 'a', dquote]).col⟩] ∧
    (scanString (NewLexer [dquote, 'a', dquote])).i =
      (NewLexer [dquote, 'a', dquote]).i + 1 + (['a', dquote] : List Char).length :=
  (claim_C6 (NewLexer [dquote, 'a', dquote]) (by decide)).2.1 ['a', dquote] (by decide)

/-- Claim C7: `validUnderscores` returns false exactly on the strings the
specification's rule rejects, and this predicate is the gate for the
underscore errors of both the base-prefixed and the decimal branch of
`scanNumber`. -/
theorem claim_C7 :
    (∀ s : List Char, validUnderscores s = false ↔ underscoreReject s) ∧
    (∀ (lx : Lexer) (base : Char), peekT lx 0 = '0' → peekT lx 1 = base →
      (base = 'x' ∨ base = 'X' ∨ base = 'b' ∨ base = 'B' ∨ base = 'o' ∨ base = 'O') →
      ((lx.src.drop (lx.i + 2)).takeWhile (isBaseDigit base)) ≠ [] →
      ((scanNumber lx).errors ≠ lx.errors ↔
        validUnderscores ((lx.src.drop (lx.i + 2)).takeWhile (isBaseDigit base)) = false)) ∧
    (∀ lx : Lexer, isDigitU (peekT lx 0) = true →
      (peekT lx 0 = '0' && (peekT lx 1 = 'x' || peekT lx 1 = 'X' || peekT lx 1 = 'b' ||
        peekT lx 1 = 'B' || peekT lx 1 = 'o' || peekT lx 1 = 'O')) = false →
      ¬(decHasExp lx.src lx.i = true ∧
          isDigitU (lx.src.getD (decExpDigitPos lx.src lx.i) sentinel) = false) →
      ((scanNumber lx).errors ≠ lx.errors ↔
        validUnderscores (seg lx.src lx.i (decEnd lx.src lx.i)) = false)) := by
  refine ⟨validUnderscores_false_iff, ?_, ?_⟩
  · intro lx base h0 h1 hb hrun
    obtain ⟨_, _, _, hif⟩ := scanNumber_base lx base h0 h1 hb
    rcases Bool.eq_false_or_eq_true
        (validUnderscores ((lx.src.drop (lx.i + 2)).takeWhile (isBaseDigit base)))
      with hv | hv
    · have hcond : ¬(((lx.src.drop (lx.i + 2)).takeWhile (isBaseDigit base)) = [] ∨
          validUnderscores ((lx.src.drop (lx.i + 2)).takeWhile (isBaseDigit base)) = false) := by
        rintro (hc | hc)
        · exact hrun hc
        · rw [hv] at hc
          exact absurd hc (by decide)
      rw [if_neg hcond] at hif
      constructor
      · intro hne
        exact absurd hif.1 hne
      · intro hf
        rw [hf] at hv
        exact absurd hv (by decide)
    · rw [if_pos (Or.inr hv)] at hif
      exact ⟨fun _ => hv, fun _ => by
        rw [hif.2]
        exact Ne.symm (list_ne_append_singleton lx.errors _)⟩
  · intro lx hd hnb hnexp
    obtain ⟨_, _, _, hif⟩ := scanNumber_dec_spec lx hd hnb
    rw [if_neg hnexp] at hif
    rcases Bool.eq_false_or_eq_true
        (validUnderscores (seg lx.src lx.i (decEnd lx.src lx.i))) with hv | hv
    · rw [if_neg (by rw [hv]; decide)] at hif
      constructor
      · intro hne
        exact absurd hif.1 hne
      · intro hf
        rw [hf] at hv
        exact absurd hv (by decide)
    · rw [if_pos hv] at hif
      exact ⟨fun _ => hv, fun _ => by
        rw [hif.2.2]
        exact Ne.symm (list_ne_append_singleton lx.errors _)⟩

/-- Claim C7 witness: the characterization at `1_2` (accepted) and `1__2`
(rejected), and the gate at the hex literal `0x1_`. -/
theorem claim_C7_witness :
    (validUnderscores ['1', '_', '_', '2'] = false ↔ underscoreReject ['1', '_', '_', '2']) ∧
    ((scanNumber (NewLexer ['0', 'x', '1', '_'])).errors ≠
        (NewLexer ['0', 'x', '1', '_']).errors ↔
      validUnderscores (((NewLexer ['0', 'x', '1', '_']).src.drop
          ((NewLexer ['0', 'x', '1', '_']).i + 2)).takeWhile (isBaseDigit 'x')) = false) :=
  ⟨claim_C7.1 ['1', '_', '_', '2'],
   claim_C7.2.1 (NewLexer ['0', 'x', '1', '_']) 'x' (by decide) (by decide) (by decide)
     (by decide)⟩

/-- Claim C8: as stated, the lone input `@` yields zero tokens, one error at
1:1 rendering the character in DOUBLE quotes, and normal termination.
Corrected: everything holds except the quoting — the Go verb `%q` applied to
a rune renders single quotes, so the message holds a single-quoted `@`. -/
theorem claim_C8 :
    (LexAll (NewLexer ['@'])).tokens = [] ∧
    (LexAll (NewLexer ['@'])).errors =
      [⟨1, 1, "invalid character " ++ goQuoteRune '@'⟩] ∧
    goQuoteRune '@' = String.mk [squote, '@', squote] ∧
    (nextToken (LexAll (NewLexer ['@']))).1 = false ∧
    (LexAll (NewLexer ['@'])).i = 1 := by
  decide

/-- Claim C8 counterexample: the rendered character is single-quoted, not
double-quoted as the spec states. -/
theorem claim_C8_cx :
    goQuoteRune '@' = String.mk [squote, '@', squote] ∧
    goQuoteRune '@' ≠ String.mk [dquote, '@', dquote] ∧
    (LexAll (NewLexer ['@'])).errors =
      [⟨1, 1, "invalid character " ++ String.mk [squote, '@', squote]⟩] := by
  decide

/-- Claim C10: the rune 0 sentinel conflates an in-buffer NUL with end of
input: lexing stops at any post-trivia NUL with the rest of the input never
scanned, a successfully scanned string never contains a NUL, and a NUL
inside a double-quoted string, raw string, or block comment yields the
corresponding "unterminated" error at the construct's start even with more
input following (a NUL directly after a backslash in a string yields
"unterminated string escape" instead).  Corrected: inside a char literal
the NUL at the content position yields "empty or invalid char literal", not
an "unterminated" message (see the counterexample); the escape and closing
positions do yield "unterminated char escape" and "unterminated char
literal". -/
theorem claim_C10 :
    (∀ lx : Lexer, peekT (skipWSAndComments lx) 0 = sentinel →
      nextToken lx = (false, skipWSAndComments lx) ∧
      LexAll lx = skipWSAndComments lx) ∧
    (∀ (l cs : List Char), stringSpec l = StrRes.ok cs → sentinel ∉ cs) ∧
    (∀ (lx : Lexer) (pre post : List Char),
      peekT lx 0 = dquote →
      lx.src.drop (lx.i + 1) = pre ++ sentinel :: post →
      (∀ c ∈ pre, c ≠ sentinel ∧ c ≠ '\n' ∧ c ≠ bslash ∧ c ≠ dquote) →
      (scanString lx).tokens = lx.tokens ∧
      (scanString lx).errors =
        lx.errors ++ [⟨lx.line, lx.col, "unterminated string literal"⟩]) ∧
    (∀ (lx : Lexer) (pre post : List Char),
      peekT lx 0 = dquote →
      lx.src.drop (lx.i + 1) = pre ++ bslash :: sentinel :: post →
      (∀ c ∈ pre, c ≠ sentinel ∧ c ≠ '\n' ∧ c ≠ bslash ∧ c ≠ dquote) →
      (scanString lx).tokens = lx.tokens ∧
      (scanString lx).errors =
        lx.errors ++ [⟨lx.line, lx.col, "unterminated string escape"⟩]) ∧
    (∀ (lx : Lexer) (pre post : List Char),
      peekT lx 0 = backquote →
      lx.src.drop (lx.i + 1) = pre ++ sentinel :: post →
      backquote ∉ pre →
      (scanRawString lx).tokens = lx.tokens ∧
      (scanRawString lx).errors =
        lx.errors ++ [⟨lx.line, lx.col, "unterminated raw string"⟩]) ∧
    (∀ (lx : Lexer) (pre post : List Char),
      peekT lx 0 = '/' → peekT lx 1 = '*' →
      lx.src.drop (lx.i + 2) = pre ++ sentinel :: post →
      (∀ ch ∈ pre, ch ≠ '/' ∧ ch ≠ '*') →
      (skipWSAndComments lx).tokens = lx.tokens ∧
      (skipWSAndComments lx).errors =
        lx.errors ++ [⟨lx.line, lx.col, "unterminated block comment"⟩]) ∧
    (∀ lx : Lexer, peekT lx 0 = squote → peekT lx 1 = sentinel →
      (scanChar lx).tokens = lx.tokens ∧
      (scanChar lx).errors =
        lx.errors ++ [⟨lx.line, lx.col, "empty or invalid char literal"⟩]) ∧
    (∀ lx : Lexer, peekT lx 0 = squote → peekT lx 1 = bslash →
      peekT lx 2 = sentinel →
      (scanChar lx).tokens = lx.tokens ∧
      (scanChar lx).errors =
        lx.errors ++ [⟨lx.line, lx.col, "unterminated char escape"⟩]) ∧
    (∀ lx : Lexer, peekT lx 0 = squote → peekT lx 1 ≠ bslash →
      ¬(peekT lx 1 = sentinel ∨ peekT lx 1 = '\n' ∨ peekT lx 1 = squote) →
      peekT lx 2 = sentinel →
      (scanChar lx).tokens = lx.tokens ∧
      (scanChar lx).errors =
        lx.errors ++ [⟨lx.line, lx.col, "unterminated char literal"⟩]) := by
  refine ⟨?_, ?_, ?_, ?_, ?_, ?_, ?_, ?_, ?_⟩
  · intro lx h
    exact ⟨nextToken_eq_false lx h, LexAll_sentinel_stop lx h⟩
  · exact fun l cs h => stringSpec_ok_no_sentinel l cs h
  · intro lx pre post hq hdrop hpre
    obtain ⟨_, hm⟩ := scanString_spec lx hq
    rw [hdrop, stringSpec_pre_uterm pre post hpre] at hm
    exact hm
  · intro lx pre post hq hdrop hpre
    obtain ⟨_, hm⟩ := scanString_spec lx hq
    rw [hdrop, stringSpec_pre_badEsc pre post hpre] at hm
    exact hm
  · exact fun lx pre post hq hdrop hbq => scanRawString_pre lx pre post hq hdrop hbq
  · exact fun lx pre post h0 h1 hdrop hpre => skip_block_pre lx pre post h0 h1 hdrop hpre
  · exact fun lx hq hs => scanChar_sentinel lx hq hs
  · exact fun lx hq hb hs => scanChar_esc_sentinel lx hq hb hs
  · exact fun lx hq hnb hno hs => scanChar_close_sentinel lx hq hnb hno hs

/-- Claim C10 witness: a NUL buried inside a string literal — one content
code point in, closing quote and more input following — yields the
unterminated string literal error. -/
theorem claim_C10_witness :
    (scanString (NewLexer [dquote, 'a', sentinel, dquote, 'z'])).tokens =
      (NewLexer [dquote, 'a', sentinel, dquote, 'z']).tokens ∧
    (scanString (NewLexer [dquote, 'a', sentinel, dquote, 'z'])).errors =
      (NewLexer [dquote, 'a', sentinel, dquote, 'z']).errors ++
        [⟨(NewLexer [dquote, 'a', sentinel, dquote, 'z']).line,
          (NewLexer [dquote, 'a', sentinel, dquote, 'z']).col,
          "unterminated string literal"⟩] :=
  claim_C10.2.2.1 (NewLexer [dquote, 'a', sentinel, dquote, 'z']) ['a'] [dquote, 'z']
    (by decide) (by decide) (by decide)


/-- Claim C10 counterexample: a char literal holding a NUL, with the closing
quote and more input following, yields "empty or invalid char literal" — not
an "unterminated" message as the claim states. -/
theorem claim_C10_cx :
    (LexAll (NewLexer [squote, sentinel, squote, 'x'])).errors =
      [⟨1, 1, "empty or invalid char literal"⟩] ∧
    ("empty or invalid char literal" : String) ≠ "unterminated char literal" ∧
    (NewLexer [squote, sentinel, squote, 'x']).src.getD 1 sentinel = sentinel := by
  decide

end GoLexer
